import Mathlib

/-!
Verification of the append-only weighted-graph library with a shortest-path
engine (`best_path` in the multi-target module, `cheapest_path` in the
single-target module).  The data model and both engines are embedded shallowly:
machine indices become `Nat`, the numeric cost type (`f64` / the `Cost::Type`
associated type) becomes `ℚ`, fallible indexing becomes `Except`/`Option`, and
the unbounded search loops become fuel-indexed recursion with a fuel proved
sufficient for non-negative costs.
-/

namespace DijkstraRs

abbrev NodeId := Nat
abbrev EdgeId := Nat
abbrev CostType := ℚ

/-- The `Cost` trait: an accessor extracting the scalar cost of an edge's
properties, and the zero value used to seed the search.  The associated
numeric type is instantiated at `ℚ`. -/
class Cost (P : Type) where
  cost : P → CostType
  zero_cost : CostType

structure Node where
  id : NodeId
  incoming : List EdgeId
  outgoing : List EdgeId
deriving Repr, DecidableEq

structure Edge where
  id : EdgeId
  «from» : NodeId
  «to» : NodeId
deriving Repr, DecidableEq

/-- The graph store: four parallel append-only sequences. -/
structure Graph (NodeState EdgeProps : Type) where
  nodes : List Node
  states : List NodeState
  edges : List Edge
  props : List EdgeProps
deriving Repr

variable {NodeState EdgeProps : Type}

def Graph.new : Graph NodeState EdgeProps := ⟨[], [], [], []⟩

/-- `self.nodes[id]` (out-of-range access is guarded by hypotheses where used). -/
def Graph.nodeAt (g : Graph NodeState EdgeProps) (id : NodeId) : Node :=
  g.nodes.getD id ⟨0, [], []⟩

/-- `self.edges[id]`. -/
def Graph.edgeAt (g : Graph NodeState EdgeProps) (id : EdgeId) : Edge :=
  g.edges.getD id ⟨0, 0, 0⟩

/-- `self.props[edge_id].cost()`. -/
def costOf [Cost EdgeProps] (g : Graph NodeState EdgeProps) (id : EdgeId) : CostType :=
  ((g.props.get? id).map Cost.cost).getD 0

/-- `Graph::cost`: sums `props(e).cost()` over the sequence. -/
def Graph.cost [Cost EdgeProps] (g : Graph NodeState EdgeProps) (path : List EdgeId) : CostType :=
  (path.map fun edge_id => costOf g edge_id).sum

/-- `Graph::insert_node`: appends a node record and its state, returns the id. -/
def Graph.insert_node (g : Graph NodeState EdgeProps) (state : NodeState) :
    Graph NodeState EdgeProps × NodeId :=
  let new_node_id := g.nodes.length
  ({ g with
      nodes := g.nodes ++ [⟨new_node_id, [], []⟩]
      states := g.states ++ [state] },
   new_node_id)

def pushOutgoing (n : Node) (e : EdgeId) : Node := { n with outgoing := n.outgoing ++ [e] }

def pushIncoming (n : Node) (e : EdgeId) : Node := { n with incoming := n.incoming ++ [e] }

/-- `Graph::insert_edge`.  The edge record and the props entry are pushed
first; only then are the two adjacency lists reached through indexing, which
panics when `from` (and then `to`) is out of range.  A panic is modelled as
`Except.error` carrying the graph state already mutated up to the panic
point. -/
def Graph.insert_edge (g : Graph NodeState EdgeProps) (f t : NodeId) (props : EdgeProps) :
    Except (Graph NodeState EdgeProps) (Graph NodeState EdgeProps × EdgeId) :=
  let new_edge_id := g.edges.length
  let g1 := { g with
      edges := g.edges ++ [⟨new_edge_id, f, t⟩]
      props := g.props ++ [props] }
  if f < g1.nodes.length then
    let g2 := { g1 with nodes := g1.nodes.modify (pushOutgoing · new_edge_id) f }
    if t < g2.nodes.length then
      Except.ok ({ g2 with nodes := g2.nodes.modify (pushIncoming · new_edge_id) t }, new_edge_id)
    else
      Except.error g2
  else
    Except.error g1

/-- Modelled from the spec: both graph modules declare `mod priority_queue`,
but that module's source file is not part of the repository snapshot, so the
queue is reconstructed from §4.3 of the specification: a min-queue of
(entity id, priority) pairs where `insert` may add duplicate ids,
`extract_min` removes and returns an entry with the smallest priority, and
ties are deterministic with FIFO-like behavior among equal keys.  It is
realised as a stable sorted insertion list: entries are kept sorted by
priority and equal priorities stay in insertion order. -/
structure Heap where
  data : List (Nat × CostType)
deriving Repr, DecidableEq

def Heap.new : Heap := ⟨[]⟩

def insertSorted (x : Nat × CostType) : List (Nat × CostType) → List (Nat × CostType)
  | [] => [x]
  | y :: ys => if y.2 ≤ x.2 then y :: insertSorted x ys else x :: y :: ys

def Heap.insert (h : Heap) (id : Nat) (priority : CostType) : Heap :=
  ⟨insertSorted (id, priority) h.data⟩

def Heap.extract_min (h : Heap) : Option ((Nat × CostType) × Heap) :=
  match h.data with
  | [] => none
  | x :: xs => some (x, ⟨xs⟩)

def Heap.is_empty (h : Heap) : Bool := h.data.isEmpty

/-! ### The multi-target engine `best_path` (explicit closed set) -/

/-- The transient per-query search tables and queue of `best_path`. -/
structure SearchState where
  best_incoming : List (Option EdgeId)
  best_cost : List (Option CostType)
  is_closed : List Bool
  queue : Heap
deriving Repr, DecidableEq

/-- One turn of `best_path`'s inner `for` loop: relax one outgoing edge of the
just-popped node `f` (popped with priority `from_cost`). -/
def relaxEdge [Cost EdgeProps] (g : Graph NodeState EdgeProps) (f : NodeId)
    (from_cost : CostType) (σ : SearchState) (edge_id : EdgeId) : SearchState :=
  let t := (g.edgeAt edge_id).«to»
  if t = f ∨ σ.is_closed.getD t false then σ
  else
    let to_cost := from_cost + costOf g edge_id
    let upd : SearchState :=
      { σ with
        best_cost := σ.best_cost.set t (some to_cost)
        best_incoming := σ.best_incoming.set t (some edge_id)
        queue := σ.queue.insert t to_cost }
    match σ.best_cost.getD t none with
    | none => upd
    | some b => if to_cost < b then upd else σ

/-- One iteration of `best_path`'s `while` loop: pop the minimum entry, mark
its node closed, and relax all its outgoing edges.  `none` means the queue was
empty, i.e. the `while` guard fails. -/
def bestPathStep [Cost EdgeProps] (g : Graph NodeState EdgeProps) (σ : SearchState) :
    Option SearchState :=
  match σ.queue.extract_min with
  | none => none
  | some ((f, from_cost), q) =>
    let σ1 : SearchState := { σ with queue := q, is_closed := σ.is_closed.set f true }
    some (((g.nodeAt f).outgoing).foldl (relaxEdge g f from_cost) σ1)

/-- The `while !queue.is_empty()` loop, indexed by fuel; `none` reports fuel
exhaustion with a still non-empty queue (proved impossible for non-negative
costs with the fuel used by `best_path`). -/
def searchGo [Cost EdgeProps] (g : Graph NodeState EdgeProps) :
    Nat → SearchState → Option SearchState
  | 0, σ => if σ.queue.is_empty then some σ else none
  | fuel + 1, σ =>
    match bestPathStep g σ with
    | none => some σ
    | some σ2 => searchGo g fuel σ2

/-- The search tables as initialised at the top of `best_path`, with the
single seed entry `(source, zero_cost)` already inserted. -/
def initState [Cost EdgeProps] (g : Graph NodeState EdgeProps) (source : NodeId) : SearchState :=
  ⟨List.replicate g.nodes.length none, List.replicate g.nodes.length none,
   List.replicate g.nodes.length false,
   Heap.new.insert source (Cost.zero_cost (P := EdgeProps))⟩

/-- Target selection: among targets with a recorded best cost, the one of
minimum cost; ties keep the first minimum in targets order (`min_by_key`).
The source indexes `best_cost[target]` inside the filter closure, which
panics (index out of range) for a target id that references no node; this
total model reads such an id as having no record.  The fallible indexing is
modelled faithfully by `cheapestTargetChecked` below, which agrees with this
function whenever every target is in range (`cheapestTargetChecked_ok`). -/
def cheapestTarget (best_cost : List (Option CostType)) (targets : List NodeId) : Option NodeId :=
  (targets.filter fun t => (best_cost.getD t none).isSome).foldl
    (fun best t =>
      match best with
      | none => some t
      | some b =>
        if (best_cost.getD t none).getD 0 < (best_cost.getD b none).getD 0 then some t
        else some b)
    none

/-- The filter of the target selection, `targets.iter().filter(|&target|
best_cost[target].is_some())`, with the indexing `best_cost[target]` modelled
as fallible: the first target id out of range is the source's index
out-of-range panic, reported as `Except.error ()` before the remaining
targets are visited. -/
def filterRecordedChecked (best_cost : List (Option CostType)) :
    List NodeId → Except Unit (List NodeId)
  | [] => Except.ok []
  | t :: ts =>
    if t < best_cost.length then
      match filterRecordedChecked best_cost ts with
      | Except.error e => Except.error e
      | Except.ok rest =>
        Except.ok (if (best_cost.getD t none).isSome then t :: rest else rest)
    else Except.error ()

/-- The target selection with the panic of `best_cost[target]` on an
out-of-range target id made explicit; on the surviving (in-range, recorded)
targets the `min_by_key` fold is the same as in `cheapestTarget`, its inner
indexing being in-bounds. -/
def cheapestTargetChecked (best_cost : List (Option CostType))
    (targets : List NodeId) : Except Unit (Option NodeId) :=
  match filterRecordedChecked best_cost targets with
  | Except.error e => Except.error e
  | Except.ok fs =>
    Except.ok (fs.foldl
      (fun best t =>
        match best with
        | none => some t
        | some b =>
          if (best_cost.getD t none).getD 0 < (best_cost.getD b none).getD 0 then some t
          else some b)
      none)

/-- Path reconstruction: walk `best_incoming` backward from `node_id` until
`source`.  The source code pushes each edge and reverses at the end; building
the list by prepending yields the same source-to-target order.  `none` covers
the `unreachable!()` branch (a missing pointer at a non-source node) and any
walk longer than the fuel; the walk is proved to reach `source` within
`nodes.length` steps. -/
def reconstructGo (g : Graph NodeState EdgeProps) (best_incoming : List (Option EdgeId))
    (source : NodeId) : Nat → NodeId → List EdgeId → Option (List EdgeId)
  | fuel, node_id, path =>
    if node_id = source then some path
    else
      match fuel with
      | 0 => none
      | fuel + 1 =>
        match best_incoming.getD node_id none with
        | none => none
        | some edge_id =>
          reconstructGo g best_incoming source fuel (g.edgeAt edge_id).«from» (edge_id :: path)

/-- `Graph::best_path`: the cheapest path from `source` to whichever member of
`targets` is reached most cheaply. -/
def Graph.best_path [Cost EdgeProps] (g : Graph NodeState EdgeProps) (source : NodeId)
    (targets : List NodeId) : Option (List EdgeId) :=
  if source ∈ targets then some []
  else
    match searchGo g (g.edges.length + 1) (initState g source) with
    | none => none
    | some σ =>
      match cheapestTarget σ.best_cost targets with
      | none => none
      | some t => reconstructGo g σ.best_incoming source g.nodes.length t []

/-! ### The single-target engine `cheapest_path` (no closed set) -/

/-- The transient state of `cheapest_path`: one table of
`Option<BestIncoming(EdgeId, CostType)>` plus the queue. -/
structure CheapState where
  best_incoming : List (Option (EdgeId × CostType))
  queue : Heap
deriving Repr, DecidableEq

/-- One turn of `cheapest_path`'s inner `for` loop. -/
def cheapRelax [Cost EdgeProps] (g : Graph NodeState EdgeProps) (f : NodeId)
    (from_cost : CostType) (τ : CheapState) (edge_id : EdgeId) : CheapState :=
  let t := (g.edgeAt edge_id).«to»
  let to_cost := from_cost + costOf g edge_id
  let upd : CheapState :=
    { best_incoming := τ.best_incoming.set t (some (edge_id, to_cost))
      queue := τ.queue.insert t to_cost }
  match τ.best_incoming.getD t none with
  | some (_, c) => if c ≤ to_cost then τ else upd
  | none => upd

/-- One iteration of `cheapest_path`'s `while` loop. -/
def cheapStep [Cost EdgeProps] (g : Graph NodeState EdgeProps) (τ : CheapState) :
    Option CheapState :=
  match τ.queue.extract_min with
  | none => none
  | some ((f, from_cost), q) =>
    some (((g.nodeAt f).outgoing).foldl (cheapRelax g f from_cost) { τ with queue := q })

/-- The `while` loop of `cheapest_path`, fuel-indexed like `searchGo`. -/
def cheapGo [Cost EdgeProps] (g : Graph NodeState EdgeProps) :
    Nat → CheapState → Option CheapState
  | 0, τ => if τ.queue.is_empty then some τ else none
  | fuel + 1, τ =>
    match cheapStep g τ with
    | none => some τ
    | some τ2 => cheapGo g fuel τ2

/-- `cheapest_path`'s initial state: the seed priority is the literal
`source_cost = 0.0`. -/
def cheapInit (g : Graph NodeState EdgeProps) (source : NodeId) : CheapState :=
  ⟨List.replicate g.nodes.length none, Heap.new.insert source 0⟩

/-- Path reconstruction of `cheapest_path` (same walk over the combined
table). -/
def cheapReconstructGo (g : Graph NodeState EdgeProps)
    (best_incoming : List (Option (EdgeId × CostType))) (source : NodeId) :
    Nat → NodeId → List EdgeId → Option (List EdgeId)
  | fuel, node_id, path =>
    if node_id = source then some path
    else
      match fuel with
      | 0 => none
      | fuel + 1 =>
        match best_incoming.getD node_id none with
        | none => none
        | some (edge_id, _) =>
          cheapReconstructGo g best_incoming source fuel (g.edgeAt edge_id).«from» (edge_id :: path)

/-- `Graph::cheapest_path`: single-target search without a closed set; a
stale pop is suppressed only by the `cost <= to_cost` comparison.  The final
`best_incoming.getD target none` reads an out-of-range `target` as `None`
where the source's `best_incoming[target]` panics; the theorems below about
this function either constrain the target to an existing node, take the
`source = target` short-circuit, or compare it with `best_path`, whose
selection panics on exactly the same out-of-range ids. -/
def Graph.cheapest_path [Cost EdgeProps] (g : Graph NodeState EdgeProps)
    (source target : NodeId) : Option (List EdgeId) :=
  if source = target then some []
  else
    match cheapGo g ((g.edges.length + 1) * (g.edges.length + 1)) (cheapInit g source) with
    | none => none
    | some τ =>
      match τ.best_incoming.getD target none with
      | none => none
      | some _ => cheapReconstructGo g τ.best_incoming source g.nodes.length target []

/-! ### Well-formedness and paths -/

/-- The structural invariant of every graph built through `insert_node` and
`insert_edge`: parallel sequences are index-aligned, stored ids equal
positions, edge endpoints reference existing nodes, and each adjacency list
holds exactly the edge ids with the matching endpoint, in insertion order. -/
def Graph.WF (g : Graph NodeState EdgeProps) : Prop :=
  g.states.length = g.nodes.length ∧
  g.props.length = g.edges.length ∧
  (∀ i < g.nodes.length,
    (g.nodeAt i).id = i ∧
    (g.nodeAt i).outgoing = (List.range g.edges.length).filter (fun e => (g.edgeAt e).«from» == i) ∧
    (g.nodeAt i).incoming = (List.range g.edges.length).filter (fun e => (g.edgeAt e).«to» == i)) ∧
  (∀ j < g.edges.length,
    (g.edgeAt j).id = j ∧ (g.edgeAt j).«from» < g.nodes.length ∧
    (g.edgeAt j).«to» < g.nodes.length)

instance (g : Graph NodeState EdgeProps) : Decidable g.WF := by
  unfold Graph.WF
  infer_instance

/-- `IsPath g u v p`: the edge-id sequence `p` is a directed path from `u` to
`v`: each id is an existing edge, consecutive edges are chained, the first
starts at `u` and the last ends at `v`. -/
inductive IsPath (g : Graph NodeState EdgeProps) : NodeId → NodeId → List EdgeId → Prop
  | nil (v : NodeId) : IsPath g v v []
  | cons (e : EdgeId) (v w : NodeId) (p : List EdgeId) :
      e < g.edges.length → (g.edgeAt e).«from» = v →
      IsPath g (g.edgeAt e).«to» w p → IsPath g v w (e :: p)

/-- All edge costs of the graph are non-negative (§4.1: negative costs are
unsupported). -/
def NonnegCosts [Cost EdgeProps] (g : Graph NodeState EdgeProps) : Prop :=
  ∀ e < g.edges.length, 0 ≤ costOf g e

instance [Cost EdgeProps] (g : Graph NodeState EdgeProps) : Decidable (NonnegCosts g) := by
  unfold NonnegCosts
  infer_instance

/-! ### Search-state accessors, step counting, and the search invariant -/

def SearchState.bcAt (σ : SearchState) (v : NodeId) : Option CostType :=
  σ.best_cost.getD v none

def SearchState.biAt (σ : SearchState) (v : NodeId) : Option EdgeId :=
  σ.best_incoming.getD v none

def SearchState.closedAt (σ : SearchState) (v : NodeId) : Bool :=
  σ.is_closed.getD v false

/-- The priority a closed node was popped with: `zero_cost` for the source,
its (frozen) recorded best cost otherwise. -/
def valAt (s : NodeId) (z : CostType) (σ : SearchState) (v : NodeId) : Option CostType :=
  if v = s then some z else σ.bcAt v

/-- Exactly `k` iterations of `best_path`'s loop; `none` when the queue
empties strictly before the `k`-th iteration. -/
def runSteps [Cost EdgeProps] (g : Graph NodeState EdgeProps) :
    Nat → SearchState → Option SearchState
  | 0, σ => some σ
  | k + 1, σ =>
    match bestPathStep g σ with
    | none => none
    | some σ2 => runSteps g k σ2

/-- Termination measure of the search loop: pending queue entries plus edges
whose tail is still open. -/
def phi (g : Graph NodeState EdgeProps) (σ : SearchState) : Nat :=
  σ.queue.data.length +
    ((List.range g.edges.length).filter
      (fun e => !(σ.closedAt (g.edgeAt e).«from»))).length

/-- Queue entries are sorted by priority (the representation invariant of the
modelled queue). -/
def sortedKeys (l : List (Nat × CostType)) : Prop :=
  l.Pairwise (fun a b => a.2 ≤ b.2)

/-- The master invariant of `best_path`'s loop, for graph `g`, source `s` and
seed priority `z`.  It ties the three tables and the queue to real paths of
the graph and supports every claim about the engine. -/
structure Inv (g : Graph NodeState EdgeProps) [Cost EdgeProps] (s : NodeId) (z : CostType)
    (σ : SearchState) : Prop where
  len_bi : σ.best_incoming.length = g.nodes.length
  len_bc : σ.best_cost.length = g.nodes.length
  len_cl : σ.is_closed.length = g.nodes.length
  sortedQ : sortedKeys σ.queue.data
  src_bc : σ.bcAt s = none
  src_bi : σ.biAt s = none
  start : σ.closedAt s = false →
    σ = ⟨List.replicate g.nodes.length none, List.replicate g.nodes.length none,
         List.replicate g.nodes.length false, ⟨[(s, z)]⟩⟩
  sync : ∀ v, (σ.bcAt v).isSome = (σ.biAt v).isSome
  ptr : ∀ v e, σ.biAt v = some e → e < g.edges.length ∧ (g.edgeAt e).«to» = v ∧
    (g.edgeAt e).«from» ≠ v ∧ σ.closedAt ((g.edgeAt e).«from») = true ∧
    ∃ b, σ.bcAt v = some b ∧ valAt s z σ ((g.edgeAt e).«from») = some (b - costOf g e)
  rec_path : ∀ v b, σ.bcAt v = some b → v < g.nodes.length ∧ v ≠ s ∧
    ∃ p, p ≠ [] ∧ IsPath g s v p ∧ b = z + g.cost p
  qent : ∀ x ∈ σ.queue.data, (x.1 = s ∧ x.2 = z) ∨
    (x.1 ≠ s ∧ (∃ b, σ.bcAt x.1 = some b ∧ b ≤ x.2) ∧
      ∃ p, p ≠ [] ∧ IsPath g s x.1 p ∧ x.2 = z + g.cost p)
  qsrc : ∀ k, (s, k) ∈ σ.queue.data → σ.closedAt s = false
  openq : ∀ v b, σ.closedAt v = false → σ.bcAt v = some b → (v, b) ∈ σ.queue.data
  closed_rec : ∀ v, σ.closedAt v = true → v ≠ s → (σ.bcAt v).isSome = true
  closed_le : ∀ v kv, σ.closedAt v = true → valAt s z σ v = some kv →
    ∀ x ∈ σ.queue.data, kv ≤ x.2
  frontier : ∀ u ku, σ.closedAt u = true → valAt s z σ u = some ku →
    ∀ e ∈ (g.nodeAt u).outgoing, (g.edgeAt e).«to» ≠ u →
    ∃ b, valAt s z σ ((g.edgeAt e).«to») = some b ∧ b ≤ ku + costOf g e
  ordex : ∃ ord : List NodeId, ord.Nodup ∧ (∀ v, σ.closedAt v = true ↔ v ∈ ord) ∧
    ∀ v e, σ.biAt v = some e → (g.edgeAt e).«from» ∈ ord ∧
      (v ∈ ord → ord.indexOf ((g.edgeAt e).«from») < ord.indexOf v)

/-- Accessor for the combined table of `cheapest_path`. -/
def CheapState.recAt (τ : CheapState) (v : NodeId) : Option (EdgeId × CostType) :=
  τ.best_incoming.getD v none

/-! ### Concrete instances used by the closed-form checks -/

/-- Edge properties instantiated at plain rationals: the stored value is the
cost itself, and the zero cost is `0` (§4.1: zero is the additive identity of
the cost type). -/
instance : Cost ℚ := ⟨id, 0⟩

/-- A three-node graph built as `insert_node`/`insert_edge` would: edges
`0 : 0→1` (cost 1), `1 : 1→2` (cost 1) and `2 : 0→2` (cost 3); the cheapest
route from 0 to 2 is `[0, 1]`. -/
def exG : Graph Unit ℚ :=
  ⟨[⟨0, [], [0, 2]⟩, ⟨1, [0], [1]⟩, ⟨2, [1, 2], []⟩], [(), (), ()],
   [⟨0, 0, 1⟩, ⟨1, 1, 2⟩, ⟨2, 0, 2⟩], [1, 1, 3]⟩

/-- A two-node cycle: edges `0 : 0→1` and `1 : 1→0`, both of cost 1.  Node 0
is reachable from itself by the non-empty path `[0, 1]`. -/
def cycG : Graph Unit ℚ :=
  ⟨[⟨0, [1], [0]⟩, ⟨1, [0], [1]⟩], [(), ()], [⟨0, 0, 1⟩, ⟨1, 1, 0⟩], [1, 1]⟩

/-- A single node and no edges: node id 1 references no node. -/
def oneG : Graph Unit ℚ := ⟨[⟨0, [], []⟩], [()], [], []⟩

/-- The number of edges whose tail node is still open; together with the
pending queue entries this bounds the remaining pops of either engine. -/
def openEdges (g : Graph NodeState EdgeProps) (σ : SearchState) : Nat :=
  ((List.range g.edges.length).filter (fun e => !(σ.closedAt (g.edgeAt e).«from»))).length

/-- The lockstep simulation relation between the state `σ` of `best_path` and
the state `τ` of `cheapest_path`, holding from the moment the source was
popped (and closed on the `σ` side).  Off the source the two tables agree
entry by entry; the `τ` queue equals the `σ` queue after discarding the extra
source entries that only `cheapest_path` generates (its relaxation does not
skip edges back into the source); those extra entries are backed by the
side-table record at the source their pop can only confirm. -/
structure RelPost (g : Graph NodeState EdgeProps) [Cost EdgeProps] (s : NodeId)
    (σ : SearchState) (τ : CheapState) : Prop where
  inv : Inv g s 0 σ
  scl : σ.closedAt s = true
  tb1 : ∀ v, v ≠ s → (τ.recAt v).map Prod.fst = σ.biAt v
  tb2 : ∀ v, v ≠ s → (τ.recAt v).map Prod.snd = σ.bcAt v
  qeq : τ.queue.data.filter (fun x => x.1 != s) = σ.queue.data
  qsrt : sortedKeys τ.queue.data
  qpos : ∀ x ∈ τ.queue.data, 0 ≤ x.2
  sq : ∀ k, (s, k) ∈ τ.queue.data → ∃ ec c, τ.recAt s = some (ec, c) ∧ c ≤ k
  sfr : ∀ u ku, σ.closedAt u = true → valAt s 0 σ u = some ku →
    ∀ e ∈ (g.nodeAt u).outgoing, (g.edgeAt e).«to» = s →
    ∃ ec c, τ.recAt s = some (ec, c) ∧ c ≤ ku + costOf g e
  lrec : τ.best_incoming.length = g.nodes.length

/-- The update branch of `cheapest_path`'s relaxation (set the combined
record, push the entry). -/
def cheapUpd [Cost EdgeProps] (g : Graph NodeState EdgeProps) (k : CostType)
    (τ : CheapState) (e : EdgeId) : CheapState :=
  { best_incoming := τ.best_incoming.set ((g.edgeAt e).«to»)
      (some (e, k + costOf g e))
    queue := τ.queue.insert ((g.edgeAt e).«to») (k + costOf g e) }

/-- The invariant carried through the paired relaxation fold of one lockstep
pop `(u, k)`: `σ1` is the `best_path` state right after the pop (node `u`
closed, entry removed), and `(σ2, τ2)` are the partially folded states of the
two engines.  Tables agree off the source, the queues agree after discarding
source entries, the closed set is frozen, and closed nodes keep their
records. -/
structure MidRel (g : Graph NodeState EdgeProps) [Cost EdgeProps] (s : NodeId)
    (σ1 σ2 : SearchState) (τ2 : CheapState) : Prop where
  tb1 : ∀ v, v ≠ s → (τ2.recAt v).map Prod.fst = σ2.biAt v
  tb2 : ∀ v, v ≠ s → (τ2.recAt v).map Prod.snd = σ2.bcAt v
  qeq : τ2.queue.data.filter (fun x => x.1 != s) = σ2.queue.data
  qsrt : sortedKeys τ2.queue.data
  qpos : ∀ x ∈ τ2.queue.data, 0 ≤ x.2
  sq : ∀ k2, (s, k2) ∈ τ2.queue.data → ∃ ec c, τ2.recAt s = some (ec, c) ∧ c ≤ k2
  cls : σ2.is_closed = σ1.is_closed
  froz : ∀ v, σ1.closedAt v = true → σ2.bcAt v = σ1.bcAt v
  lbc : σ2.best_cost.length = σ1.best_cost.length
  lbi : σ2.best_incoming.length = σ1.best_incoming.length
  lcbi : τ2.best_incoming.length = σ1.best_incoming.length

/-! ### List and queue utility lemmas -/

theorem getD_set_self {α : Type} {l : List α} {n : Nat} {a d : α} (h : n < l.length) :
    (l.set n a).getD n d = a := by
  simp [List.getD_eq_getElem?_getD, List.getElem?_set_self (by simpa using h)]

theorem getD_set_ne {α : Type} {l : List α} {m n : Nat} {a d : α} (h : m ≠ n) :
    (l.set m a).getD n d = l.getD n d := by
  simp [List.getD_eq_getElem?_getD, List.getElem?_set_ne h]

theorem getD_replicate {α : Type} {n i : Nat} {a d : α} :
    (List.replicate n a).getD i d = if i < n then a else d := by
  rw [List.getD_eq_getElem?_getD, List.getElem?_replicate]
  split <;> rfl

theorem getD_eq_default {α : Type} {l : List α} {n : Nat} {d : α} (h : l.length ≤ n) :
    l.getD n d = d := by
  simp [List.getD_eq_getElem?_getD, List.getElem?_eq_none h]

theorem mem_insertSorted {x y : Nat × CostType} {l : List (Nat × CostType)} :
    x ∈ insertSorted y l ↔ x = y ∨ x ∈ l := by
  induction l with
  | nil => simp [insertSorted]
  | cons z zs ih =>
    by_cases h : z.2 ≤ y.2
    · simp only [insertSorted, if_pos h, List.mem_cons, ih]
      tauto
    · simp only [insertSorted, if_neg h, List.mem_cons]

theorem length_insertSorted {y : Nat × CostType} {l : List (Nat × CostType)} :
    (insertSorted y l).length = l.length + 1 := by
  induction l with
  | nil => rfl
  | cons z zs ih =>
    by_cases h : z.2 ≤ y.2
    · simp [insertSorted, if_pos h, ih]
    · simp [insertSorted, if_neg h]

theorem sortedKeys_insertSorted {y : Nat × CostType} {l : List (Nat × CostType)}
    (hl : sortedKeys l) : sortedKeys (insertSorted y l) := by
  induction l with
  | nil => simp [insertSorted, sortedKeys]
  | cons z zs ih =>
    rw [sortedKeys, List.pairwise_cons] at hl
    by_cases h : z.2 ≤ y.2
    · rw [insertSorted, if_pos h]
      rw [sortedKeys, List.pairwise_cons]
      refine ⟨?_, ih hl.2⟩
      intro w hw
      rcases mem_insertSorted.mp hw with rfl | hw
      · exact h
      · exact hl.1 w hw
    · rw [insertSorted, if_neg h]
      rw [sortedKeys, List.pairwise_cons]
      refine ⟨?_, List.pairwise_cons.mpr ⟨hl.1, hl.2⟩⟩
      intro w hw
      rcases List.mem_cons.mp hw with rfl | hw
      · exact le_of_not_le h
      · exact le_of_not_le h |>.trans (hl.1 w hw)

theorem sortedKeys_head_le {x : Nat × CostType} {xs : List (Nat × CostType)}
    (hl : sortedKeys (x :: xs)) : ∀ y ∈ xs, x.2 ≤ y.2 :=
  (List.pairwise_cons.mp hl).1

theorem sortedKeys_tail {x : Nat × CostType} {xs : List (Nat × CostType)}
    (hl : sortedKeys (x :: xs)) : sortedKeys xs :=
  (List.pairwise_cons.mp hl).2

/-! ### Well-formedness consequences -/

variable {g : Graph NodeState EdgeProps}

theorem WF.mem_outgoing (hw : g.WF) {u : NodeId} (hu : u < g.nodes.length) {e : EdgeId} :
    e ∈ (g.nodeAt u).outgoing ↔ e < g.edges.length ∧ (g.edgeAt e).«from» = u := by
  rw [((hw.2.2.1 u hu).2.1 : (g.nodeAt u).outgoing = _)]
  simp only [List.mem_filter, List.mem_range, beq_iff_eq]

theorem WF.from_lt (hw : g.WF) {e : EdgeId} (he : e < g.edges.length) :
    (g.edgeAt e).«from» < g.nodes.length :=
  (hw.2.2.2 e he).2.1

theorem WF.to_lt (hw : g.WF) {e : EdgeId} (he : e < g.edges.length) :
    (g.edgeAt e).«to» < g.nodes.length :=
  (hw.2.2.2 e he).2.2

/-! ### Path lemmas -/

theorem cost_nil [Cost EdgeProps] : g.cost [] = 0 := rfl

theorem cost_cons [Cost EdgeProps] {e : EdgeId} {p : List EdgeId} :
    g.cost (e :: p) = costOf g e + g.cost p := by
  simp [Graph.cost]

theorem cost_append [Cost EdgeProps] {p q : List EdgeId} :
    g.cost (p ++ q) = g.cost p + g.cost q := by
  simp [Graph.cost]

theorem costOf_nonneg [Cost EdgeProps] (hn : NonnegCosts g) {e : EdgeId}
    (he : e < g.edges.length) : 0 ≤ costOf g e :=
  hn e he

theorem IsPath.cost_nonneg [Cost EdgeProps] (hn : NonnegCosts g) {u v : NodeId}
    {p : List EdgeId} (hp : IsPath g u v p) : 0 ≤ g.cost p := by
  induction hp with
  | nil => simp [Graph.cost]
  | cons e v w q he hfrom htail ih =>
    rw [cost_cons]
    exact add_nonneg (costOf_nonneg hn he) ih

theorem IsPath.append {u v w : NodeId} {p q : List EdgeId}
    (hp : IsPath g u v p) (hq : IsPath g v w q) : IsPath g u w (p ++ q) := by
  induction hp with
  | nil => simpa using hq
  | cons e a b r he hfrom htail ih =>
    exact IsPath.cons e a w (r ++ q) he hfrom (ih hq)

theorem IsPath.snoc {u v : NodeId} {p : List EdgeId} (hp : IsPath g u v p) {e : EdgeId}
    (he : e < g.edges.length) (hfrom : (g.edgeAt e).«from» = v) :
    IsPath g u ((g.edgeAt e).«to») (p ++ [e]) :=
  hp.append (IsPath.cons e v _ [] he hfrom (IsPath.nil _))

/-! ### Characterisation of one edge relaxation of `best_path` -/

variable [Cost EdgeProps]

/-- The updated state produced by an improving relaxation. -/
def relaxUpd (g : Graph NodeState EdgeProps) (k : CostType) (σ : SearchState) (e : EdgeId) :
    SearchState :=
  { σ with
    best_cost := σ.best_cost.set ((g.edgeAt e).«to») (some (k + costOf g e))
    best_incoming := σ.best_incoming.set ((g.edgeAt e).«to») (some e)
    queue := σ.queue.insert ((g.edgeAt e).«to») (k + costOf g e) }

theorem relaxEdge_skip {u : NodeId} {k : CostType} {σ : SearchState} {e : EdgeId}
    (h : (g.edgeAt e).«to» = u ∨ σ.closedAt ((g.edgeAt e).«to») = true) :
    relaxEdge g u k σ e = σ := by
  unfold relaxEdge
  exact if_pos h

theorem relaxEdge_noimp {u : NodeId} {k : CostType} {σ : SearchState} {e : EdgeId} {b : CostType}
    (h1 : ¬((g.edgeAt e).«to» = u ∨ σ.closedAt ((g.edgeAt e).«to») = true))
    (hb : σ.bcAt ((g.edgeAt e).«to») = some b) (h2 : ¬(k + costOf g e < b)) :
    relaxEdge g u k σ e = σ := by
  have h1' : ¬((g.edgeAt e).«to» = u ∨ σ.is_closed.getD ((g.edgeAt e).«to») false = true) := h1
  have hb' : σ.best_cost.getD ((g.edgeAt e).«to») none = some b := hb
  simp only [relaxEdge]
  rw [if_neg h1', hb']
  exact if_neg h2

theorem relaxEdge_upd_none {u : NodeId} {k : CostType} {σ : SearchState} {e : EdgeId}
    (h1 : ¬((g.edgeAt e).«to» = u ∨ σ.closedAt ((g.edgeAt e).«to») = true))
    (hb : σ.bcAt ((g.edgeAt e).«to») = none) :
    relaxEdge g u k σ e = relaxUpd g k σ e := by
  have h1' : ¬((g.edgeAt e).«to» = u ∨ σ.is_closed.getD ((g.edgeAt e).«to») false = true) := h1
  have hb' : σ.best_cost.getD ((g.edgeAt e).«to») none = none := hb
  simp only [relaxEdge]
  rw [if_neg h1', hb']
  rfl

theorem relaxEdge_upd_some {u : NodeId} {k : CostType} {σ : SearchState} {e : EdgeId}
    {b : CostType}
    (h1 : ¬((g.edgeAt e).«to» = u ∨ σ.closedAt ((g.edgeAt e).«to») = true))
    (hb : σ.bcAt ((g.edgeAt e).«to») = some b) (h2 : k + costOf g e < b) :
    relaxEdge g u k σ e = relaxUpd g k σ e := by
  have h1' : ¬((g.edgeAt e).«to» = u ∨ σ.is_closed.getD ((g.edgeAt e).«to») false = true) := h1
  have hb' : σ.best_cost.getD ((g.edgeAt e).«to») none = some b := hb
  simp only [relaxEdge]
  rw [if_neg h1', hb']
  show (if k + costOf g e < b then _ else σ) = _
  rw [if_pos h2]
  rfl

/-- Full case analysis of one relaxation. -/
theorem relaxEdge_char (u : NodeId) (k : CostType) (σ : SearchState) (e : EdgeId) :
    (relaxEdge g u k σ e = σ ∧
      ((g.edgeAt e).«to» = u ∨ σ.closedAt ((g.edgeAt e).«to») = true ∨
        ∃ b, σ.bcAt ((g.edgeAt e).«to») = some b ∧ b ≤ k + costOf g e)) ∨
    ((g.edgeAt e).«to» ≠ u ∧ σ.closedAt ((g.edgeAt e).«to») = false ∧
      (σ.bcAt ((g.edgeAt e).«to») = none ∨
        ∃ b, σ.bcAt ((g.edgeAt e).«to») = some b ∧ k + costOf g e < b) ∧
      relaxEdge g u k σ e = relaxUpd g k σ e) := by
  by_cases h1 : (g.edgeAt e).«to» = u ∨ σ.closedAt ((g.edgeAt e).«to») = true
  · left
    refine ⟨relaxEdge_skip h1, ?_⟩
    tauto
  · push_neg at h1
    have h1' : ¬((g.edgeAt e).«to» = u ∨ σ.closedAt ((g.edgeAt e).«to») = true) := by
      simp only [not_or]
      exact ⟨h1.1, h1.2⟩
    cases hb : σ.bcAt ((g.edgeAt e).«to») with
    | none =>
      right
      refine ⟨h1.1, by simpa using h1.2, Or.inl rfl, relaxEdge_upd_none h1' hb⟩
    | some b =>
      by_cases h2 : k + costOf g e < b
      · right
        exact ⟨h1.1, by simpa using h1.2, Or.inr ⟨b, rfl, h2⟩, relaxEdge_upd_some h1' hb h2⟩
      · left
        exact ⟨relaxEdge_noimp h1' hb h2, Or.inr (Or.inr ⟨b, rfl, le_of_not_lt h2⟩)⟩

/-! ### The relaxation fold over a node's outgoing edges -/

theorem bcAt_relaxUpd_self {k : CostType} {σ : SearchState} {e : EdgeId}
    (h : (g.edgeAt e).«to» < σ.best_cost.length) :
    (relaxUpd g k σ e).bcAt ((g.edgeAt e).«to») = some (k + costOf g e) :=
  getD_set_self h

theorem bcAt_relaxUpd_ne {k : CostType} {σ : SearchState} {e : EdgeId} {v : NodeId}
    (h : (g.edgeAt e).«to» ≠ v) : (relaxUpd g k σ e).bcAt v = σ.bcAt v :=
  getD_set_ne h

theorem biAt_relaxUpd_self {k : CostType} {σ : SearchState} {e : EdgeId}
    (h : (g.edgeAt e).«to» < σ.best_incoming.length) :
    (relaxUpd g k σ e).biAt ((g.edgeAt e).«to») = some e :=
  getD_set_self h

theorem biAt_relaxUpd_ne {k : CostType} {σ : SearchState} {e : EdgeId} {v : NodeId}
    (h : (g.edgeAt e).«to» ≠ v) : (relaxUpd g k σ e).biAt v = σ.biAt v :=
  getD_set_ne h

theorem relaxEdge_is_closed {u : NodeId} {k : CostType} {σ : SearchState} {e : EdgeId} :
    (relaxEdge g u k σ e).is_closed = σ.is_closed := by
  rcases relaxEdge_char (g := g) u k σ e with ⟨h, _⟩ | ⟨_, _, _, h⟩ <;> rw [h] <;> rfl

theorem relaxEdge_len_bc {u : NodeId} {k : CostType} {σ : SearchState} {e : EdgeId} :
    (relaxEdge g u k σ e).best_cost.length = σ.best_cost.length := by
  rcases relaxEdge_char (g := g) u k σ e with ⟨h, _⟩ | ⟨_, _, _, h⟩ <;> rw [h] <;>
    simp [relaxUpd]

theorem relaxEdge_len_bi {u : NodeId} {k : CostType} {σ : SearchState} {e : EdgeId} :
    (relaxEdge g u k σ e).best_incoming.length = σ.best_incoming.length := by
  rcases relaxEdge_char (g := g) u k σ e with ⟨h, _⟩ | ⟨_, _, _, h⟩ <;> rw [h] <;>
    simp [relaxUpd]

theorem foldRelax_is_closed {u : NodeId} {k : CostType} (es : List EdgeId) (σ : SearchState) :
    (es.foldl (relaxEdge g u k) σ).is_closed = σ.is_closed := by
  induction es generalizing σ with
  | nil => rfl
  | cons e rest ih => rw [List.foldl_cons, ih, relaxEdge_is_closed]

theorem foldRelax_closedAt {u : NodeId} {k : CostType} {es : List EdgeId} {σ : SearchState}
    (v : NodeId) : (es.foldl (relaxEdge g u k) σ).closedAt v = σ.closedAt v := by
  unfold SearchState.closedAt
  rw [foldRelax_is_closed]

theorem foldRelax_len_bc {u : NodeId} {k : CostType} (es : List EdgeId) (σ : SearchState) :
    (es.foldl (relaxEdge g u k) σ).best_cost.length = σ.best_cost.length := by
  induction es generalizing σ with
  | nil => rfl
  | cons e rest ih => rw [List.foldl_cons, ih, relaxEdge_len_bc]

theorem foldRelax_len_bi {u : NodeId} {k : CostType} (es : List EdgeId) (σ : SearchState) :
    (es.foldl (relaxEdge g u k) σ).best_incoming.length = σ.best_incoming.length := by
  induction es generalizing σ with
  | nil => rfl
  | cons e rest ih => rw [List.foldl_cons, ih, relaxEdge_len_bi]

theorem relaxEdge_queue_sub {u : NodeId} {k : CostType} {σ : SearchState} {e : EdgeId} :
    ∀ x ∈ σ.queue.data, x ∈ (relaxEdge g u k σ e).queue.data := by
  intro x hx
  rcases relaxEdge_char (g := g) u k σ e with ⟨heq, _⟩ | ⟨_, _, _, heq⟩ <;> rw [heq]
  · exact hx
  · exact mem_insertSorted.mpr (Or.inr hx)

theorem foldRelax_queue_sub {u : NodeId} {k : CostType} (es : List EdgeId) (σ0 : SearchState) :
    ∀ x ∈ σ0.queue.data, x ∈ (es.foldl (relaxEdge g u k) σ0).queue.data := by
  induction es generalizing σ0 with
  | nil => exact fun x hx => hx
  | cons e rest ih =>
    intro x hx
    rw [List.foldl_cons]
    exact ih (relaxEdge g u k σ0 e) x (relaxEdge_queue_sub x hx)

/-- Pointwise evolution of the two tables across the relaxation fold: a node
is either untouched, or it received its final update from one of the relaxed
edges, strictly improving on whatever was recorded before the fold. -/
theorem foldRelax_tables {u : NodeId} {k : CostType} (es : List EdgeId) (σ0 : SearchState)
    (v : NodeId)
    (hlbc : ∀ e ∈ es, (g.edgeAt e).«to» < σ0.best_cost.length)
    (hlbi : ∀ e ∈ es, (g.edgeAt e).«to» < σ0.best_incoming.length) :
    ((es.foldl (relaxEdge g u k) σ0).bcAt v = σ0.bcAt v ∧
     (es.foldl (relaxEdge g u k) σ0).biAt v = σ0.biAt v) ∨
    (σ0.closedAt v = false ∧ v ≠ u ∧
      ∃ e ∈ es, (g.edgeAt e).«to» = v ∧
        (es.foldl (relaxEdge g u k) σ0).bcAt v = some (k + costOf g e) ∧
        (es.foldl (relaxEdge g u k) σ0).biAt v = some e ∧
        (v, k + costOf g e) ∈ (es.foldl (relaxEdge g u k) σ0).queue.data ∧
        (∀ b0, σ0.bcAt v = some b0 → k + costOf g e < b0)) := by
  induction es generalizing σ0 with
  | nil => exact Or.inl ⟨rfl, rfl⟩
  | cons e rest ih =>
    rw [List.foldl_cons]
    have hlbc1 : ∀ x ∈ rest, (g.edgeAt x).«to» < (relaxEdge g u k σ0 e).best_cost.length := by
      intro x hx
      rw [relaxEdge_len_bc]
      exact hlbc x (List.mem_cons_of_mem e hx)
    have hlbi1 : ∀ x ∈ rest, (g.edgeAt x).«to» < (relaxEdge g u k σ0 e).best_incoming.length := by
      intro x hx
      rw [relaxEdge_len_bi]
      exact hlbi x (List.mem_cons_of_mem e hx)
    rcases relaxEdge_char (g := g) u k σ0 e with ⟨heq, _⟩ | ⟨hne, hop, himp, heq⟩
    · rw [heq] at hlbc1 hlbi1 ⊢
      rcases ih σ0 hlbc1 hlbi1 with h | ⟨h1, h2, e', he', h3⟩
      · exact Or.inl h
      · exact Or.inr ⟨h1, h2, e', List.mem_cons_of_mem e he', h3⟩

    · rw [heq] at hlbc1 hlbi1 ⊢
      have hlenc : (g.edgeAt e).«to» < σ0.best_cost.length := hlbc e (List.mem_cons_self ..)
      have hleni : (g.edgeAt e).«to» < σ0.best_incoming.length := hlbi e (List.mem_cons_self ..)
      by_cases hv : (g.edgeAt e).«to» = v
      · subst hv
        rcases ih (relaxUpd g k σ0 e) hlbc1 hlbi1 with ⟨hbc, hbi⟩ |
          ⟨h1, h2, e', he', hto, hbc, hbi, hq, hlt⟩
        · refine Or.inr ⟨hop, hne, e, List.mem_cons_self .., rfl, ?_, ?_, ?_, ?_⟩
          · rw [hbc, bcAt_relaxUpd_self hlenc]
          · rw [hbi, biAt_relaxUpd_self hleni]
          · exact foldRelax_queue_sub rest (relaxUpd g k σ0 e) _
              (mem_insertSorted.mpr (Or.inl rfl))
          · intro b0 hb0
            rcases himp with hnone | ⟨b, hb, hbl⟩
            · rw [hb0] at hnone
              cases hnone
            · rw [hb0] at hb
              cases hb
              exact hbl
        · refine Or.inr ⟨hop, h2, e', List.mem_cons_of_mem e he', hto, hbc, hbi, hq, ?_⟩
          intro b0 hb0
          have := hlt (k + costOf g e) (bcAt_relaxUpd_self hlenc)
          rcases himp with hnone | ⟨b, hb, hbl⟩
          · rw [hb0] at hnone
            cases hnone
          · rw [hb0] at hb
            cases hb
            linarith
      · rcases ih (relaxUpd g k σ0 e) hlbc1 hlbi1 with ⟨hbc, hbi⟩ |
          ⟨h1, h2, e', he', hto, hbc, hbi, hq, hlt⟩
        · left
          rw [hbc, hbi, bcAt_relaxUpd_ne hv, biAt_relaxUpd_ne hv]
          exact ⟨rfl, rfl⟩
        · refine Or.inr ⟨?_, h2, e', List.mem_cons_of_mem e he', hto, hbc, hbi, hq, ?_⟩
          · simpa [SearchState.closedAt, relaxUpd] using h1
          · intro b0 hb0
            apply hlt
            rw [bcAt_relaxUpd_ne hv]
            exact hb0

/-- Monotonicity: recorded costs only improve across the fold. -/
theorem foldRelax_mono {u : NodeId} {k : CostType} (es : List EdgeId) (σ0 : SearchState)
    (hlbc : ∀ e ∈ es, (g.edgeAt e).«to» < σ0.best_cost.length)
    (hlbi : ∀ e ∈ es, (g.edgeAt e).«to» < σ0.best_incoming.length)
    {v : NodeId} {b0 : CostType} (hb0 : σ0.bcAt v = some b0) :
    ∃ b ≤ b0, (es.foldl (relaxEdge g u k) σ0).bcAt v = some b := by
  rcases foldRelax_tables (g := g) es σ0 v hlbc hlbi with ⟨hbc, _⟩ |
    ⟨_, _, e, _, _, hbc, _, _, hlt⟩
  · exact ⟨b0, le_refl b0, hbc ▸ hb0⟩
  · exact ⟨k + costOf g e, le_of_lt (hlt b0 hb0), hbc⟩

theorem foldRelax_queue_len {u : NodeId} {k : CostType} (es : List EdgeId) (σ0 : SearchState) :
    (es.foldl (relaxEdge g u k) σ0).queue.data.length ≤ σ0.queue.data.length + es.length := by
  induction es generalizing σ0 with
  | nil => simp
  | cons e rest ih =>
    rw [List.foldl_cons]
    refine le_trans (ih (relaxEdge g u k σ0 e)) ?_
    rcases relaxEdge_char (g := g) u k σ0 e with ⟨heq, _⟩ | ⟨_, _, _, heq⟩ <;> rw [heq]
    · simp only [List.length_cons]
      omega
    · show (insertSorted _ σ0.queue.data).length + rest.length ≤ _
      rw [length_insertSorted]
      simp only [List.length_cons]
      omega

theorem foldRelax_sorted {u : NodeId} {k : CostType} (es : List EdgeId) (σ0 : SearchState)
    (hs : sortedKeys σ0.queue.data) :
    sortedKeys (es.foldl (relaxEdge g u k) σ0).queue.data := by
  induction es generalizing σ0 with
  | nil => exact hs
  | cons e rest ih =>
    rw [List.foldl_cons]
    refine ih (relaxEdge g u k σ0 e) ?_
    rcases relaxEdge_char (g := g) u k σ0 e with ⟨heq, _⟩ | ⟨_, _, _, heq⟩ <;> rw [heq]
    · exact hs
    · exact sortedKeys_insertSorted hs

/-- Every entry of the queue after the fold is an old entry or was inserted by
one of the relaxed edges, in which case it dominates the (final) recorded cost
of its node. -/
theorem foldRelax_queue_mem {u : NodeId} {k : CostType} (es : List EdgeId) (σ0 : SearchState)
    (hlbc : ∀ e ∈ es, (g.edgeAt e).«to» < σ0.best_cost.length)
    (hlbi : ∀ e ∈ es, (g.edgeAt e).«to» < σ0.best_incoming.length) :
    ∀ x ∈ (es.foldl (relaxEdge g u k) σ0).queue.data, x ∈ σ0.queue.data ∨
      ∃ e ∈ es, x = ((g.edgeAt e).«to», k + costOf g e) ∧
        σ0.closedAt ((g.edgeAt e).«to») = false ∧ (g.edgeAt e).«to» ≠ u ∧
        ∃ b, (es.foldl (relaxEdge g u k) σ0).bcAt x.1 = some b ∧ b ≤ x.2 := by
  induction es generalizing σ0 with
  | nil => exact fun x hx => Or.inl hx
  | cons e rest ih =>
    intro x hx
    rw [List.foldl_cons] at hx
    have hlbc1 : ∀ y ∈ rest, (g.edgeAt y).«to» < (relaxEdge g u k σ0 e).best_cost.length := by
      intro y hy
      rw [relaxEdge_len_bc]
      exact hlbc y (List.mem_cons_of_mem e hy)
    have hlbi1 : ∀ y ∈ rest, (g.edgeAt y).«to» < (relaxEdge g u k σ0 e).best_incoming.length := by
      intro y hy
      rw [relaxEdge_len_bi]
      exact hlbi y (List.mem_cons_of_mem e hy)
    rcases ih (relaxEdge g u k σ0 e) hlbc1 hlbi1 x hx with hold | ⟨e', he', hx', hop', hne', hb'⟩
    · rcases relaxEdge_char (g := g) u k σ0 e with ⟨heq, _⟩ | ⟨hne, hop, himp, heq⟩
      · rw [heq] at hold
        exact Or.inl hold
      · rw [heq] at hold
        rcases mem_insertSorted.mp hold with rfl | hold2
        · right
          refine ⟨e, List.mem_cons_self .., rfl, hop, hne, ?_⟩
          have hself : (relaxUpd g k σ0 e).bcAt ((g.edgeAt e).«to») = some (k + costOf g e) :=
            bcAt_relaxUpd_self (hlbc e (List.mem_cons_self ..))
          have := foldRelax_mono (g := g) (u := u) (k := k) rest (relaxUpd g k σ0 e)
            (by rw [heq] at hlbc1; exact hlbc1) (by rw [heq] at hlbi1; exact hlbi1) hself
          rcases this with ⟨b, hble, hb⟩
          rw [List.foldl_cons, heq]
          exact ⟨b, hb, hble⟩
        · exact Or.inl hold2
    · right
      refine ⟨e', List.mem_cons_of_mem e he', hx', ?_, hne', ?_⟩
      · have : (relaxEdge g u k σ0 e).closedAt ((g.edgeAt e').«to») =
            σ0.closedAt ((g.edgeAt e').«to») := by
          unfold SearchState.closedAt
          rw [relaxEdge_is_closed]
        rw [← this]
        exact hop'
      · rw [List.foldl_cons]
        exact hb'

/-- After the fold every relaxed edge whose head is open and distinct from the
popped node has a recorded cost dominated by `k` plus the edge cost. -/
theorem foldRelax_frontier {u : NodeId} {k : CostType} (es : List EdgeId) (σ0 : SearchState)
    (hlbc : ∀ e ∈ es, (g.edgeAt e).«to» < σ0.best_cost.length)
    (hlbi : ∀ e ∈ es, (g.edgeAt e).«to» < σ0.best_incoming.length) :
    ∀ e ∈ es, (g.edgeAt e).«to» ≠ u → σ0.closedAt ((g.edgeAt e).«to») = false →
    ∃ b, (es.foldl (relaxEdge g u k) σ0).bcAt ((g.edgeAt e).«to») = some b ∧
      b ≤ k + costOf g e := by
  induction es generalizing σ0 with
  | nil => exact fun e he => absurd he (List.not_mem_nil e)
  | cons e rest ih =>
    have hlbc1 : ∀ y ∈ rest, (g.edgeAt y).«to» < (relaxEdge g u k σ0 e).best_cost.length := by
      intro y hy
      rw [relaxEdge_len_bc]
      exact hlbc y (List.mem_cons_of_mem e hy)
    have hlbi1 : ∀ y ∈ rest, (g.edgeAt y).«to» < (relaxEdge g u k σ0 e).best_incoming.length := by
      intro y hy
      rw [relaxEdge_len_bi]
      exact hlbi y (List.mem_cons_of_mem e hy)
    intro e' he' hneu hopen
    rw [List.foldl_cons]
    rcases List.mem_cons.mp he' with rfl | hrest
    · rcases relaxEdge_char (g := g) u k σ0 e' with ⟨heq, hcond⟩ | ⟨hne, hop, himp, heq⟩
      · rcases hcond with h | h | ⟨b, hb, hble⟩
        · exact absurd h hneu
        · rw [h] at hopen
          cases hopen
        · rw [heq]
          rcases foldRelax_mono (g := g) (u := u) (k := k) rest σ0
            (by rw [heq] at hlbc1; exact hlbc1) (by rw [heq] at hlbi1; exact hlbi1) hb with
            ⟨b2, hb2le, hb2⟩
          exact ⟨b2, hb2, le_trans hb2le hble⟩
      · rw [heq]
        have hself : (relaxUpd g k σ0 e').bcAt ((g.edgeAt e').«to») = some (k + costOf g e') :=
          bcAt_relaxUpd_self (hlbc e' (List.mem_cons_self ..))
        rcases foldRelax_mono (g := g) (u := u) (k := k) rest (relaxUpd g k σ0 e')
          (by rw [heq] at hlbc1; exact hlbc1) (by rw [heq] at hlbi1; exact hlbi1) hself with
          ⟨b2, hb2le, hb2⟩
        exact ⟨b2, hb2, hb2le⟩
    · have hopen1 : (relaxEdge g u k σ0 e).closedAt ((g.edgeAt e').«to») = false := by
        unfold SearchState.closedAt
        rw [relaxEdge_is_closed]
        exact hopen
      exact ih (relaxEdge g u k σ0 e) hlbc1 hlbi1 e' hrest hneu hopen1

/-! ### Stale pops are no-ops -/

theorem set_getD_eq {α : Type} {l : List α} {n : Nat} {d a : α} (hlt : n < l.length)
    (h : l.getD n d = a) : l.set n a = l := by
  apply List.ext_getElem?
  intro i
  rw [List.getElem?_set]
  split
  · rename_i hi
    subst hi
    rw [List.getD_eq_getElem?_getD, List.getElem?_eq_getElem hlt] at h
    simp only [Option.getD_some] at h
    simp [List.getElem?_eq_getElem hlt, hlt, h]
  · rfl

theorem length_filter_eq_countP {α : Type} (l : List α) (p : α → Bool) :
    (l.filter p).length = l.countP p := by
  induction l with
  | nil => rfl
  | cons a l ih => by_cases h : p a <;> simp [List.filter_cons, List.countP_cons, h, ih]

theorem countP_and_split {α : Type} (l : List α) (p q : α → Bool) :
    l.countP (fun x => p x && q x) + l.countP (fun x => p x && !q x) = l.countP p := by
  induction l with
  | nil => rfl
  | cons a l ih =>
    by_cases hp : p a <;> by_cases hq : q a <;>
      simp [List.countP_cons, hp, hq] <;> omega

theorem foldl_id {α β : Type} {f : β → α → β} {es : List α} {b : β}
    (h : ∀ a ∈ es, f b a = b) : es.foldl f b = b := by
  induction es with
  | nil => rfl
  | cons a rest ih =>
    rw [List.foldl_cons, h a (List.mem_cons_self ..)]
    exact ih fun x hx => h x (List.mem_cons_of_mem a hx)

variable {s : NodeId} {z : CostType}

/-- If the source is not yet closed, no search step has run: the state is the
initial one. -/
theorem Inv.state_src_open {σ : SearchState} (hInv : Inv g s z σ)
    (h : σ.closedAt s = false) :
    σ = ⟨List.replicate g.nodes.length none, List.replicate g.nodes.length none,
         List.replicate g.nodes.length false, ⟨[(s, z)]⟩⟩ :=
  hInv.start h

/-- A closed node implies the source is closed. -/
theorem Inv.src_closed_of_closed {σ : SearchState} (hInv : Inv g s z σ) {u : NodeId}
    (hu : σ.closedAt u = true) : σ.closedAt s = true := by
  by_contra hcon
  have h0 := hInv.start (by simpa using hcon)
  rw [h0] at hu
  unfold SearchState.closedAt at hu
  rw [getD_replicate] at hu
  split at hu <;> cases hu

/-- Popping an entry of an already-closed node relaxes nothing: the step only
removes the entry from the queue; no table changes, no insertion. -/
theorem stale_pop_noop (hw : g.WF) (hn : NonnegCosts g) {σ : SearchState}
    (hInv : Inv g s z σ) {u : NodeId} {kq : CostType} {rest : List (Nat × CostType)}
    (hpop : σ.queue.data = (u, kq) :: rest) (hcl : σ.closedAt u = true) :
    bestPathStep g σ = some { σ with queue := ⟨rest⟩ } := by
  have hmem : (u, kq) ∈ σ.queue.data := by
    rw [hpop]
    exact List.mem_cons_self ..
  have hus : u ≠ s := by
    intro h
    subst h
    rw [hInv.qsrc kq hmem] at hcl
    cases hcl
  have hsc : σ.closedAt s = true := hInv.src_closed_of_closed hcl
  rcases hInv.qent (u, kq) hmem with ⟨h1, _⟩ | ⟨_, ⟨bu, hbu, hbule⟩, _⟩
  · exact absurd h1 hus
  have hun : u < g.nodes.length := (hInv.rec_path u bu hbu).1
  have hswl : u < σ.is_closed.length := by
    rw [hInv.len_cl]
    exact hun
  have hset : σ.is_closed.set u true = σ.is_closed := set_getD_eq hswl hcl
  have hq : σ.queue = ⟨(u, kq) :: rest⟩ := by rw [← hpop]
  show (match σ.queue.extract_min with
    | none => none
    | some ((f, from_cost), q) =>
      some (((g.nodeAt f).outgoing).foldl (relaxEdge g f from_cost)
        { σ with queue := q, is_closed := σ.is_closed.set f true })) = _
  rw [hq]
  show some (((g.nodeAt u).outgoing).foldl (relaxEdge g u kq)
      { σ with queue := ⟨rest⟩, is_closed := σ.is_closed.set u true }) = _
  rw [hset]
  congr 1
  apply foldl_id
  intro e he
  obtain ⟨heE, hefrom⟩ := ((WF.mem_outgoing hw hun).mp he)
  by_cases hne : (g.edgeAt e).«to» = u
  · exact relaxEdge_skip (Or.inl hne)
  by_cases hct : σ.closedAt ((g.edgeAt e).«to») = true
  · exact relaxEdge_skip (Or.inr hct)
  have hts : (g.edgeAt e).«to» ≠ s := by
    intro h
    rw [h] at hct
    exact hct hsc
  have hvu : valAt s z σ u = some bu := by
    unfold valAt
    rw [if_neg hus]
    exact hbu
  obtain ⟨b, hval, hble⟩ := hInv.frontier u bu hcl hvu e he hne
  have hbct : σ.bcAt ((g.edgeAt e).«to») = some b := by
    unfold valAt at hval
    rw [if_neg hts] at hval
    exact hval
  refine relaxEdge_noimp ?_ hbct ?_
  · intro h
    rcases h with h | h
    · exact hne h
    · exact hct h
  · push_neg
    calc b ≤ bu + costOf g e := hble
    _ ≤ kq + costOf g e := by linarith

/-- The invariant survives a stale pop. -/
theorem Inv.stale_preserved {σ : SearchState} (hInv : Inv g s z σ) {u : NodeId}
    {kq : CostType} {rest : List (Nat × CostType)}
    (hpop : σ.queue.data = (u, kq) :: rest) (hcl : σ.closedAt u = true) :
    Inv g s z { σ with queue := ⟨rest⟩ } := by
  have hsc : σ.closedAt s = true := hInv.src_closed_of_closed hcl
  have hsub : ∀ x ∈ rest, x ∈ σ.queue.data := by
    intro x hx
    rw [hpop]
    exact List.mem_cons_of_mem _ hx
  refine ⟨hInv.len_bi, hInv.len_bc, hInv.len_cl, ?_, hInv.src_bc, hInv.src_bi, ?_, hInv.sync,
    hInv.ptr, hInv.rec_path, ?_, ?_, ?_, hInv.closed_rec, ?_, hInv.frontier, hInv.ordex⟩
  · have := hInv.sortedQ
    rw [hpop] at this
    exact sortedKeys_tail this
  · intro h
    have h2 : σ.closedAt s = false := h
    rw [hsc] at h2
    cases h2
  · intro x hx
    exact hInv.qent x (hsub x hx)
  · intro k hk
    exact hInv.qsrc k (hsub _ hk)
  · intro v b hop hbc
    have := hInv.openq v b hop hbc
    rw [hpop] at this
    rcases List.mem_cons.mp this with heq | h
    · have hv : v = u := congrArg Prod.fst heq
      have hop2 : σ.closedAt v = false := hop
      rw [hv, hcl] at hop2
      cases hop2
    · exact h
  · intro v kv hc hval x hx
    exact hInv.closed_le v kv hc hval x (hsub x hx)

/-- Setup facts for a fresh pop. -/
theorem Inv.pop_min {σ : SearchState} (hInv : Inv g s z σ) {u : NodeId} {kq : CostType}
    {rest : List (Nat × CostType)} (hpop : σ.queue.data = (u, kq) :: rest) :
    ∀ x ∈ σ.queue.data, kq ≤ x.2 := by
  intro x hx
  rw [hpop] at hx
  rcases List.mem_cons.mp hx with rfl | hx
  · exact le_refl _
  · have hsq := hInv.sortedQ
    rw [hpop] at hsq
    exact sortedKeys_head_le hsq x hx

/-- If an open node is popped, its key is `zero_cost` for the source and its
recorded cost otherwise. -/
theorem Inv.popped_val {σ : SearchState} (hInv : Inv g s z σ) {u : NodeId} {kq : CostType}
    {rest : List (Nat × CostType)} (hpop : σ.queue.data = (u, kq) :: rest)
    (hcl : σ.closedAt u = false) : valAt s z σ u = some kq := by
  have hmem : (u, kq) ∈ σ.queue.data := by
    rw [hpop]
    exact List.mem_cons_self ..
  by_cases hus : u = s
  · subst hus
    rcases hInv.qent (u, kq) hmem with ⟨_, h2⟩ | ⟨h1, _⟩
    · unfold valAt
      rw [if_pos rfl]
      exact congrArg some h2.symm
    · exact absurd rfl h1
  · rcases hInv.qent (u, kq) hmem with ⟨h1, _⟩ | ⟨_, ⟨bu, hbu, hble⟩, _⟩
    · exact absurd h1 hus
    have hq := hInv.openq u bu hcl hbu
    rw [hpop] at hq
    have hbu_eq : bu = kq := by
      rcases List.mem_cons.mp hq with heq | hq
      · exact (congrArg Prod.snd heq)
      · have := sortedKeys_head_le (by
          have hsq := hInv.sortedQ
          rw [hpop] at hsq
          exact hsq) _ hq
        exact le_antisymm hble this
    unfold valAt
    rw [if_neg hus]
    rw [hbu_eq] at hbu
    exact hbu

/-- The invariant survives a fresh pop: the popped node is closed with key
equal to its recorded value, and its outgoing edges are relaxed. -/
theorem Inv.fresh_preserved (hw : g.WF) (hn : NonnegCosts g)
    (hs : s < g.nodes.length) {σ : SearchState} (hInv : Inv g s z σ) {u : NodeId}
    {kq : CostType} {rest : List (Nat × CostType)}
    (hpop : σ.queue.data = (u, kq) :: rest) (hcl : σ.closedAt u = false) :
    Inv g s z (((g.nodeAt u).outgoing).foldl (relaxEdge g u kq)
      { σ with queue := ⟨rest⟩, is_closed := σ.is_closed.set u true }) := by
  have hmem : (u, kq) ∈ σ.queue.data := by
    rw [hpop]
    exact List.mem_cons_self ..
  have hinit : u = s → kq = z ∧ rest = [] := by
    intro hus
    have hcls : σ.closedAt s = false := hus ▸ hcl
    have h0 := hInv.start (by simpa using hcls)
    have hdata : σ.queue.data = [(s, z)] := by rw [h0]
    rw [hpop] at hdata
    simp only [List.cons.injEq, Prod.mk.injEq] at hdata
    exact ⟨hdata.1.2, hdata.2⟩
  have hf9 : u ≠ s → σ.closedAt s = true := by
    intro hus
    by_contra hcon
    have h0 := hInv.start (by simpa using hcon)
    have hdata : σ.queue.data = [(s, z)] := by rw [h0]
    rw [hpop] at hdata
    simp only [List.cons.injEq, Prod.mk.injEq] at hdata
    exact hus hdata.1.1
  have hkq : valAt s z σ u = some kq := hInv.popped_val hpop hcl
  have hbcu : u ≠ s → σ.bcAt u = some kq := by
    intro hus
    unfold valAt at hkq
    rw [if_neg hus] at hkq
    exact hkq
  have hun : u < g.nodes.length := by
    by_cases hus : u = s
    · rw [hus]
      exact hs
    · exact (hInv.rec_path u kq (hbcu hus)).1
  have hpathu : ∃ p, IsPath g s u p ∧ kq = z + g.cost p := by
    by_cases hus : u = s
    · refine ⟨[], hus ▸ IsPath.nil u, ?_⟩
      rw [(hinit hus).1]
      simp [Graph.cost]
    · rcases hInv.qent (u, kq) hmem with ⟨h1, _⟩ | ⟨_, _, p, _, hpath, heq⟩
      · exact absurd h1 hus
      · exact ⟨p, hpath, heq⟩
  have hkz : z ≤ kq := by
    rcases hpathu with ⟨p, hp, heq⟩
    rw [heq]
    have := IsPath.cost_nonneg hn hp
    linarith
  have hqle : ∀ x ∈ σ.queue.data, kq ≤ x.2 := hInv.pop_min hpop
  have hucl : u < σ.is_closed.length := by
    rw [hInv.len_cl]
    exact hun
  have hclosed1 : ∀ v,
      ({ σ with queue := ⟨rest⟩, is_closed := σ.is_closed.set u true } : SearchState).closedAt v =
        if v = u then true else σ.closedAt v := by
    intro v
    by_cases hv : v = u
    · subst hv
      rw [if_pos rfl]
      exact getD_set_self hucl
    · rw [if_neg hv]
      exact getD_set_ne (fun h => hv h.symm)
  have hcl1s :
      ({ σ with queue := ⟨rest⟩, is_closed := σ.is_closed.set u true } : SearchState).closedAt s
        = true := by
    rw [hclosed1]
    by_cases hus : s = u
    · rw [if_pos hus]
    · rw [if_neg hus]
      exact hf9 (fun h => hus h.symm)
  have hes : ∀ e ∈ (g.nodeAt u).outgoing, e < g.edges.length ∧ (g.edgeAt e).«from» = u :=
    fun e he => (WF.mem_outgoing hw hun).mp he
  have hlbc : ∀ e ∈ (g.nodeAt u).outgoing, (g.edgeAt e).«to» < ({ σ with queue := ⟨rest⟩, is_closed := σ.is_closed.set u true } : SearchState).best_cost.length := by
    intro e he
    show (g.edgeAt e).«to» < σ.best_cost.length
    rw [hInv.len_bc]
    exact WF.to_lt hw (hes e he).1
  have hlbi : ∀ e ∈ (g.nodeAt u).outgoing, (g.edgeAt e).«to» < ({ σ with queue := ⟨rest⟩, is_closed := σ.is_closed.set u true } : SearchState).best_incoming.length := by
    intro e he
    show (g.edgeAt e).«to» < σ.best_incoming.length
    rw [hInv.len_bi]
    exact WF.to_lt hw (hes e he).1
  have hclosed2 : ∀ v, (((g.nodeAt u).outgoing).foldl (relaxEdge g u kq) ({ σ with queue := ⟨rest⟩, is_closed := σ.is_closed.set u true } : SearchState)).closedAt v = ({ σ with queue := ⟨rest⟩, is_closed := σ.is_closed.set u true } : SearchState).closedAt v := by
    intro v
    exact foldRelax_closedAt v
  have htab := fun v => foldRelax_tables (g := g) (u := u) (k := kq) ((g.nodeAt u).outgoing) ({ σ with queue := ⟨rest⟩, is_closed := σ.is_closed.set u true } : SearchState) v hlbc hlbi
  have hqmem := foldRelax_queue_mem (g := g) (u := u) (k := kq) ((g.nodeAt u).outgoing) ({ σ with queue := ⟨rest⟩, is_closed := σ.is_closed.set u true } : SearchState) hlbc hlbi
  have hqsub := foldRelax_queue_sub (g := g) (u := u) (k := kq) ((g.nodeAt u).outgoing) ({ σ with queue := ⟨rest⟩, is_closed := σ.is_closed.set u true } : SearchState)
  have hframe : ∀ v, ({ σ with queue := ⟨rest⟩, is_closed := σ.is_closed.set u true } : SearchState).closedAt v = true → (((g.nodeAt u).outgoing).foldl (relaxEdge g u kq) ({ σ with queue := ⟨rest⟩, is_closed := σ.is_closed.set u true } : SearchState)).bcAt v = σ.bcAt v ∧ (((g.nodeAt u).outgoing).foldl (relaxEdge g u kq) ({ σ with queue := ⟨rest⟩, is_closed := σ.is_closed.set u true } : SearchState)).biAt v = σ.biAt v := by
    intro v hv
    rcases htab v with ⟨h1, h2⟩ | ⟨h1, _⟩
    · exact ⟨h1, h2⟩
    · rw [hv] at h1
      cases h1
  have hopen1 : ∀ v, ({ σ with queue := ⟨rest⟩, is_closed := σ.is_closed.set u true } : SearchState).closedAt v = false → v ≠ u ∧ σ.closedAt v = false := by
    intro v hv
    rw [hclosed1] at hv
    by_cases hvu : v = u
    · rw [if_pos hvu] at hv
      cases hv
    · rw [if_neg hvu] at hv
      exact ⟨hvu, hv⟩
  have hval2u : valAt s z (((g.nodeAt u).outgoing).foldl (relaxEdge g u kq) ({ σ with queue := ⟨rest⟩, is_closed := σ.is_closed.set u true } : SearchState)) u = some kq := by
    by_cases hus : u = s
    · unfold valAt
      rw [if_pos hus, (hinit hus).1]
    · unfold valAt
      rw [if_neg hus]
      rw [(hframe u (by rw [hclosed1, if_pos rfl])).1]
      exact hbcu hus
  have hval2 : ∀ v, ({ σ with queue := ⟨rest⟩, is_closed := σ.is_closed.set u true } : SearchState).closedAt v = true → valAt s z (((g.nodeAt u).outgoing).foldl (relaxEdge g u kq) ({ σ with queue := ⟨rest⟩, is_closed := σ.is_closed.set u true } : SearchState)) v = valAt s z σ v := by
    intro v hv
    unfold valAt
    by_cases hvs : v = s
    · rw [if_pos hvs, if_pos hvs]
    · rw [if_neg hvs, if_neg hvs, (hframe v hv).1]
  refine ⟨?_, ?_, ?_, ?_, ?_, ?_, ?_, ?_, ?_, ?_, ?_, ?_, ?_, ?_, ?_, ?_, ?_⟩
  · rw [foldRelax_len_bi]
    exact hInv.len_bi
  · rw [foldRelax_len_bc]
    exact hInv.len_bc
  · rw [foldRelax_is_closed]
    show (σ.is_closed.set u true).length = _
    rw [List.length_set]
    exact hInv.len_cl
  · apply foldRelax_sorted
    show sortedKeys rest
    have hsq := hInv.sortedQ
    rw [hpop] at hsq
    exact sortedKeys_tail hsq
  · rcases htab s with ⟨h1, _⟩ | ⟨h1, _⟩
    · rw [h1]
      exact hInv.src_bc
    · rw [hcl1s] at h1
      cases h1
  · rcases htab s with ⟨_, h2⟩ | ⟨h1, _⟩
    · rw [h2]
      exact hInv.src_bi
    · rw [hcl1s] at h1
      cases h1
  · intro h
    rw [hclosed2, hcl1s] at h
    cases h
  · intro v
    rcases htab v with ⟨h1, h2⟩ | ⟨_, _, e2, _, _, h1, h2, _, _⟩
    · rw [h1, h2]
      exact hInv.sync v
    · rw [h1, h2]
      rfl
  · intro v e2 hbi2
    rcases htab v with ⟨h1, h2⟩ | ⟨hop, hneu, e2', he2', hto, h1, h2, _, _⟩
    · rw [h2] at hbi2
      obtain ⟨heE, hto, hfne, hfcl, b, hbc, hval⟩ := hInv.ptr v e2 hbi2
      have hfcl1 : ({ σ with queue := ⟨rest⟩, is_closed := σ.is_closed.set u true } : SearchState).closedAt ((g.edgeAt e2).«from») = true := by
        rw [hclosed1]
        by_cases hx : (g.edgeAt e2).«from» = u
        · rw [if_pos hx]
        · rw [if_neg hx]
          exact hfcl
      refine ⟨heE, hto, hfne, ?_, b, by rw [h1]; exact hbc, ?_⟩
      · rw [hclosed2]
        exact hfcl1
      · rw [hval2 _ hfcl1]
        exact hval
    · rw [h2] at hbi2
      have he2eq : e2' = e2 := Option.some.injEq .. ▸ hbi2
      subst he2eq
      obtain ⟨heE, hfrom⟩ := hes e2' he2'
      refine ⟨heE, hto, by rw [hfrom]; exact fun h => hneu h.symm, ?_, kq + costOf g e2', h1, ?_⟩
      · rw [hfrom, hclosed2, hclosed1, if_pos rfl]
      · rw [hfrom]
        rw [hval2u]
        congr 1
        ring
  · intro v b hbc2
    rcases htab v with ⟨h1, _⟩ | ⟨hop, hneu, e2, he2, hto, h1, _, _, _⟩
    · rw [h1] at hbc2
      exact hInv.rec_path v b hbc2
    · rw [h1] at hbc2
      have hbeq : b = kq + costOf g e2 := (Option.some.injEq .. ▸ hbc2).symm
      obtain ⟨heE, hfrom⟩ := hes e2 he2
      obtain ⟨p, hp, hpeq⟩ := hpathu
      have hvs : v ≠ s := by
        intro h
        rw [h, hcl1s] at hop
        cases hop
      refine ⟨by rw [← hto]; exact WF.to_lt hw heE, hvs, p ++ [e2], by simp, ?_, ?_⟩
      · rw [← hto]
        exact hp.snoc heE hfrom
      · rw [hbeq, cost_append, hpeq]
        have : g.cost [e2] = costOf g e2 := by simp [Graph.cost]
        rw [this]
        ring
  · intro x hx
    rcases hqmem x hx with hold | ⟨e2, he2, hxeq, hop, hneu, b, hb, hble⟩
    · have hxσ : x ∈ σ.queue.data := by
        rw [hpop]
        exact List.mem_cons_of_mem _ hold
      rcases hInv.qent x hxσ with h | ⟨hxs, ⟨b, hbx, hbxle⟩, p, hpne, hpath, heq⟩
      · exact Or.inl h
      · refine Or.inr ⟨hxs, ?_, p, hpne, hpath, heq⟩
        obtain ⟨b2, hb2le, hb2⟩ := foldRelax_mono (g := g) ((g.nodeAt u).outgoing) ({ σ with queue := ⟨rest⟩, is_closed := σ.is_closed.set u true } : SearchState) hlbc hlbi
          (show ({ σ with queue := ⟨rest⟩, is_closed := σ.is_closed.set u true } : SearchState).bcAt x.1 = some b from hbx)
        exact ⟨b2, hb2, le_trans hb2le hbxle⟩
    · obtain ⟨heE, hfrom⟩ := hes e2 he2
      obtain ⟨p, hp, hpeq⟩ := hpathu
      have hts : (g.edgeAt e2).«to» ≠ s := by
        intro h
        rw [h, hcl1s] at hop
        cases hop
      refine Or.inr ⟨by rw [hxeq]; exact hts, ⟨b, hb, hble⟩, p ++ [e2], by simp, ?_, ?_⟩
      · rw [hxeq]
        show IsPath g s ((g.edgeAt e2).«to») (p ++ [e2])
        exact hp.snoc heE hfrom
      · rw [hxeq]
        show kq + costOf g e2 = z + g.cost (p ++ [e2])
        rw [cost_append, hpeq]
        have : g.cost [e2] = costOf g e2 := by simp [Graph.cost]
        rw [this]
        ring
  · intro k hk
    exfalso
    rcases hqmem (s, k) hk with hold | ⟨e2, he2, hxeq, hop, hneu, _⟩
    · by_cases hus : u = s
      · rw [(hinit hus).2] at hold
        cases hold
      · have hxσ : (s, k) ∈ σ.queue.data := by
          rw [hpop]
          exact List.mem_cons_of_mem _ hold
        have := hInv.qsrc k hxσ
        rw [hf9 hus] at this
        cases this
    · have hts : (g.edgeAt e2).«to» ≠ s := by
        intro h
        rw [h, hcl1s] at hop
        cases hop
      exact hts (congrArg Prod.fst hxeq).symm
  · intro v b hop2 hbc2
    rw [hclosed2] at hop2
    obtain ⟨hvu, hvop⟩ := hopen1 v hop2
    rcases htab v with ⟨h1, _⟩ | ⟨_, _, e2, he2, hto, h1, _, hq, _⟩
    · rw [h1] at hbc2
      have := hInv.openq v b hvop hbc2
      rw [hpop] at this
      rcases List.mem_cons.mp this with heq | hmem2
      · exact absurd (congrArg Prod.fst heq) hvu
      · exact hqsub _ hmem2
    · rw [h1] at hbc2
      have hbeq : b = kq + costOf g e2 := (Option.some.injEq .. ▸ hbc2).symm
      rw [hbeq]
      exact hq
  · intro v hcl2 hvs
    rw [hclosed2, hclosed1] at hcl2
    by_cases hvu : v = u
    · subst hvu
      rw [(hframe v (by rw [hclosed1, if_pos rfl])).1, hbcu hvs]
      rfl
    · rw [if_neg hvu] at hcl2
      rw [(hframe v (by rw [hclosed1, if_neg hvu]; exact hcl2)).1]
      exact hInv.closed_rec v hcl2 hvs
  · intro v kv hcl2 hval x hx
    rw [hclosed2, hclosed1] at hcl2
    by_cases hvu : v = u
    · subst hvu
      have hkv : kv = kq := by
        rw [hval2u] at hval
        exact (Option.some.inj hval).symm
      rcases hqmem x hx with hold | ⟨e2, he2, hxeq, _, _, _⟩
      · rw [hkv]
        exact hqle x (by rw [hpop]; exact List.mem_cons_of_mem _ hold)
      · rw [hxeq, hkv]
        have := costOf_nonneg hn (hes e2 he2).1
        show kq ≤ kq + costOf g e2
        linarith
    · rw [if_neg hvu] at hcl2
      have hval_old : valAt s z σ v = some kv := by
        rw [← hval2 v (by rw [hclosed1, if_neg hvu]; exact hcl2)]
        exact hval
      have hle_all := hInv.closed_le v kv hcl2 hval_old
      rcases hqmem x hx with hold | ⟨e2, he2, hxeq, _, _, _⟩
      · exact hle_all x (by rw [hpop]; exact List.mem_cons_of_mem _ hold)
      · rw [hxeq]
        have h1 := hle_all (u, kq) hmem
        have h2 := costOf_nonneg hn (hes e2 he2).1
        show kv ≤ kq + costOf g e2
        linarith
  · intro u2 ku2 hcl2 hval2' e he hne
    rw [hclosed2, hclosed1] at hcl2
    by_cases hu2u : u2 = u
    · have hval2u2 : valAt s z (((g.nodeAt u).outgoing).foldl (relaxEdge g u kq) ({ σ with queue := ⟨rest⟩, is_closed := σ.is_closed.set u true } : SearchState)) u2 = some kq := by
        rw [hu2u]
        exact hval2u
      have hku2 : ku2 = kq := by
        rw [hval2u2] at hval2'
        exact (Option.some.inj hval2').symm
      rw [hku2]
      have heu : e ∈ (g.nodeAt u).outgoing := hu2u ▸ he
      have hneu2 : (g.edgeAt e).«to» ≠ u := hu2u ▸ hne
      obtain ⟨heE, hfrom⟩ := hes e heu
      by_cases hts : (g.edgeAt e).«to» = s
      · refine ⟨z, ?_, ?_⟩
        · unfold valAt
          rw [if_pos hts]
        · have := costOf_nonneg hn heE
          linarith
      · by_cases hcto : ({ σ with queue := ⟨rest⟩, is_closed := σ.is_closed.set u true } : SearchState).closedAt ((g.edgeAt e).«to») = true
        · have hclto : σ.closedAt ((g.edgeAt e).«to») = true := by
            rw [hclosed1] at hcto
            by_cases hx : (g.edgeAt e).«to» = u
            · exact absurd hx hneu2
            · rw [if_neg hx] at hcto
              exact hcto
          have hrec := hInv.closed_rec _ hclto hts
          obtain ⟨kv, hkv⟩ := Option.isSome_iff_exists.mp hrec
          have hvle := hInv.closed_le _ kv hclto (by unfold valAt; rw [if_neg hts]; exact hkv)
            (u, kq) hmem
          refine ⟨kv, ?_, ?_⟩
          · rw [hval2 _ hcto]
            unfold valAt
            rw [if_neg hts]
            exact hkv
          · have := costOf_nonneg hn heE
            linarith
        · have hopto : ({ σ with queue := ⟨rest⟩, is_closed := σ.is_closed.set u true } : SearchState).closedAt ((g.edgeAt e).«to») = false := by
            simpa using hcto
          obtain ⟨b, hb, hble⟩ := foldRelax_frontier (g := g) ((g.nodeAt u).outgoing) ({ σ with queue := ⟨rest⟩, is_closed := σ.is_closed.set u true } : SearchState)
            hlbc hlbi e heu hneu2 hopto
          refine ⟨b, ?_, hble⟩
          unfold valAt
          rw [if_neg hts]
          exact hb
    · rw [if_neg hu2u] at hcl2
      have hval_old : valAt s z σ u2 = some ku2 := by
        rw [← hval2 u2 (by rw [hclosed1, if_neg hu2u]; exact hcl2)]
        exact hval2'
      obtain ⟨b, hbval, hble⟩ := hInv.frontier u2 ku2 hcl2 hval_old e he hne
      by_cases hts : (g.edgeAt e).«to» = s
      · refine ⟨b, ?_, hble⟩
        unfold valAt at hbval ⊢
        rw [if_pos hts] at hbval ⊢
        exact hbval
      · have hbc : σ.bcAt ((g.edgeAt e).«to») = some b := by
          unfold valAt at hbval
          rw [if_neg hts] at hbval
          exact hbval
        obtain ⟨b2, hb2le, hb2⟩ := foldRelax_mono (g := g) ((g.nodeAt u).outgoing) ({ σ with queue := ⟨rest⟩, is_closed := σ.is_closed.set u true } : SearchState) hlbc hlbi
          (show ({ σ with queue := ⟨rest⟩, is_closed := σ.is_closed.set u true } : SearchState).bcAt _ = some b from hbc)
        refine ⟨b2, ?_, le_trans hb2le hble⟩
        unfold valAt
        rw [if_neg hts]
        exact hb2
  · obtain ⟨ord, hnodup, hiff, hptr⟩ := hInv.ordex
    have hu_not : u ∉ ord := by
      intro h
      rw [← hiff u] at h
      rw [h] at hcl
      cases hcl
    refine ⟨ord ++ [u], ?_, ?_, ?_⟩
    · exact hnodup.append (List.nodup_singleton u) (by
        intro a ha hb
        rw [List.mem_singleton] at hb
        subst hb
        exact hu_not ha)
    · intro v
      rw [hclosed2, hclosed1]
      by_cases hvu : v = u
      · subst hvu
        rw [if_pos rfl]
        simp
      · rw [if_neg hvu]
        rw [List.mem_append, List.mem_singleton]
        constructor
        · intro h
          exact Or.inl ((hiff v).mp h)
        · intro h
          rcases h with h | h
          · exact (hiff v).mpr h
          · exact absurd h hvu
    · intro v e2 hbi2
      rcases htab v with ⟨_, h2⟩ | ⟨hop, hneu, e2', he2', hto, _, h2, _, _⟩
      · rw [h2] at hbi2
        obtain ⟨hin, hidx⟩ := hptr v e2 hbi2
        refine ⟨List.mem_append_left _ hin, ?_⟩
        intro hv
        rw [List.mem_append, List.mem_singleton] at hv
        rcases hv with hv | hv
        · rw [List.indexOf_append_of_mem hin, List.indexOf_append_of_mem hv]
          exact hidx hv
        · subst hv
          rw [List.indexOf_append_of_mem hin, List.indexOf_append_of_not_mem hu_not]
          simp only [List.indexOf_cons_self, Nat.add_zero]
          exact List.indexOf_lt_length.mpr hin
      · rw [h2] at hbi2
        have he2eq : e2' = e2 := Option.some.injEq .. ▸ hbi2
        subst he2eq
        obtain ⟨heE, hfrom⟩ := hes e2' he2'
        refine ⟨by rw [hfrom]; exact List.mem_append_right _ (List.mem_singleton_self u), ?_⟩
        intro hv
        exfalso
        rw [List.mem_append, List.mem_singleton] at hv
        obtain ⟨hvu, hvop⟩ := hopen1 v hop
        rcases hv with hv | hv
        · rw [← hiff v] at hv
          rw [hv] at hvop
          cases hvop
        · exact hvu hv

/-- The invariant holds at the initial search state. -/
theorem inv_init (g : Graph NodeState EdgeProps) (s : NodeId) :
    Inv g s (Cost.zero_cost (P := EdgeProps)) (initState g s) := by
  have hbc : ∀ v, (initState g s).bcAt v = none := by
    intro v
    show (List.replicate g.nodes.length none).getD v none = none
    rw [getD_replicate]
    split <;> rfl
  have hbi : ∀ v, (initState g s).biAt v = none := by
    intro v
    show (List.replicate g.nodes.length none).getD v none = none
    rw [getD_replicate]
    split <;> rfl
  have hcl : ∀ v, (initState g s).closedAt v = false := by
    intro v
    show (List.replicate g.nodes.length false).getD v false = false
    rw [getD_replicate]
    split <;> rfl
  refine ⟨List.length_replicate .., List.length_replicate .., List.length_replicate .., ?_, hbc s,
    hbi s, ?_, ?_, ?_, ?_, ?_, ?_, ?_, ?_, ?_, ?_, ?_⟩
  · show sortedKeys [(s, _)]
    exact List.pairwise_singleton ..
  · intro
    rfl
  · intro v
    rw [hbc v, hbi v]
    rfl
  · intro v e h
    rw [hbi v] at h
    cases h
  · intro v b h
    rw [hbc v] at h
    cases h
  · intro x hx
    have : x = (s, Cost.zero_cost (P := EdgeProps)) := List.mem_singleton.mp hx
    exact Or.inl (by rw [this]; exact ⟨rfl, rfl⟩)
  · intro k _
    exact hcl s
  · intro v b _ hb
    rw [hbc v] at hb
    cases hb
  · intro v h
    rw [hcl v] at h
    cases h
  · intro v kv hv
    rw [hcl v] at hv
    cases hv
  · intro v kv hv
    rw [hcl v] at hv
    cases hv
  · refine ⟨[], List.nodup_nil, ?_, ?_⟩
    · intro v
      rw [hcl v]
      simp
    · intro v e h
      rw [hbi v] at h
      cases h

/-- Destructuring a successful step. -/
theorem bestPathStep_some {σ σ2 : SearchState} (h : bestPathStep g σ = some σ2) :
    ∃ u kq rest, σ.queue.data = (u, kq) :: rest ∧
      σ2 = ((g.nodeAt u).outgoing).foldl (relaxEdge g u kq)
        { σ with queue := ⟨rest⟩, is_closed := σ.is_closed.set u true } := by
  unfold bestPathStep Heap.extract_min at h
  rcases hd : σ.queue.data with _ | ⟨⟨u, kq⟩, rest⟩
  · rw [hd] at h
    cases h
  · rw [hd] at h
    simp only [Option.some.injEq] at h
    exact ⟨u, kq, rest, rfl, h.symm⟩

theorem bestPathStep_none {σ : SearchState} (h : bestPathStep g σ = none) :
    σ.queue.data = [] := by
  unfold bestPathStep Heap.extract_min at h
  rcases hd : σ.queue.data with _ | ⟨⟨u, kq⟩, rest⟩
  · rfl
  · rw [hd] at h
    cases h

/-- One step strictly decreases the termination measure and preserves the
invariant. -/
theorem step_preserves (hw : g.WF) (hn : NonnegCosts g) (hs : s < g.nodes.length)
    {σ σ2 : SearchState} (hInv : Inv g s z σ) (hstep : bestPathStep g σ = some σ2) :
    Inv g s z σ2 ∧ phi g σ2 < phi g σ := by
  obtain ⟨u, kq, rest, hpop, hσ2⟩ := bestPathStep_some hstep
  by_cases hcl : σ.closedAt u = true
  · have hnoop := stale_pop_noop hw hn hInv hpop hcl
    rw [hstep] at hnoop
    have hσ2' : σ2 = { σ with queue := ⟨rest⟩ } := by
      injection hnoop
    constructor
    · rw [hσ2']
      exact hInv.stale_preserved hpop hcl
    · rw [hσ2']
      unfold phi
      show rest.length + ((List.range g.edges.length).filter (fun e => !(σ.closedAt (g.edgeAt e).«from»))).length < σ.queue.data.length + ((List.range g.edges.length).filter (fun e => !(σ.closedAt (g.edgeAt e).«from»))).length
      rw [hpop]
      simp only [List.length_cons]
      omega
  · have hcl' : σ.closedAt u = false := by simpa using hcl
    constructor
    · rw [hσ2]
      exact hInv.fresh_preserved hw hn hs hpop hcl'
    · -- the measure decreases: one entry popped, at most `outdeg u` inserted,
      -- and exactly `outdeg u` edges leave the open-tail set
      have hmemq : (u, kq) ∈ σ.queue.data := by
        rw [hpop]
        exact List.mem_cons_self ..
      have hun : u < g.nodes.length := by
        by_cases hus : u = s
        · rw [hus]
          exact hs
        · rcases hInv.qent (u, kq) hmemq with ⟨h1, _⟩ | ⟨_, ⟨bu, hbu, _⟩, _⟩
          · exact absurd h1 hus
          · exact (hInv.rec_path u bu hbu).1
      have hucl : u < σ.is_closed.length := by
        rw [hInv.len_cl]
        exact hun
      have hql : σ2.queue.data.length ≤ rest.length + (g.nodeAt u).outgoing.length := by
        rw [hσ2]
        exact foldRelax_queue_len ..
      have hclosed1 : ∀ v, ({ σ with queue := ⟨rest⟩, is_closed := σ.is_closed.set u true } : SearchState).closedAt v = if v = u then true else σ.closedAt v := by
        intro v
        by_cases hv : v = u
        · subst hv
          rw [if_pos rfl]
          exact getD_set_self hucl
        · rw [if_neg hv]
          exact getD_set_ne (fun h => hv h.symm)
      have hcl2 : ∀ v, σ2.closedAt v = if v = u then true else σ.closedAt v := by
        intro v
        rw [hσ2, foldRelax_closedAt, hclosed1]
      have hcount : ((List.range g.edges.length).filter
            (fun e => !(σ2.closedAt (g.edgeAt e).«from»))).length +
          (g.nodeAt u).outgoing.length = ((List.range g.edges.length).filter
            (fun e => !(σ.closedAt (g.edgeAt e).«from»))).length := by
        rw [length_filter_eq_countP, length_filter_eq_countP]
        have hout : (g.nodeAt u).outgoing.length =
            (List.range g.edges.length).countP (fun e => (g.edgeAt e).«from» == u) := by
          rw [(hw.2.2.1 u hun).2.1, length_filter_eq_countP]
        rw [hout]
        have h1 : ∀ e ∈ List.range g.edges.length,
            (!(σ2.closedAt (g.edgeAt e).«from»)) =
              ((!(σ.closedAt (g.edgeAt e).«from»)) && !((g.edgeAt e).«from» == u)) := by
          intro e _
          rw [hcl2]
          by_cases hx : (g.edgeAt e).«from» = u
          · rw [if_pos hx]
            simp [hx]
          · rw [if_neg hx]
            simp [hx]
        have h2 : ∀ e ∈ List.range g.edges.length,
            ((g.edgeAt e).«from» == u) =
              ((!(σ.closedAt (g.edgeAt e).«from»)) && ((g.edgeAt e).«from» == u)) := by
          intro e _
          by_cases hx : (g.edgeAt e).«from» = u
          · rw [hx, hcl']
            simp
          · simp [hx]
        have e1 : (List.range g.edges.length).countP (fun e => !(σ2.closedAt (g.edgeAt e).«from»)) = (List.range g.edges.length).countP (fun e => (!(σ.closedAt (g.edgeAt e).«from»)) && !((g.edgeAt e).«from» == u)) :=
          List.countP_congr (fun e he => by rw [h1 e he])
        have e2 : (List.range g.edges.length).countP (fun e => (g.edgeAt e).«from» == u) = (List.range g.edges.length).countP (fun e => (!(σ.closedAt (g.edgeAt e).«from»)) && ((g.edgeAt e).«from» == u)) :=
          List.countP_congr (fun e he => by conv_lhs => rw [h2 e he])
        rw [e1, e2, Nat.add_comm]
        exact countP_and_split ..
      unfold phi
      have hqlen : σ.queue.data.length = rest.length + 1 := by
        rw [hpop]
        simp
      omega

/-- With fuel at least the measure, the loop runs to completion, ending in an
invariant state with an empty queue. -/
theorem searchGo_completes (hw : g.WF) (hn : NonnegCosts g) (hs : s < g.nodes.length) :
    ∀ fuel (σ : SearchState), Inv g s z σ → phi g σ ≤ fuel →
    ∃ σf, searchGo g fuel σ = some σf ∧ Inv g s z σf ∧ σf.queue.data = [] := by
  intro fuel
  induction fuel with
  | zero =>
    intro σ hInv hphi
    have hempty : σ.queue.data = [] := by
      unfold phi at hphi
      exact List.length_eq_zero.mp (by omega)
    refine ⟨σ, ?_, hInv, hempty⟩
    unfold searchGo Heap.is_empty
    rw [List.isEmpty_iff.mpr hempty]
    rfl
  | succ f ih =>
    intro σ hInv hphi
    rcases hstep : bestPathStep g σ with _ | σ2
    · refine ⟨σ, ?_, hInv, bestPathStep_none hstep⟩
      unfold searchGo
      rw [hstep]
    · obtain ⟨hInv2, hlt⟩ := step_preserves hw hn hs hInv hstep
      obtain ⟨σf, hgo, hf1, hf2⟩ := ih σ2 hInv2 (by omega)
      refine ⟨σf, ?_, hf1, hf2⟩
      unfold searchGo
      rw [hstep]
      exact hgo

theorem phi_init : phi g (initState g s) ≤ g.edges.length + 1 := by
  unfold phi
  have h1 : (initState g s).queue.data.length = 1 := rfl
  have h2 : ((List.range g.edges.length).filter
      (fun e => !((initState g s).closedAt (g.edgeAt e).«from»))).length ≤
        g.edges.length := by
    refine le_trans (List.length_filter_le ..) ?_
    rw [List.length_range]
  omega

/-- In a final state every recorded node is closed, and the source is closed. -/
theorem final_recorded_closed {σf : SearchState} (hInv : Inv g s z σf)
    (hq : σf.queue.data = []) : ∀ v b, σf.bcAt v = some b → σf.closedAt v = true := by
  intro v b hb
  by_contra hcon
  have := hInv.openq v b (by simpa using hcon) hb
  rw [hq] at this
  cases this

theorem final_src_closed {σf : SearchState} (hInv : Inv g s z σf)
    (hq : σf.queue.data = []) : σf.closedAt s = true := by
  by_contra hcon
  have h0 := hInv.start (by simpa using hcon)
  have : σf.queue.data = [(s, z)] := by rw [h0]
  rw [hq] at this
  cases this

/-- In a final state, every node with a path from the source is the source
itself or carries a recorded best cost (search completeness). -/
theorem final_reach_recorded (hw : g.WF) (hs : s < g.nodes.length) {σf : SearchState}
    (hInv : Inv g s z σf) (hq : σf.queue.data = []) :
    ∀ u v p, IsPath g u v p → (u = s ∨ (σf.bcAt u).isSome = true) →
      v = s ∨ (σf.bcAt v).isSome = true := by
  intro u v p hp
  induction hp with
  | nil => exact fun h => h
  | cons e a w q heE hfrom htail ih =>
    intro ha
    apply ih
    -- the head node is closed, so the frontier fact applies to edge e
    have han : a < g.nodes.length := by
      rcases ha with rfl | ha
      · exact hs
      · obtain ⟨b, hb⟩ := Option.isSome_iff_exists.mp ha
        exact (hInv.rec_path a b hb).1
    have hacl : σf.closedAt a = true := by
      rcases ha with rfl | ha
      · exact final_src_closed hInv hq
      · obtain ⟨b, hb⟩ := Option.isSome_iff_exists.mp ha
        exact final_recorded_closed hInv hq a b hb
    have hval : ∃ ka, valAt s z σf a = some ka := by
      rcases ha with rfl | ha
      · exact ⟨z, by unfold valAt; rw [if_pos rfl]⟩
      · obtain ⟨b, hb⟩ := Option.isSome_iff_exists.mp ha
        by_cases has : a = s
        · exact ⟨z, by unfold valAt; rw [if_pos has]⟩
        · exact ⟨b, by unfold valAt; rw [if_neg has]; exact hb⟩
    obtain ⟨ka, hka⟩ := hval
    by_cases hte : (g.edgeAt e).«to» = a
    · rw [hte]
      exact ha
    · have hmem : e ∈ (g.nodeAt a).outgoing := (WF.mem_outgoing hw han).mpr ⟨heE, hfrom⟩
      obtain ⟨b, hbval, _⟩ := hInv.frontier a ka hacl hka e hmem hte
      by_cases hts : (g.edgeAt e).«to» = s
      · exact Or.inl hts
      · right
        unfold valAt at hbval
        rw [if_neg hts] at hbval
        rw [hbval]
        rfl

/-- In a final state the recorded value of every node dominated by a path is
at most the seed plus that path's cost (optimality). -/
theorem final_opt (hw : g.WF) (hn : NonnegCosts g) (hs : s < g.nodes.length)
    {σf : SearchState} (hInv : Inv g s z σf) (hq : σf.queue.data = []) :
    ∀ u v p, IsPath g u v p → ∀ bu, valAt s z σf u = some bu →
      ∃ bv, valAt s z σf v = some bv ∧ bv ≤ bu + g.cost p := by
  intro u v p hp
  induction hp with
  | nil =>
    intro bu hbu
    exact ⟨bu, hbu, by rw [cost_nil]; linarith⟩
  | cons e a w q heE hfrom htail ih =>
    intro bu hbu
    have hacl : σf.closedAt a = true := by
      by_cases has : a = s
      · rw [has]
        exact final_src_closed hInv hq
      · unfold valAt at hbu
        rw [if_neg has] at hbu
        exact final_recorded_closed hInv hq a bu hbu
    have han : a < g.nodes.length := by
      by_cases has : a = s
      · rw [has]
        exact hs
      · unfold valAt at hbu
        rw [if_neg has] at hbu
        exact (hInv.rec_path a bu hbu).1
    by_cases hte : (g.edgeAt e).«to» = a
    · obtain ⟨bv, hbv, hle⟩ := ih bu (by rw [hte]; exact hbu)
      refine ⟨bv, hbv, ?_⟩
      rw [cost_cons]
      have := costOf_nonneg hn heE
      linarith
    · have hmem : e ∈ (g.nodeAt a).outgoing := (WF.mem_outgoing hw han).mpr ⟨heE, hfrom⟩
      obtain ⟨b, hbval, hble⟩ := hInv.frontier a bu hacl hbu e hmem hte
      obtain ⟨bv, hbv, hle⟩ := ih b hbval
      refine ⟨bv, hbv, ?_⟩
      rw [cost_cons]
      linarith

theorem closedAt_lt {σ : SearchState} {v : NodeId} (h : σ.closedAt v = true) :
    v < σ.is_closed.length := by
  by_contra hcon
  unfold SearchState.closedAt at h
  rw [getD_eq_default (le_of_not_lt hcon)] at h
  cases h

/-- In a final state, path reconstruction from any recorded node succeeds with
fuel `nodes.length`, and the result is a real, non-empty, self-loop-free path
from the source whose cost accounts exactly for the recorded best cost. -/
theorem final_reconstruct (hw : g.WF) {σf : SearchState} (hInv : Inv g s z σf)
    (hq : σf.queue.data = []) :
    ∀ v b, σf.bcAt v = some b →
      ∃ p, reconstructGo g σf.best_incoming s g.nodes.length v [] = some p ∧
        IsPath g s v p ∧ p ≠ [] ∧ b = z + g.cost p ∧
        ∀ e ∈ p, (g.edgeAt e).«from» ≠ (g.edgeAt e).«to» := by
  obtain ⟨ord, hnodup, hiff, hptr⟩ := hInv.ordex
  have main : ∀ fuel v b acc, σf.bcAt v = some b → ord.indexOf v < fuel →
      ∃ p, reconstructGo g σf.best_incoming s fuel v acc = some (p ++ acc) ∧ IsPath g s v p ∧
        p ≠ [] ∧ b = z + g.cost p ∧
        ∀ e ∈ p, (g.edgeAt e).«from» ≠ (g.edgeAt e).«to» := by
    intro fuel
    induction fuel with
    | zero =>
      intro v b acc _ hidx
      omega
    | succ f ih =>
      intro v b acc hb hidx
      have hvs : v ≠ s := (hInv.rec_path v b hb).2.1
      have hbisome : (σf.biAt v).isSome = true := by
        rw [← hInv.sync v, hb]
        rfl
      obtain ⟨e, he⟩ := Option.isSome_iff_exists.mp hbisome
      obtain ⟨heE, hto, hfne, hfcl, b', hb', hval⟩ := hInv.ptr v e he
      have hb'b : b' = b := by
        rw [hb] at hb'
        exact (Option.some.inj hb').symm
      rw [hb'b] at hval
      have he2 : σf.best_incoming.getD v none = some e := he
      have hstep : reconstructGo g σf.best_incoming s (f + 1) v acc =
          reconstructGo g σf.best_incoming s f ((g.edgeAt e).«from») (e :: acc) := by
        show (if v = s then some acc else
          match f + 1 with
          | 0 => none
          | f + 1 =>
            match σf.best_incoming.getD v none with
            | none => none
            | some e => reconstructGo g σf.best_incoming s f ((g.edgeAt e).«from») (e :: acc)) = _
        rw [if_neg hvs, he2]
      by_cases hus : (g.edgeAt e).«from» = s
      · have hend : reconstructGo g σf.best_incoming s f ((g.edgeAt e).«from») (e :: acc) =
            some (e :: acc) := by
          rw [hus]
          cases f with
          | zero =>
            show (if s = s then some (e :: acc) else none) = some (e :: acc)
            rw [if_pos rfl]
          | succ f2 =>
            show (if s = s then some (e :: acc) else _) = some (e :: acc)
            rw [if_pos rfl]
        refine ⟨[e], by rw [hstep, hend]; rfl, ?_, by simp, ?_, ?_⟩
        · refine IsPath.cons e s v [] heE hus ?_
          rw [hto]
          exact IsPath.nil v
        · have hz : some z = some (b - costOf g e) := by
            rw [← hval]
            unfold valAt
            rw [if_pos hus]
          have := Option.some.inj hz
          have hc : g.cost [e] = costOf g e := by simp [Graph.cost]
          rw [hc]
          linarith
        · intro e' he'
          rw [List.mem_singleton] at he'
          subst he'
          rw [hto]
          exact hfne
      · have hfs : σf.bcAt ((g.edgeAt e).«from») = some (b - costOf g e) := by
          have := hval
          unfold valAt at this
          rw [if_neg hus] at this
          exact this
        have hvmem : v ∈ ord := (hiff v).mp (final_recorded_closed hInv hq v b hb)
        have hidx2 := (hptr v e he).2 hvmem
        have hidx3 : ord.indexOf ((g.edgeAt e).«from») < f := by omega
        obtain ⟨p', hrec, hpath, hpne, hcost, hloop⟩ :=
          ih ((g.edgeAt e).«from») (b - costOf g e) (e :: acc) hfs hidx3
        refine ⟨p' ++ [e], ?_, ?_, by simp, ?_, ?_⟩
        · rw [hstep, hrec]
          congr 1
          rw [List.append_assoc]
          rfl
        · have hsnoc := hpath.snoc heE rfl
          rw [hto] at hsnoc
          exact hsnoc
        · rw [cost_append]
          have hc : g.cost [e] = costOf g e := by simp [Graph.cost]
          rw [hc]
          linarith
        · intro e' he'
          rw [List.mem_append] at he'
          rcases he' with he' | he'
          · exact hloop e' he'
          · rw [List.mem_singleton] at he'
            subst he'
            rw [hto]
            exact hfne
  intro v b hb
  have hvcl : σf.closedAt v = true := final_recorded_closed hInv hq v b hb
  have hvmem : v ∈ ord := (hiff v).mp hvcl
  have hsub : ord ⊆ List.range σf.is_closed.length := by
    intro x hx
    rw [List.mem_range]
    exact closedAt_lt ((hiff x).mpr hx)
  have hlen : ord.length ≤ g.nodes.length := by
    have := (List.subperm_of_subset hnodup hsub).length_le
    rw [List.length_range, hInv.len_cl] at this
    exact this
  have hidx : ord.indexOf v < g.nodes.length :=
    lt_of_lt_of_le (List.indexOf_lt_length.mpr hvmem) hlen
  obtain ⟨p, hrec, hpath, hpne, hcost, hloop⟩ := main g.nodes.length v b [] hb hidx
  refine ⟨p, ?_, hpath, hpne, hcost, hloop⟩
  rw [hrec, List.append_nil]

/-! ### Target selection -/

theorem ct_fold_mem (best_cost : List (Option CostType)) :
    ∀ (l : List NodeId) (acc : Option NodeId) (t : NodeId),
    l.foldl (fun best t =>
      match best with
      | none => some t
      | some b =>
        if (best_cost.getD t none).getD 0 < (best_cost.getD b none).getD 0 then some t
        else some b) acc = some t → acc = some t ∨ t ∈ l := by
  intro l
  induction l with
  | nil => exact fun acc t h => Or.inl h
  | cons y ys ih =>
    intro acc t h
    rw [List.foldl_cons] at h
    rcases ih _ t h with hstep | hmem
    · cases acc with
      | none =>
        simp only [Option.some.injEq] at hstep
        exact Or.inr (hstep ▸ List.mem_cons_self ..)
      | some b =>
        have hstep2 : (if (best_cost.getD y none).getD 0 < (best_cost.getD b none).getD 0
            then some y else some b) = some t := hstep
        by_cases hc : (best_cost.getD y none).getD 0 < (best_cost.getD b none).getD 0
        · rw [if_pos hc] at hstep2
          simp only [Option.some.injEq] at hstep2
          exact Or.inr (hstep2 ▸ List.mem_cons_self ..)
        · rw [if_neg hc] at hstep2
          exact Or.inl hstep2
    · exact Or.inr (List.mem_cons_of_mem y hmem)

theorem ct_fold_isSome (best_cost : List (Option CostType)) : ∀ (l : List NodeId) (b : NodeId),
    (l.foldl (fun best t =>
      match best with
      | none => some t
      | some b =>
        if (best_cost.getD t none).getD 0 < (best_cost.getD b none).getD 0 then some t
        else some b) (some b)).isSome = true := by
  intro l
  induction l with
  | nil => exact fun b => rfl
  | cons y ys ih =>
    intro b
    rw [List.foldl_cons]
    by_cases hc : (best_cost.getD y none).getD 0 < (best_cost.getD b none).getD 0
    · show (ys.foldl _ (if _ then some y else some b)).isSome = true
      rw [if_pos hc]
      exact ih y
    · show (ys.foldl _ (if _ then some y else some b)).isSome = true
      rw [if_neg hc]
      exact ih b

/-- The selection returns nothing exactly when no target has a recorded
best cost. -/
theorem cheapestTarget_none_iff (best_cost : List (Option CostType)) (targets : List NodeId) :
    cheapestTarget best_cost targets = none ↔
      ∀ t ∈ targets, best_cost.getD t none = none := by
  unfold cheapestTarget
  rcases hf : targets.filter (fun t => (best_cost.getD t none).isSome) with _ | ⟨y, ys⟩
  · simp only [List.foldl_nil, true_iff]
    intro t ht
    by_contra hcon
    have : t ∈ targets.filter (fun t => (best_cost.getD t none).isSome) := by
      rw [List.mem_filter]
      exact ⟨ht, by simpa [Option.isSome_iff_ne_none] using hcon⟩
    rw [hf] at this
    cases this
  · constructor
    · intro h
      rw [List.foldl_cons] at h
      have := ct_fold_isSome best_cost ys y
      rw [h] at this
      cases this
    · intro h
      have : y ∈ targets.filter (fun t => (best_cost.getD t none).isSome) := by
        rw [hf]
        exact List.mem_cons_self ..
      rw [List.mem_filter] at this
      rw [h y this.1] at this
      cases this.2

/-- A selected target is a target with a recorded best cost. -/
theorem cheapestTarget_some (best_cost : List (Option CostType)) (targets : List NodeId)
    {t : NodeId} (h : cheapestTarget best_cost targets = some t) :
    t ∈ targets ∧ (best_cost.getD t none).isSome = true := by
  unfold cheapestTarget at h
  rcases ct_fold_mem best_cost _ none t h with h2 | h2
  · cases h2
  · rw [List.mem_filter] at h2
    exact h2

theorem cheapestTarget_singleton {best_cost : List (Option CostType)} {t : NodeId}
    (h : (best_cost.getD t none).isSome = true) :
    cheapestTarget best_cost [t] = some t := by
  unfold cheapestTarget
  rw [show List.filter (fun t => (best_cost.getD t none).isSome) [t] = [t] by
    rw [List.filter_cons, if_pos (by simpa using h)]
    rfl]
  rfl

/-! ### Iterated steps -/

theorem runSteps_inv (hw : g.WF) (hn : NonnegCosts g) (hs : s < g.nodes.length) :
    ∀ (j : Nat) (σ σ2 : SearchState), Inv g s z σ → runSteps g j σ = some σ2 →
      Inv g s z σ2 := by
  intro j
  induction j with
  | zero =>
    intro σ σ2 hInv h
    cases h
    exact hInv
  | succ j2 ih =>
    intro σ σ2 hInv h
    unfold runSteps at h
    rcases hstep : bestPathStep g σ with _ | σ3
    · rw [hstep] at h
      cases h
    · rw [hstep] at h
      exact ih σ3 σ2 (step_preserves hw hn hs hInv hstep).1 h

/-- Once closed, a node's recorded tables are frozen by any further step, and
it stays closed. -/
theorem step_closed_frame (hw : g.WF) (hn : NonnegCosts g) (hs : s < g.nodes.length)
    {σ σ2 : SearchState} (hInv : Inv g s z σ) (hstep : bestPathStep g σ = some σ2)
    {v : NodeId} (hv : σ.closedAt v = true) :
    σ2.bcAt v = σ.bcAt v ∧ σ2.biAt v = σ.biAt v ∧ σ2.closedAt v = true := by
  obtain ⟨u, kq, rest, hpop, hσ2⟩ := bestPathStep_some hstep
  by_cases hcl : σ.closedAt u = true
  · have hnoop := stale_pop_noop hw hn hInv hpop hcl
    rw [hstep] at hnoop
    have hσ2' : σ2 = { σ with queue := ⟨rest⟩ } := by injection hnoop
    rw [hσ2']
    exact ⟨rfl, rfl, hv⟩
  · have hcl' : σ.closedAt u = false := by simpa using hcl
    have hmemq : (u, kq) ∈ σ.queue.data := by
      rw [hpop]
      exact List.mem_cons_self ..
    have hun : u < g.nodes.length := by
      by_cases hus : u = s
      · rw [hus]
        exact hs
      · rcases hInv.qent (u, kq) hmemq with ⟨h1, _⟩ | ⟨_, ⟨bu, hbu, _⟩, _⟩
        · exact absurd h1 hus
        · exact (hInv.rec_path u bu hbu).1
    have hucl : u < σ.is_closed.length := by
      rw [hInv.len_cl]
      exact hun
    have hvu : v ≠ u := by
      intro h
      rw [h, hcl'] at hv
      cases hv
    have hlbc : ∀ e ∈ (g.nodeAt u).outgoing, (g.edgeAt e).«to» < ({ σ with queue := ⟨rest⟩, is_closed := σ.is_closed.set u true } : SearchState).best_cost.length := by
      intro e he
      show (g.edgeAt e).«to» < σ.best_cost.length
      rw [hInv.len_bc]
      exact WF.to_lt hw ((WF.mem_outgoing hw hun).mp he).1
    have hlbi : ∀ e ∈ (g.nodeAt u).outgoing, (g.edgeAt e).«to» < ({ σ with queue := ⟨rest⟩, is_closed := σ.is_closed.set u true } : SearchState).best_incoming.length := by
      intro e he
      show (g.edgeAt e).«to» < σ.best_incoming.length
      rw [hInv.len_bi]
      exact WF.to_lt hw ((WF.mem_outgoing hw hun).mp he).1
    have hcl1v : ({ σ with queue := ⟨rest⟩, is_closed := σ.is_closed.set u true } : SearchState).closedAt v = true := by
      show (σ.is_closed.set u true).getD v false = true
      rw [getD_set_ne (fun h => hvu h.symm)]
      exact hv
    rcases foldRelax_tables (g := g) (u := u) (k := kq) ((g.nodeAt u).outgoing) _ v hlbc hlbi
      with ⟨h1, h2⟩ | ⟨h1, _⟩
    · refine ⟨?_, ?_, ?_⟩
      · rw [hσ2]
        exact h1
      · rw [hσ2]
        exact h2
      · rw [hσ2, foldRelax_closedAt]
        exact hcl1v
    · rw [hcl1v] at h1
      cases h1

theorem runSteps_closed_frame (hw : g.WF) (hn : NonnegCosts g) (hs : s < g.nodes.length) :
    ∀ (j : Nat) (σ σ2 : SearchState), Inv g s z σ → runSteps g j σ = some σ2 →
      ∀ v, σ.closedAt v = true →
      σ2.bcAt v = σ.bcAt v ∧ σ2.biAt v = σ.biAt v ∧ σ2.closedAt v = true := by
  intro j
  induction j with
  | zero =>
    intro σ σ2 hInv h v hv
    cases h
    exact ⟨rfl, rfl, hv⟩
  | succ j2 ih =>
    intro σ σ2 hInv h v hv
    unfold runSteps at h
    rcases hstep : bestPathStep g σ with _ | σ3
    · rw [hstep] at h
      cases h
    · rw [hstep] at h
      obtain ⟨h1, h2, h3⟩ := step_closed_frame hw hn hs hInv hstep hv
      obtain ⟨h4, h5, h6⟩ := ih σ3 σ2 (step_preserves hw hn hs hInv hstep).1 h v h3
      exact ⟨h4.trans h1, h5.trans h2, h6⟩

/-! ### The complete run of `best_path`'s search loop -/

theorem best_path_run (hw : g.WF) (hn : NonnegCosts g) (hs : s < g.nodes.length) :
    ∃ σf, searchGo g (g.edges.length + 1) (initState g s) = some σf ∧
      Inv g s (Cost.zero_cost (P := EdgeProps)) σf ∧ σf.queue.data = [] :=
  searchGo_completes hw hn hs (g.edges.length + 1) (initState g s) (inv_init g s) phi_init

/-! ### Queue filtering and the single-target engine's primitives -/

theorem insertSorted_cons_of_gt {y : Nat × CostType} {l : List (Nat × CostType)}
    (h : ∀ w ∈ l, ¬(w.2 ≤ y.2)) : insertSorted y l = y :: l := by
  cases l with
  | nil => rfl
  | cons w ws =>
    show (if w.2 ≤ y.2 then w :: insertSorted y ws else y :: w :: ws) = _
    rw [if_neg (h w (List.mem_cons_self ..))]

theorem filter_insertSorted_neg {p : Nat × CostType → Bool} {y : Nat × CostType}
    {l : List (Nat × CostType)} (hy : ¬p y = true) :
    (insertSorted y l).filter p = l.filter p := by
  induction l with
  | nil =>
    show List.filter p [y] = List.filter p []
    rw [List.filter_cons, if_neg hy]
  | cons z zs ih =>
    by_cases h : z.2 ≤ y.2
    · have hz : insertSorted y (z :: zs) = z :: insertSorted y zs := by
        show (if z.2 ≤ y.2 then z :: insertSorted y zs else y :: z :: zs) = _
        rw [if_pos h]
      rw [hz, List.filter_cons, ih, ← List.filter_cons]
    · have hz : insertSorted y (z :: zs) = y :: z :: zs := by
        show (if z.2 ≤ y.2 then z :: insertSorted y zs else y :: z :: zs) = _
        rw [if_neg h]
      rw [hz, List.filter_cons, if_neg hy]

theorem filter_insertSorted_pos {p : Nat × CostType → Bool} {y : Nat × CostType}
    {l : List (Nat × CostType)} (hl : sortedKeys l) (hy : p y = true) :
    (insertSorted y l).filter p = insertSorted y (l.filter p) := by
  induction l with
  | nil =>
    show List.filter p [y] = insertSorted y (List.filter p [])
    rw [List.filter_cons, if_pos hy]
    rfl
  | cons z zs ih =>
    have hzs : sortedKeys zs := (List.pairwise_cons.mp hl).2
    by_cases h : z.2 ≤ y.2
    · have hz : insertSorted y (z :: zs) = z :: insertSorted y zs := by
        show (if z.2 ≤ y.2 then z :: insertSorted y zs else y :: z :: zs) = _
        rw [if_pos h]
      rw [hz, List.filter_cons, List.filter_cons]
      by_cases hpz : p z = true
      · rw [if_pos hpz, if_pos hpz, ih hzs]
        have hz2 : insertSorted y (z :: zs.filter p) = z :: insertSorted y (zs.filter p) := by
          show (if z.2 ≤ y.2 then z :: insertSorted y (zs.filter p)
            else y :: z :: zs.filter p) = _
          rw [if_pos h]
        rw [hz2]
      · rw [if_neg hpz, if_neg hpz, ih hzs]
    · have hz : insertSorted y (z :: zs) = y :: z :: zs := by
        show (if z.2 ≤ y.2 then z :: insertSorted y zs else y :: z :: zs) = _
        rw [if_neg h]
      rw [hz, List.filter_cons, if_pos hy]
      symm
      apply insertSorted_cons_of_gt
      intro w hw
      rcases List.mem_cons.mp (List.mem_filter.mp hw).1 with rfl | hw3
      · exact h
      · have hle := (List.pairwise_cons.mp hl).1 w hw3
        intro hc
        exact h (le_trans hle hc)

theorem cheapGo_of_empty {τ : CheapState} (h : τ.queue.data = []) :
    ∀ fuel, cheapGo g fuel τ = some τ := by
  have hq : τ.queue = ⟨[]⟩ := by
    have h0 : τ.queue = ⟨τ.queue.data⟩ := rfl
    rw [h] at h0
    exact h0
  intro fuel
  cases fuel with
  | zero =>
    unfold cheapGo Heap.is_empty
    rw [List.isEmpty_iff.mpr h]
    rfl
  | succ f =>
    show (match cheapStep g τ with
      | none => some τ
      | some τ2 => cheapGo g f τ2) = some τ
    have hstep : cheapStep g τ = none := by
      show (match τ.queue.extract_min with
        | none => none
        | some ((f, from_cost), q) =>
          some (((g.nodeAt f).outgoing).foldl (cheapRelax g f from_cost)
            { τ with queue := q })) = none
      rw [hq]
      rfl
    rw [hstep]

theorem cheapStep_cons {τ : CheapState} {u : NodeId} {k : CostType}
    {rest : List (Nat × CostType)} (h : τ.queue.data = (u, k) :: rest) :
    cheapStep g τ = some (((g.nodeAt u).outgoing).foldl (cheapRelax g u k)
      { τ with queue := ⟨rest⟩ }) := by
  have hq : τ.queue = ⟨(u, k) :: rest⟩ := by
    have h0 : τ.queue = ⟨τ.queue.data⟩ := rfl
    rw [h] at h0
    exact h0
  show (match τ.queue.extract_min with
    | none => none
    | some ((f, from_cost), q) =>
      some (((g.nodeAt f).outgoing).foldl (cheapRelax g f from_cost)
        { τ with queue := q })) = _
  rw [hq]
  rfl

theorem bestPathStep_cons {σ : SearchState} {u : NodeId} {k : CostType}
    {rest : List (Nat × CostType)} (h : σ.queue.data = (u, k) :: rest) :
    bestPathStep g σ = some (((g.nodeAt u).outgoing).foldl (relaxEdge g u k)
      { σ with queue := ⟨rest⟩, is_closed := σ.is_closed.set u true }) := by
  have hq : σ.queue = ⟨(u, k) :: rest⟩ := by
    have h0 : σ.queue = ⟨σ.queue.data⟩ := rfl
    rw [h] at h0
    exact h0
  show (match σ.queue.extract_min with
    | none => none
    | some ((f, from_cost), q) =>
      some (((g.nodeAt f).outgoing).foldl (relaxEdge g f from_cost)
        { σ with queue := q, is_closed := σ.is_closed.set f true })) = _
  rw [hq]
  rfl

theorem cheapRelax_skip {f2 : NodeId} {k : CostType} {τ : CheapState} {e : EdgeId}
    {ec : EdgeId} {c : CostType}
    (h : τ.recAt ((g.edgeAt e).«to») = some (ec, c)) (hle : c ≤ k + costOf g e) :
    cheapRelax g f2 k τ e = τ := by
  have h2 : τ.best_incoming.getD ((g.edgeAt e).«to») none = some (ec, c) := h
  simp only [cheapRelax]
  rw [h2]
  exact if_pos hle

theorem cheapRelax_upd_none {f2 : NodeId} {k : CostType} {τ : CheapState} {e : EdgeId}
    (h : τ.recAt ((g.edgeAt e).«to») = none) :
    cheapRelax g f2 k τ e = cheapUpd g k τ e := by
  have h2 : τ.best_incoming.getD ((g.edgeAt e).«to») none = none := h
  simp only [cheapRelax]
  rw [h2]
  rfl

theorem cheapRelax_upd_some {f2 : NodeId} {k : CostType} {τ : CheapState} {e : EdgeId}
    {ec : EdgeId} {c : CostType}
    (h : τ.recAt ((g.edgeAt e).«to») = some (ec, c)) (hlt : ¬c ≤ k + costOf g e) :
    cheapRelax g f2 k τ e = cheapUpd g k τ e := by
  have h2 : τ.best_incoming.getD ((g.edgeAt e).«to») none = some (ec, c) := h
  simp only [cheapRelax]
  rw [h2]
  exact if_neg hlt

/-- Full case analysis of one `cheapest_path` relaxation. -/
theorem cheapRelax_char (f2 : NodeId) (k : CostType) (τ : CheapState) (e : EdgeId) :
    (cheapRelax g f2 k τ e = τ ∧
      ∃ ec c, τ.recAt ((g.edgeAt e).«to») = some (ec, c) ∧ c ≤ k + costOf g e) ∨
    ((τ.recAt ((g.edgeAt e).«to») = none ∨
        ∃ ec c, τ.recAt ((g.edgeAt e).«to») = some (ec, c) ∧ k + costOf g e < c) ∧
      cheapRelax g f2 k τ e = cheapUpd g k τ e) := by
  cases hrec : τ.recAt ((g.edgeAt e).«to») with
  | none => exact Or.inr ⟨Or.inl rfl, cheapRelax_upd_none hrec⟩
  | some w =>
    obtain ⟨ec, c⟩ := w
    by_cases hle : c ≤ k + costOf g e
    · exact Or.inl ⟨cheapRelax_skip hrec hle, ec, c, rfl, hle⟩
    · exact Or.inr ⟨Or.inr ⟨ec, c, rfl, lt_of_not_le hle⟩, cheapRelax_upd_some hrec hle⟩

theorem recAt_cheapUpd_self {k : CostType} {τ : CheapState} {e : EdgeId}
    (h : (g.edgeAt e).«to» < τ.best_incoming.length) :
    (cheapUpd g k τ e).recAt ((g.edgeAt e).«to») = some (e, k + costOf g e) :=
  getD_set_self h

theorem recAt_cheapUpd_ne {k : CostType} {τ : CheapState} {e : EdgeId} {v : NodeId}
    (h : (g.edgeAt e).«to» ≠ v) : (cheapUpd g k τ e).recAt v = τ.recAt v :=
  getD_set_ne h

theorem cheapRelax_len_bi {f2 : NodeId} {k : CostType} {τ : CheapState} {e : EdgeId} :
    (cheapRelax g f2 k τ e).best_incoming.length = τ.best_incoming.length := by
  rcases cheapRelax_char (g := g) f2 k τ e with ⟨h, _⟩ | ⟨_, h⟩ <;> rw [h] <;>
    simp [cheapUpd]

theorem cheapFold_len_bi {u : NodeId} {k : CostType} (es : List EdgeId) (τ : CheapState) :
    (es.foldl (cheapRelax g u k) τ).best_incoming.length = τ.best_incoming.length := by
  induction es generalizing τ with
  | nil => rfl
  | cons e rest ih => rw [List.foldl_cons, ih, cheapRelax_len_bi]

theorem cheapFold_queue_len {u : NodeId} {k : CostType} (es : List EdgeId) (τ : CheapState) :
    (es.foldl (cheapRelax g u k) τ).queue.data.length ≤ τ.queue.data.length + es.length := by
  induction es generalizing τ with
  | nil => simp
  | cons e rest ih =>
    rw [List.foldl_cons]
    refine le_trans (ih (cheapRelax g u k τ e)) ?_
    rcases cheapRelax_char (g := g) u k τ e with ⟨h, _⟩ | ⟨_, h⟩ <;> rw [h]
    · simp only [List.length_cons]
      omega
    · show (insertSorted _ τ.queue.data).length + rest.length ≤ _
      rw [length_insertSorted]
      simp only [List.length_cons]
      omega

/-! ### The lockstep simulation: no-op pops -/

theorem map_snd_some {w : Option (EdgeId × CostType)} {b : CostType}
    (h : w.map Prod.snd = some b) : ∃ ec, w = some (ec, b) := by
  cases w with
  | none => cases h
  | some x =>
    have hb : x.2 = b := Option.some.inj h
    exact ⟨x.1, by rw [← hb]⟩

theorem valAt_ne (σ : SearchState) {v : NodeId} (h : v ≠ s) :
    valAt s z σ v = σ.bcAt v := by
  unfold valAt
  rw [if_neg h]

theorem valAt_self (σ : SearchState) : valAt s z σ s = some z := by
  unfold valAt
  rw [if_pos rfl]

/-- Popping one of the extra source entries of `cheapest_path`'s queue
relaxes nothing: every outgoing edge of the source is skipped. -/
theorem cheap_stutter (hw : g.WF) (hn : NonnegCosts g) (hs : s < g.nodes.length)
    {σ : SearchState} {τ : CheapState} (R : RelPost g s σ τ)
    {b : CostType} {T : List (Nat × CostType)} (hq : τ.queue.data = (s, b) :: T) :
    cheapStep g τ = some { τ with queue := ⟨T⟩ } ∧
      RelPost g s σ { τ with queue := ⟨T⟩ } := by
  have hmem : (s, b) ∈ τ.queue.data := by
    rw [hq]
    exact List.mem_cons_self ..
  have hb0 : 0 ≤ b := R.qpos (s, b) hmem
  obtain ⟨ec, c, hrec, hcb⟩ := R.sq b hmem
  have hfold : ((g.nodeAt s).outgoing).foldl (cheapRelax g s b)
      { τ with queue := ⟨T⟩ } = { τ with queue := ⟨T⟩ } := by
    apply foldl_id
    intro e he
    obtain ⟨heE, _⟩ := (WF.mem_outgoing hw hs).mp he
    have hce : 0 ≤ costOf g e := hn e heE
    by_cases ht : (g.edgeAt e).«to» = s
    · have hrec2 : ({ τ with queue := ⟨T⟩ } : CheapState).recAt ((g.edgeAt e).«to») =
          some (ec, c) := by
        show τ.recAt ((g.edgeAt e).«to») = some (ec, c)
        rw [ht]
        exact hrec
      exact cheapRelax_skip hrec2 (by linarith)
    · obtain ⟨bv, hbval, hble⟩ :=
        R.inv.frontier s 0 R.scl (valAt_self σ) e he (fun h2 => ht h2)
      rw [valAt_ne σ ht] at hbval
      have htb := R.tb2 ((g.edgeAt e).«to») ht
      rw [hbval] at htb
      obtain ⟨ec2, hrec2⟩ := map_snd_some htb
      exact cheapRelax_skip (show ({ τ with queue := ⟨T⟩ } : CheapState).recAt
        ((g.edgeAt e).«to») = some (ec2, bv) from hrec2) (by linarith)
  refine ⟨?_, ?_⟩
  · rw [cheapStep_cons hq, hfold]
  · have hfT : T.filter (fun x => x.1 != s) = σ.queue.data := by
      have h0 := R.qeq
      rw [hq, List.filter_cons] at h0
      rw [if_neg (by simp)] at h0
      exact h0
    refine ⟨R.inv, R.scl, R.tb1, R.tb2, hfT, ?_, ?_, ?_, R.sfr, R.lrec⟩
    · have h0 := R.qsrt
      rw [hq] at h0
      exact sortedKeys_tail h0
    · intro x hx
      refine R.qpos x ?_
      rw [hq]
      exact List.mem_cons_of_mem _ hx
    · intro k2 hk2
      refine R.sq k2 ?_
      rw [hq]
      exact List.mem_cons_of_mem _ hk2

/-- A lockstep pop of an entry whose node is closed on the `best_path` side:
both engines discard it without any update. -/
theorem stale_lockstep (hw : g.WF) (hn : NonnegCosts g) (hs : s < g.nodes.length)
    {σ : SearchState} {τ : CheapState} (R : RelPost g s σ τ)
    {u : NodeId} {k : CostType} {T : List (Nat × CostType)}
    (hq : τ.queue.data = (u, k) :: T) (hus : u ≠ s) (hcl : σ.closedAt u = true) :
    bestPathStep g σ = some { σ with queue := ⟨T.filter (fun x => x.1 != s)⟩ } ∧
    cheapStep g τ = some { τ with queue := ⟨T⟩ } ∧
    RelPost g s { σ with queue := ⟨T.filter (fun x => x.1 != s)⟩ }
      { τ with queue := ⟨T⟩ } := by
  have hσq : σ.queue.data = (u, k) :: T.filter (fun x => x.1 != s) := by
    have h0 := R.qeq
    rw [hq, List.filter_cons] at h0
    rw [if_pos (by simpa using hus)] at h0
    exact h0.symm
  have hmemσ : (u, k) ∈ σ.queue.data := by
    rw [hσq]
    exact List.mem_cons_self ..
  have hbu : ∃ bu, σ.bcAt u = some bu := by
    rcases R.inv.qent (u, k) hmemσ with ⟨h1, _⟩ | ⟨_, ⟨bu, hbu, _⟩, _⟩
    · exact absurd h1 hus
    · exact ⟨bu, hbu⟩
  obtain ⟨bu, hbu⟩ := hbu
  have hun : u < g.nodes.length := (R.inv.rec_path u bu hbu).1
  have hval : valAt s 0 σ u = some bu := by
    rw [valAt_ne σ hus]
    exact hbu
  have hbuk : bu ≤ k := R.inv.closed_le u bu hcl hval (u, k) hmemσ
  have hfold : ((g.nodeAt u).outgoing).foldl (cheapRelax g u k)
      { τ with queue := ⟨T⟩ } = { τ with queue := ⟨T⟩ } := by
    apply foldl_id
    intro e he
    obtain ⟨heE, _⟩ := (WF.mem_outgoing hw hun).mp he
    have hce : 0 ≤ costOf g e := hn e heE
    by_cases hts : (g.edgeAt e).«to» = s
    · obtain ⟨ec, c, hrec, hcle⟩ := R.sfr u bu hcl hval e he hts
      have hrec2 : ({ τ with queue := ⟨T⟩ } : CheapState).recAt
          ((g.edgeAt e).«to») = some (ec, c) := by
        show τ.recAt ((g.edgeAt e).«to») = some (ec, c)
        rw [hts]
        exact hrec
      exact cheapRelax_skip hrec2 (by linarith)
    · by_cases htu : (g.edgeAt e).«to» = u
      · have htb := R.tb2 ((g.edgeAt e).«to») hts
        have hbu2 : σ.bcAt ((g.edgeAt e).«to») = some bu := by
          rw [htu]
          exact hbu
        rw [hbu2] at htb
        obtain ⟨ec2, hrec2⟩ := map_snd_some htb
        exact cheapRelax_skip (show ({ τ with queue := ⟨T⟩ } : CheapState).recAt
          ((g.edgeAt e).«to») = some (ec2, bu) from hrec2) (by linarith)
      · obtain ⟨bv, hbval, hble⟩ := R.inv.frontier u bu hcl hval e he htu
        rw [valAt_ne σ hts] at hbval
        have htb := R.tb2 ((g.edgeAt e).«to») hts
        rw [hbval] at htb
        obtain ⟨ec2, hrec2⟩ := map_snd_some htb
        exact cheapRelax_skip (show ({ τ with queue := ⟨T⟩ } : CheapState).recAt
          ((g.edgeAt e).«to») = some (ec2, bv) from hrec2) (by linarith)
  refine ⟨?_, ?_, ?_⟩
  · exact stale_pop_noop hw hn R.inv hσq hcl
  · rw [cheapStep_cons hq, hfold]
  · refine ⟨Inv.stale_preserved R.inv hσq hcl, R.scl, R.tb1, R.tb2, rfl, ?_, ?_, ?_, R.sfr,
      R.lrec⟩
    · have h0 := R.qsrt
      rw [hq] at h0
      exact sortedKeys_tail h0
    · intro x hx
      refine R.qpos x ?_
      rw [hq]
      exact List.mem_cons_of_mem _ hx
    · intro k2 hk2
      refine R.sq k2 ?_
      rw [hq]
      exact List.mem_cons_of_mem _ hk2

/-- One paired relaxation step of the two engines during a lockstep pop of
`(u, k)`: the `MidRel` invariant is preserved, a relaxed edge into the source
leaves a record at the source bounded by `k` plus its cost, and the record at
the source only improves. -/
theorem pair_step (hw : g.WF) (hn : NonnegCosts g)
    {σ : SearchState} (hinv : Inv g s 0 σ) {u : NodeId} {k : CostType}
    (hk0 : 0 ≤ k) (hmemσ : (u, k) ∈ σ.queue.data)
    {σ1 : SearchState} (hbc1 : σ1.best_cost = σ.best_cost)
    (hbi1 : σ1.best_incoming = σ.best_incoming)
    (hscl1 : σ1.closedAt s = true) (hucl1 : σ1.closedAt u = true)
    (hclne : ∀ v, v ≠ u → σ1.closedAt v = σ.closedAt v)
    (hku : σ.bcAt u = some k ∨ (u = s ∧ k = 0))
    {e : EdgeId} (heE : e < g.edges.length)
    {σ2 : SearchState} {τ2 : CheapState} (M : MidRel g s σ1 σ2 τ2) :
    MidRel g s σ1 (relaxEdge g u k σ2 e) (cheapRelax g u k τ2 e) ∧
    ((g.edgeAt e).«to» = s → ∃ ec c, (cheapRelax g u k τ2 e).recAt s = some (ec, c) ∧
      c ≤ k + costOf g e) ∧
    (∀ ec c, τ2.recAt s = some (ec, c) →
      ∃ ec2 c2, (cheapRelax g u k τ2 e).recAt s = some (ec2, c2) ∧ c2 ≤ c) := by
  have hce : 0 ≤ costOf g e := hn e heE
  have htn : (g.edgeAt e).«to» < g.nodes.length := WF.to_lt hw heE
  have hcl2 : ∀ v, σ2.closedAt v = σ1.closedAt v := by
    intro v
    unfold SearchState.closedAt
    rw [M.cls]
  have hlbc2 : σ2.best_cost.length = g.nodes.length := by
    rw [M.lbc, hbc1, hinv.len_bc]
  have hlbi2 : σ2.best_incoming.length = g.nodes.length := by
    rw [M.lbi, hbi1, hinv.len_bi]
  have hlcbi2 : τ2.best_incoming.length = g.nodes.length := by
    rw [M.lcbi, hbi1, hinv.len_bi]
  by_cases hts : (g.edgeAt e).«to» = s
  · have hσe : relaxEdge g u k σ2 e = σ2 := by
      by_cases hus : u = s
      · exact relaxEdge_skip (Or.inl (by rw [hts, hus]))
      · refine relaxEdge_skip (Or.inr ?_)
        rw [hcl2, hts]
        exact hscl1
    rcases cheapRelax_char (g := g) u k τ2 e with ⟨hτe, ec, c, hrec, hle⟩ | ⟨hcond, hτe⟩
    · rw [hσe, hτe]
      refine ⟨M, ?_, ?_⟩
      · intro _
        refine ⟨ec, c, ?_, hle⟩
        rw [← hts]
        exact hrec
      · exact fun ec2 c2 h => ⟨ec2, c2, h, le_refl c2⟩
    · have hlen : (g.edgeAt e).«to» < τ2.best_incoming.length := by
        rw [hlcbi2]
        exact htn
      have hrecself : (cheapUpd g k τ2 e).recAt ((g.edgeAt e).«to») =
          some (e, k + costOf g e) := recAt_cheapUpd_self hlen
      have hrecs : (cheapUpd g k τ2 e).recAt s = some (e, k + costOf g e) := by
        rw [← hts]
        exact hrecself
      rw [hσe, hτe]
      refine ⟨?_, ?_, ?_⟩
      · refine ⟨?_, ?_, ?_, ?_, ?_, ?_, M.cls, M.froz, M.lbc, M.lbi, ?_⟩
        · intro v hv
          rw [recAt_cheapUpd_ne (by rw [hts]; exact fun h2 => hv h2.symm)]
          exact M.tb1 v hv
        · intro v hv
          rw [recAt_cheapUpd_ne (by rw [hts]; exact fun h2 => hv h2.symm)]
          exact M.tb2 v hv
        · show (insertSorted ((g.edgeAt e).«to», k + costOf g e) τ2.queue.data).filter
            (fun x => x.1 != s) = σ2.queue.data
          rw [filter_insertSorted_neg (by rw [hts]; simp), M.qeq]
        · show sortedKeys (insertSorted ((g.edgeAt e).«to», k + costOf g e) τ2.queue.data)
          exact sortedKeys_insertSorted M.qsrt
        · intro x hx
          have hx2 : x ∈ insertSorted ((g.edgeAt e).«to», k + costOf g e) τ2.queue.data := hx
          rcases mem_insertSorted.mp hx2 with rfl | hx3
          · show 0 ≤ k + costOf g e
            linarith
          · exact M.qpos x hx3
        · intro k2 hk2
          refine ⟨e, k + costOf g e, hrecs, ?_⟩
          have hk2b : (s, k2) ∈ insertSorted ((g.edgeAt e).«to», k + costOf g e)
            τ2.queue.data := hk2
          rcases mem_insertSorted.mp hk2b with heq2 | hk3
          · have hk2e : k2 = k + costOf g e := congrArg Prod.snd heq2
            rw [hk2e]
          · obtain ⟨ec0, c0, hrec0, hc0⟩ := M.sq k2 hk3
            rcases hcond with hnone | ⟨ecx, cx, hrecx, hlt⟩
            · rw [hts] at hnone
              rw [hnone] at hrec0
              cases hrec0
            · rw [hts] at hrecx
              have h3 := hrecx.symm.trans hrec0
              have hcx : cx = c0 := congrArg Prod.snd (Option.some.inj h3)
              linarith
        · show (τ2.best_incoming.set ((g.edgeAt e).«to») (some (e, k + costOf g e))).length =
            σ1.best_incoming.length
          rw [List.length_set]
          exact M.lcbi
      · intro _
        exact ⟨e, k + costOf g e, hrecs, le_refl _⟩
      · intro ec2 c2 h
        refine ⟨e, k + costOf g e, hrecs, ?_⟩
        rcases hcond with hnone | ⟨ecx, cx, hrecx, hlt⟩
        · rw [hts] at hnone
          rw [hnone] at h
          cases h
        · rw [hts] at hrecx
          have h3 := hrecx.symm.trans h
          have hcx : cx = c2 := congrArg Prod.snd (Option.some.inj h3)
          linarith
  · have hmapt := M.tb2 ((g.edgeAt e).«to») hts
    by_cases htu : (g.edgeAt e).«to» = u
    · have hus : u ≠ s := by
        rw [← htu]
        exact hts
      have hσe : relaxEdge g u k σ2 e = σ2 := relaxEdge_skip (Or.inl htu)
      have hbcu : σ.bcAt u = some k := by
        rcases hku with h | ⟨h1, _⟩
        · exact h
        · exact absurd h1 hus
      have hbct : σ2.bcAt ((g.edgeAt e).«to») = some k := by
        rw [M.froz ((g.edgeAt e).«to») (by rw [htu]; exact hucl1)]
        show σ1.best_cost.getD ((g.edgeAt e).«to») none = some k
        rw [hbc1, htu]
        exact hbcu
      rw [hbct] at hmapt
      obtain ⟨ec2, hrec2⟩ := map_snd_some hmapt
      have hτe : cheapRelax g u k τ2 e = τ2 := cheapRelax_skip hrec2 (by linarith)
      rw [hσe, hτe]
      exact ⟨M, fun h => absurd h hts, fun ec c h => ⟨ec, c, h, le_refl c⟩⟩
    · by_cases htcl : σ.closedAt ((g.edgeAt e).«to») = true
      · have hcl1t : σ1.closedAt ((g.edgeAt e).«to») = true := by
          rw [hclne _ htu]
          exact htcl
        have hσe : relaxEdge g u k σ2 e = σ2 := by
          refine relaxEdge_skip (Or.inr ?_)
          rw [hcl2]
          exact hcl1t
        obtain ⟨bt, hbt⟩ := Option.isSome_iff_exists.mp (hinv.closed_rec _ htcl hts)
        have hbtk : bt ≤ k :=
          hinv.closed_le _ bt htcl (by rw [valAt_ne σ hts]; exact hbt) (u, k) hmemσ
        have hbct2 : σ2.bcAt ((g.edgeAt e).«to») = some bt := by
          rw [M.froz _ hcl1t]
          show σ1.best_cost.getD ((g.edgeAt e).«to») none = some bt
          rw [hbc1]
          exact hbt
        rw [hbct2] at hmapt
        obtain ⟨ec2, hrec2⟩ := map_snd_some hmapt
        have hτe : cheapRelax g u k τ2 e = τ2 := cheapRelax_skip hrec2 (by linarith)
        rw [hσe, hτe]
        exact ⟨M, fun h => absurd h hts, fun ec c h => ⟨ec, c, h, le_refl c⟩⟩
      · have hcl1t : σ1.closedAt ((g.edgeAt e).«to») = false := by
          rw [hclne _ htu]
          simpa using htcl
        have hopen2 : σ2.closedAt ((g.edgeAt e).«to») = false := by
          rw [hcl2]
          exact hcl1t
        have hnotskip : ¬((g.edgeAt e).«to» = u ∨
            σ2.closedAt ((g.edgeAt e).«to») = true) := by
          intro hcon
          rcases hcon with h | h
          · exact htu h
          · rw [hopen2] at h
            cases h
        have hupdM : MidRel g s σ1 (relaxUpd g k σ2 e) (cheapUpd g k τ2 e) := by
          refine ⟨?_, ?_, ?_, ?_, ?_, ?_, ?_, ?_, ?_, ?_, ?_⟩
          · intro v hv
            by_cases hvt : (g.edgeAt e).«to» = v
            · rw [← hvt, recAt_cheapUpd_self (by rw [hlcbi2]; exact htn),
                biAt_relaxUpd_self (by rw [hlbi2]; exact htn)]
              rfl
            · rw [recAt_cheapUpd_ne hvt, biAt_relaxUpd_ne hvt]
              exact M.tb1 v hv
          · intro v hv
            by_cases hvt : (g.edgeAt e).«to» = v
            · rw [← hvt, recAt_cheapUpd_self (by rw [hlcbi2]; exact htn),
                bcAt_relaxUpd_self (by rw [hlbc2]; exact htn)]
              rfl
            · rw [recAt_cheapUpd_ne hvt, bcAt_relaxUpd_ne hvt]
              exact M.tb2 v hv
          · show (insertSorted ((g.edgeAt e).«to», k + costOf g e) τ2.queue.data).filter
              (fun x => x.1 != s) =
              insertSorted ((g.edgeAt e).«to», k + costOf g e) σ2.queue.data
            rw [filter_insertSorted_pos M.qsrt (by simpa using hts), M.qeq]
          · show sortedKeys (insertSorted ((g.edgeAt e).«to», k + costOf g e) τ2.queue.data)
            exact sortedKeys_insertSorted M.qsrt
          · intro x hx
            have hx2 : x ∈ insertSorted ((g.edgeAt e).«to», k + costOf g e)
              τ2.queue.data := hx
            rcases mem_insertSorted.mp hx2 with rfl | hx3
            · show 0 ≤ k + costOf g e
              linarith
            · exact M.qpos x hx3
          · intro k2 hk2
            have hk2b : (s, k2) ∈ insertSorted ((g.edgeAt e).«to», k + costOf g e)
              τ2.queue.data := hk2
            rcases mem_insertSorted.mp hk2b with heq2 | hk3
            · exact absurd (congrArg Prod.fst heq2).symm hts
            · obtain ⟨ec0, c0, h0, hc0⟩ := M.sq k2 hk3
              exact ⟨ec0, c0, by rw [recAt_cheapUpd_ne hts]; exact h0, hc0⟩
          · show σ2.is_closed = σ1.is_closed
            exact M.cls
          · intro v hv
            have hvt : (g.edgeAt e).«to» ≠ v := by
              intro h2
              rw [h2, hv] at hcl1t
              cases hcl1t
            rw [bcAt_relaxUpd_ne hvt]
            exact M.froz v hv
          · show (σ2.best_cost.set ((g.edgeAt e).«to») (some (k + costOf g e))).length =
              σ1.best_cost.length
            rw [List.length_set]
            exact M.lbc
          · show (σ2.best_incoming.set ((g.edgeAt e).«to») (some e)).length =
              σ1.best_incoming.length
            rw [List.length_set]
            exact M.lbi
          · show (τ2.best_incoming.set ((g.edgeAt e).«to»)
              (some (e, k + costOf g e))).length = σ1.best_incoming.length
            rw [List.length_set]
            exact M.lcbi
        have hside : ((g.edgeAt e).«to» = s → ∃ ec c,
            (cheapUpd g k τ2 e).recAt s = some (ec, c) ∧ c ≤ k + costOf g e) ∧
            (∀ ec c, τ2.recAt s = some (ec, c) →
              ∃ ec2 c2, (cheapUpd g k τ2 e).recAt s = some (ec2, c2) ∧ c2 ≤ c) := by
          refine ⟨fun h => absurd h hts, ?_⟩
          intro ec c h
          exact ⟨ec, c, by rw [recAt_cheapUpd_ne hts]; exact h, le_refl c⟩
        cases hbcase : σ2.bcAt ((g.edgeAt e).«to») with
        | none =>
          have hrecn : τ2.recAt ((g.edgeAt e).«to») = none := by
            cases h2 : τ2.recAt ((g.edgeAt e).«to») with
            | none => rfl
            | some w =>
              rw [h2, hbcase] at hmapt
              cases hmapt
          rw [relaxEdge_upd_none hnotskip hbcase, cheapRelax_upd_none hrecn]
          exact ⟨hupdM, hside.1, hside.2⟩
        | some bt =>
          rw [hbcase] at hmapt
          obtain ⟨ecx, hrecx⟩ := map_snd_some hmapt
          by_cases himp : k + costOf g e < bt
          · rw [relaxEdge_upd_some hnotskip hbcase himp,
              cheapRelax_upd_some hrecx (by linarith)]
            exact ⟨hupdM, hside.1, hside.2⟩
          · rw [relaxEdge_noimp hnotskip hbcase himp,
              cheapRelax_skip hrecx (le_of_not_lt himp)]
            exact ⟨M, fun h => absurd h hts, fun ec c h => ⟨ec, c, h, le_refl c⟩⟩

/-- The paired relaxation fold over any list of (existing) edges. -/
theorem fold_pair (hw : g.WF) (hn : NonnegCosts g)
    {σ : SearchState} (hinv : Inv g s 0 σ) {u : NodeId} {k : CostType}
    (hk0 : 0 ≤ k) (hmemσ : (u, k) ∈ σ.queue.data)
    {σ1 : SearchState} (hbc1 : σ1.best_cost = σ.best_cost)
    (hbi1 : σ1.best_incoming = σ.best_incoming)
    (hscl1 : σ1.closedAt s = true) (hucl1 : σ1.closedAt u = true)
    (hclne : ∀ v, v ≠ u → σ1.closedAt v = σ.closedAt v)
    (hku : σ.bcAt u = some k ∨ (u = s ∧ k = 0)) :
    ∀ es : List EdgeId, (∀ e ∈ es, e < g.edges.length) →
    ∀ (σ2 : SearchState) (τ2 : CheapState), MidRel g s σ1 σ2 τ2 →
    MidRel g s σ1 (es.foldl (relaxEdge g u k) σ2) (es.foldl (cheapRelax g u k) τ2) ∧
    (∀ e ∈ es, (g.edgeAt e).«to» = s →
      ∃ ec c, (es.foldl (cheapRelax g u k) τ2).recAt s = some (ec, c) ∧
        c ≤ k + costOf g e) ∧
    (∀ ec c, τ2.recAt s = some (ec, c) →
      ∃ ec2 c2, (es.foldl (cheapRelax g u k) τ2).recAt s = some (ec2, c2) ∧ c2 ≤ c) := by
  intro es
  induction es with
  | nil =>
    intro _ σ2 τ2 M
    exact ⟨M, fun e he => absurd he (List.not_mem_nil e),
      fun ec c h => ⟨ec, c, h, le_refl c⟩⟩
  | cons e rest ih =>
    intro hes σ2 τ2 M
    obtain ⟨M2, hpost, hmono⟩ := pair_step hw hn hinv hk0 hmemσ hbc1 hbi1 hscl1 hucl1
      hclne hku (hes e (List.mem_cons_self ..)) M
    obtain ⟨M3, hpost3, hmono3⟩ := ih (fun x hx => hes x (List.mem_cons_of_mem e hx)) _ _ M2
    rw [List.foldl_cons, List.foldl_cons]
    refine ⟨M3, ?_, ?_⟩
    · intro e2 he2 hte2
      rcases List.mem_cons.mp he2 with rfl | he3
      · obtain ⟨ec, c, hrec, hle⟩ := hpost hte2
        obtain ⟨ec2, c2, hrec2, hle2⟩ := hmono3 ec c hrec
        exact ⟨ec2, c2, hrec2, le_trans hle2 hle⟩
      · exact hpost3 e2 he3 hte2
    · intro ec c h
      obtain ⟨ec2, c2, h2, hle2⟩ := hmono ec c h
      obtain ⟨ec3, c3, h3, hle3⟩ := hmono3 ec2 c2 h2
      exact ⟨ec3, c3, h3, le_trans hle3 hle2⟩

/-- A lockstep pop of an entry whose node is still open: both engines pop it,
`best_path` closes the node, both relax its outgoing edges, and the
simulation relation holds of the results. -/
theorem fresh_lockstep (hw : g.WF) (hn : NonnegCosts g) (hs : s < g.nodes.length)
    {σ : SearchState} {τ : CheapState} (hinv : Inv g s 0 σ)
    {u : NodeId} {k : CostType} {T : List (Nat × CostType)}
    (hq : τ.queue.data = (u, k) :: T)
    (hσq : σ.queue.data = (u, k) :: T.filter (fun x => x.1 != s))
    (hcl : σ.closedAt u = false)
    (htb1 : ∀ v, v ≠ s → (τ.recAt v).map Prod.fst = σ.biAt v)
    (htb2 : ∀ v, v ≠ s → (τ.recAt v).map Prod.snd = σ.bcAt v)
    (hqsrt : sortedKeys τ.queue.data) (hqpos : ∀ x ∈ τ.queue.data, 0 ≤ x.2)
    (hsq : ∀ k2, (s, k2) ∈ T → ∃ ec c, τ.recAt s = some (ec, c) ∧ c ≤ k2)
    (hsfr : ∀ u2 ku2, σ.closedAt u2 = true → valAt s 0 σ u2 = some ku2 →
      ∀ e ∈ (g.nodeAt u2).outgoing, (g.edgeAt e).«to» = s →
      ∃ ec c, τ.recAt s = some (ec, c) ∧ c ≤ ku2 + costOf g e)
    (hlrec : τ.best_incoming.length = g.nodes.length) :
    ∃ σ2 τ2, bestPathStep g σ = some σ2 ∧ cheapStep g τ = some τ2 ∧
      RelPost g s σ2 τ2 ∧ phi g σ2 < phi g σ ∧
      τ2.queue.data.length ≤ T.length + (g.nodeAt u).outgoing.length ∧
      σ2.is_closed = σ.is_closed.set u true := by
  have hmemσ : (u, k) ∈ σ.queue.data := by
    rw [hσq]
    exact List.mem_cons_self ..
  have hk0 : 0 ≤ k := by
    refine hqpos (u, k) ?_
    rw [hq]
    exact List.mem_cons_self ..
  have hvalu : valAt s 0 σ u = some k := Inv.popped_val hinv hσq hcl
  have hku : σ.bcAt u = some k ∨ (u = s ∧ k = 0) := by
    by_cases hus : u = s
    · right
      refine ⟨hus, ?_⟩
      rw [hus, valAt_self σ] at hvalu
      exact (Option.some.inj hvalu).symm
    · left
      rw [valAt_ne σ hus] at hvalu
      exact hvalu
  have hun : u < g.nodes.length := by
    by_cases hus : u = s
    · rw [hus]
      exact hs
    · rcases hinv.qent (u, k) hmemσ with ⟨h1, _⟩ | ⟨_, ⟨bu, hbu, _⟩, _⟩
      · exact absurd h1 hus
      · exact (hinv.rec_path u bu hbu).1
  have hσstep := bestPathStep_cons (g := g) hσq
  have hτstep := cheapStep_cons (g := g) hq
  obtain ⟨hinv2, hphi⟩ := step_preserves hw hn hs hinv hσstep
  have hucl1 : ({ σ with queue := ⟨T.filter (fun x => x.1 != s)⟩, is_closed := σ.is_closed.set u true } : SearchState).closedAt u = true := by
    show (σ.is_closed.set u true).getD u false = true
    refine getD_set_self ?_
    rw [hinv.len_cl]
    exact hun
  have hclne : ∀ v, v ≠ u → ({ σ with queue := ⟨T.filter (fun x => x.1 != s)⟩, is_closed := σ.is_closed.set u true } : SearchState).closedAt v = σ.closedAt v := by
    intro v hv
    show (σ.is_closed.set u true).getD v false = σ.is_closed.getD v false
    exact getD_set_ne (fun h2 => hv h2.symm)
  have hscl1 : ({ σ with queue := ⟨T.filter (fun x => x.1 != s)⟩, is_closed := σ.is_closed.set u true } : SearchState).closedAt s = true := by
    by_cases hus : u = s
    · rw [← hus]
      exact hucl1
    · rw [hclne s (fun h2 => hus h2.symm)]
      by_contra hcon
      have hstart := hinv.start (by simpa using hcon)
      have hqd : σ.queue.data = [(s, 0)] := by
        rw [hstart]
      rw [hσq] at hqd
      injection hqd with h1 _
      exact hus (congrArg Prod.fst h1)
  have M1 : MidRel g s ({ σ with queue := ⟨T.filter (fun x => x.1 != s)⟩, is_closed := σ.is_closed.set u true } : SearchState) ({ σ with queue := ⟨T.filter (fun x => x.1 != s)⟩, is_closed := σ.is_closed.set u true } : SearchState) { τ with queue := ⟨T⟩ } := by
    refine ⟨htb1, htb2, rfl, ?_, ?_, hsq, rfl, fun v _ => rfl, rfl, rfl, ?_⟩
    · have h0 := hqsrt
      rw [hq] at h0
      exact sortedKeys_tail h0
    · intro x hx
      refine hqpos x ?_
      rw [hq]
      exact List.mem_cons_of_mem _ hx
    · show τ.best_incoming.length = σ.best_incoming.length
      rw [hlrec, hinv.len_bi]
  have hes : ∀ e ∈ (g.nodeAt u).outgoing, e < g.edges.length :=
    fun e he => ((WF.mem_outgoing hw hun).mp he).1
  obtain ⟨Mf, hpostf, hmonof⟩ := fold_pair hw hn hinv hk0 hmemσ
    (show ({ σ with queue := ⟨T.filter (fun x => x.1 != s)⟩, is_closed := σ.is_closed.set u true } : SearchState).best_cost = σ.best_cost from rfl)
    (show ({ σ with queue := ⟨T.filter (fun x => x.1 != s)⟩, is_closed := σ.is_closed.set u true } : SearchState).best_incoming = σ.best_incoming from rfl) hscl1 hucl1
    hclne hku ((g.nodeAt u).outgoing) hes _ _ M1
  refine ⟨_, _, hσstep, hτstep, ?_, hphi, ?_, ?_⟩
  · refine ⟨hinv2, ?_, Mf.tb1, Mf.tb2, Mf.qeq, Mf.qsrt, Mf.qpos, Mf.sq, ?_, ?_⟩
    · rw [foldRelax_closedAt s]
      exact hscl1
    · intro u2 ku2 hu2cl hu2val e2 he2 hte2
      rw [foldRelax_closedAt u2] at hu2cl
      by_cases hu2s : σ.closedAt u2 = true
      · have hval : valAt s 0 σ u2 = some ku2 := by
          by_cases hu2ss : u2 = s
          · rw [hu2ss] at hu2val ⊢
            rw [valAt_self] at hu2val
            rw [valAt_self σ]
            exact hu2val
          · rw [valAt_ne _ hu2ss] at hu2val
            rw [valAt_ne σ hu2ss]
            rw [Mf.froz u2 hu2cl] at hu2val
            exact hu2val
        obtain ⟨ec, c, hrec, hcle⟩ := hsfr u2 ku2 hu2s hval e2 he2 hte2
        obtain ⟨ec2, c2, hrec2, hle2⟩ := hmonof ec c
          (show ({ τ with queue := ⟨T⟩ } : CheapState).recAt s = some (ec, c) from hrec)
        exact ⟨ec2, c2, hrec2, le_trans hle2 hcle⟩
      · have hu2u : u2 = u := by
          by_contra hne
          rw [hclne u2 hne] at hu2cl
          exact hu2s hu2cl
        subst hu2u
        have hku2 : ku2 = k := by
          by_cases hus : u2 = s
          · rcases hku with h | ⟨_, hk⟩
            · rw [hus] at h
              rw [hinv.src_bc] at h
              cases h
            · rw [hus] at hu2val
              rw [valAt_self] at hu2val
              rw [hk]
              exact (Option.some.inj hu2val).symm
          · rw [valAt_ne _ hus] at hu2val
            rcases hku with h | ⟨h1, _⟩
            · rw [Mf.froz u2 hucl1] at hu2val
              have h2 : σ.bcAt u2 = some ku2 := hu2val
              rw [h] at h2
              exact (Option.some.inj h2).symm
            · exact absurd h1 hus
        rw [hku2]
        exact hpostf e2 he2 hte2
    · show (((g.nodeAt u).outgoing).foldl (cheapRelax g u k)
        { τ with queue := ⟨T⟩ }).best_incoming.length = g.nodes.length
      rw [Mf.lcbi]
      exact hinv.len_bi
  · refine le_trans (cheapFold_queue_len ((g.nodeAt u).outgoing) _) ?_
    exact le_refl _
  · rw [foldRelax_is_closed]
/-- Closing an open node removes exactly its out-degree from the open-edge
count. -/
theorem openEdges_close (hw : g.WF) {σ σ2 : SearchState} {u : NodeId}
    (hun : u < g.nodes.length) (hlen : u < σ.is_closed.length)
    (hcl : σ.closedAt u = false) (h2 : σ2.is_closed = σ.is_closed.set u true) :
    openEdges g σ2 + ((g.nodeAt u).outgoing).length = openEdges g σ := by
  unfold openEdges
  rw [length_filter_eq_countP, length_filter_eq_countP]
  have hcl2 : ∀ v, σ2.closedAt v = if v = u then true else σ.closedAt v := by
    intro v
    unfold SearchState.closedAt
    rw [h2]
    by_cases hv : v = u
    · subst hv
      rw [if_pos rfl]
      exact getD_set_self hlen
    · rw [if_neg hv]
      exact getD_set_ne (fun h => hv h.symm)
  have hout : (g.nodeAt u).outgoing.length =
      (List.range g.edges.length).countP (fun e => (g.edgeAt e).«from» == u) := by
    rw [(hw.2.2.1 u hun).2.1, length_filter_eq_countP]
  rw [hout]
  have h1 : ∀ e ∈ List.range g.edges.length,
      (!(σ2.closedAt (g.edgeAt e).«from»)) =
        ((!(σ.closedAt (g.edgeAt e).«from»)) && !((g.edgeAt e).«from» == u)) := by
    intro e _
    rw [hcl2]
    by_cases hx : (g.edgeAt e).«from» = u
    · rw [if_pos hx]
      simp [hx]
    · rw [if_neg hx]
      simp [hx]
  have h3 : ∀ e ∈ List.range g.edges.length,
      ((g.edgeAt e).«from» == u) =
        ((!(σ.closedAt (g.edgeAt e).«from»)) && ((g.edgeAt e).«from» == u)) := by
    intro e _
    by_cases hx : (g.edgeAt e).«from» = u
    · rw [hx, hcl]
      simp
    · simp [hx]
  have e1 : (List.range g.edges.length).countP
      (fun e => !(σ2.closedAt (g.edgeAt e).«from»)) =
      (List.range g.edges.length).countP
        (fun e => (!(σ.closedAt (g.edgeAt e).«from»)) && !((g.edgeAt e).«from» == u)) :=
    List.countP_congr (fun e he => by rw [h1 e he])
  have e2 : (List.range g.edges.length).countP (fun e => (g.edgeAt e).«from» == u) =
      (List.range g.edges.length).countP
        (fun e => (!(σ.closedAt (g.edgeAt e).«from»)) && ((g.edgeAt e).«from» == u)) :=
    List.countP_congr (fun e he => by conv_lhs => rw [h3 e he])
  rw [e1, e2, Nat.add_comm]
  exact countP_and_split ..

/-- A run that empties the queue in `j` steps is what `searchGo` returns with
any fuel at least `j`. -/
theorem searchGo_of_runSteps :
    ∀ (j : Nat) (σ σf : SearchState), runSteps g j σ = some σf → σf.queue.data = [] →
    ∀ F, j ≤ F → searchGo g F σ = some σf := by
  intro j
  induction j with
  | zero =>
    intro σ σf hrun hqf F _
    cases hrun
    cases F with
    | zero =>
      unfold searchGo Heap.is_empty
      rw [List.isEmpty_iff.mpr hqf]
      rfl
    | succ F2 =>
      have hqh : σ.queue = ⟨[]⟩ := by
        have h0 : σ.queue = ⟨σ.queue.data⟩ := rfl
        rw [hqf] at h0
        exact h0
      have hstep : bestPathStep g σ = none := by
        show (match σ.queue.extract_min with
          | none => none
          | some ((f, from_cost), q) =>
            some (((g.nodeAt f).outgoing).foldl (relaxEdge g f from_cost)
              { σ with queue := q, is_closed := σ.is_closed.set f true })) = none
        rw [hqh]
        rfl
      show (match bestPathStep g σ with
        | none => some σ
        | some σ2 => searchGo g F2 σ2) = some σ
      rw [hstep]
  | succ j2 ih =>
    intro σ σf hrun hqf F hF
    unfold runSteps at hrun
    rcases hstep : bestPathStep g σ with _ | σ2
    · rw [hstep] at hrun
      cases hrun
    · rw [hstep] at hrun
      cases F with
      | zero => omega
      | succ F2 =>
        show (match bestPathStep g σ with
          | none => some σ
          | some σ3 => searchGo g F2 σ3) = some σf
        rw [hstep]
        exact ih σ2 σf hrun hqf F2 (by omega)

/-- The simulation: from any related pair, `cheapest_path`'s loop terminates
within `pending entries + open edges` further pops, ending related to the
`best_path` state reached by some run of at most `phi` steps. -/
theorem sim_run (hw : g.WF) (hn : NonnegCosts g) (hs : s < g.nodes.length) :
    ∀ (fuel : Nat) (σ : SearchState) (τ : CheapState), RelPost g s σ τ →
    τ.queue.data.length + openEdges g σ ≤ fuel →
    ∃ τf, cheapGo g fuel τ = some τf ∧ τf.queue.data = [] ∧
      ∃ j σf, j ≤ phi g σ ∧ runSteps g j σ = some σf ∧ σf.queue.data = [] ∧
        RelPost g s σf τf := by
  intro fuel
  induction fuel with
  | zero =>
    intro σ τ R hm
    have hqe : τ.queue.data = [] := List.length_eq_zero.mp (by omega)
    have hσe : σ.queue.data = [] := by
      have h0 := R.qeq
      rw [hqe] at h0
      exact h0.symm
    exact ⟨τ, cheapGo_of_empty hqe 0, hqe, 0, σ, Nat.zero_le _, rfl, hσe, R⟩
  | succ f ih =>
    intro σ τ R hm
    rcases hq : τ.queue.data with _ | ⟨⟨v, b⟩, T⟩
    · have hσe : σ.queue.data = [] := by
        have h0 := R.qeq
        rw [hq] at h0
        exact h0.symm
      exact ⟨τ, cheapGo_of_empty hq (f + 1), hq, 0, σ, Nat.zero_le _, rfl, hσe, R⟩
    · have hTlen : τ.queue.data.length = T.length + 1 := by
        rw [hq]
        rfl
      by_cases hvs : v = s
      · subst hvs
        obtain ⟨hstep, R2⟩ := cheap_stutter hw hn hs R hq
        have hm2 : ({ τ with queue := ⟨T⟩ } : CheapState).queue.data.length +
            openEdges g σ ≤ f := by
          show T.length + openEdges g σ ≤ f
          omega
        obtain ⟨τf, hgo, hqf, j, σf, hj, hrun, hσf, Rf⟩ := ih σ _ R2 hm2
        refine ⟨τf, ?_, hqf, j, σf, hj, hrun, hσf, Rf⟩
        show (match cheapStep g τ with
          | none => some τ
          | some τ2 => cheapGo g f τ2) = some τf
        rw [hstep]
        exact hgo
      · have hσq : σ.queue.data = (v, b) :: T.filter (fun x => x.1 != s) := by
          have h0 := R.qeq
          rw [hq, List.filter_cons, if_pos (by simpa using hvs)] at h0
          exact h0.symm
        have hmemσ : (v, b) ∈ σ.queue.data := by
          rw [hσq]
          exact List.mem_cons_self ..
        have hvn : v < g.nodes.length := by
          rcases R.inv.qent (v, b) hmemσ with ⟨h1, _⟩ | ⟨_, ⟨bu, hbu, _⟩, _⟩
          · exact absurd h1 hvs
          · exact (R.inv.rec_path v bu hbu).1
        by_cases hvc : σ.closedAt v = true
        · obtain ⟨hσstep, hτstep, R2⟩ := stale_lockstep hw hn hs R hq hvs hvc
          obtain ⟨_, hphi⟩ := step_preserves hw hn hs R.inv hσstep
          have hm2 : ({ τ with queue := ⟨T⟩ } : CheapState).queue.data.length +
              openEdges g ({ σ with queue := ⟨T.filter (fun x => x.1 != s)⟩ } :
                SearchState) ≤ f := by
            show T.length + openEdges g σ ≤ f
            omega
          obtain ⟨τf, hgo, hqf, j, σf, hj, hrun, hσf, Rf⟩ := ih _ _ R2 hm2
          refine ⟨τf, ?_, hqf, j + 1, σf, by omega, ?_, hσf, Rf⟩
          · show (match cheapStep g τ with
              | none => some τ
              | some τ2 => cheapGo g f τ2) = some τf
            rw [hτstep]
            exact hgo
          · show (match bestPathStep g σ with
              | none => none
              | some σ2 => runSteps g j σ2) = some σf
            rw [hσstep]
            exact hrun
        · have hvc2 : σ.closedAt v = false := by simpa using hvc
          have hsqT : ∀ k2, (s, k2) ∈ T → ∃ ec c, τ.recAt s = some (ec, c) ∧ c ≤ k2 := by
            intro k2 hk2
            refine R.sq k2 ?_
            rw [hq]
            exact List.mem_cons_of_mem _ hk2
          obtain ⟨σ2, τ2, hσstep, hτstep, R2, hphi, hql, hcls⟩ :=
            fresh_lockstep hw hn hs R.inv hq hσq hvc2 R.tb1 R.tb2 R.qsrt R.qpos hsqT
              R.sfr R.lrec
          have hopen := openEdges_close hw hvn
            (by rw [R.inv.len_cl]; exact hvn) hvc2 hcls
          have hm2 : τ2.queue.data.length + openEdges g σ2 ≤ f := by omega
          obtain ⟨τf, hgo, hqf, j, σf, hj, hrun, hσf, Rf⟩ := ih σ2 τ2 R2 hm2
          refine ⟨τf, ?_, hqf, j + 1, σf, by omega, ?_, hσf, Rf⟩
          · show (match cheapStep g τ with
              | none => some τ
              | some τ2b => cheapGo g f τ2b) = some τf
            rw [hτstep]
            exact hgo
          · show (match bestPathStep g σ with
              | none => none
              | some σ2b => runSteps g j σ2b) = some σf
            rw [hσstep]
            exact hrun

/-- With matching pointer tables off the source, the two reconstruction walks
coincide. -/
theorem recon_transfer {σf : SearchState} {τf : CheapState}
    (htb : ∀ v, v ≠ s → (τf.recAt v).map Prod.fst = σf.biAt v) :
    ∀ (fuel : Nat) (v : NodeId) (acc : List EdgeId),
    cheapReconstructGo g τf.best_incoming s fuel v acc =
      reconstructGo g σf.best_incoming s fuel v acc := by
  intro fuel
  induction fuel with
  | zero =>
    intro v acc
    rfl
  | succ f2 ih =>
    intro v acc
    by_cases hv : v = s
    · have h1 : cheapReconstructGo g τf.best_incoming s (f2 + 1) v acc = some acc := by
        show (if v = s then some acc else _) = some acc
        rw [if_pos hv]
      have h2 : reconstructGo g σf.best_incoming s (f2 + 1) v acc = some acc := by
        show (if v = s then some acc else _) = some acc
        rw [if_pos hv]
      rw [h1, h2]
    · cases hrec : τf.best_incoming.getD v none with
      | none =>
        have hbi : σf.best_incoming.getD v none = none := by
          have h0 := htb v hv
          rw [show τf.recAt v = none from hrec] at h0
          exact h0.symm
        have h1 : cheapReconstructGo g τf.best_incoming s (f2 + 1) v acc = none := by
          show (if v = s then some acc else
            match τf.best_incoming.getD v none with
            | none => none
            | some (edge_id, _) => cheapReconstructGo g τf.best_incoming s f2
                ((g.edgeAt edge_id).«from») (edge_id :: acc)) = none
          rw [if_neg hv, hrec]
        have h2 : reconstructGo g σf.best_incoming s (f2 + 1) v acc = none := by
          show (if v = s then some acc else
            match σf.best_incoming.getD v none with
            | none => none
            | some edge_id => reconstructGo g σf.best_incoming s f2
                ((g.edgeAt edge_id).«from») (edge_id :: acc)) = none
          rw [if_neg hv, hbi]
        rw [h1, h2]
      | some w =>
        obtain ⟨e0, c0⟩ := w
        have hbi : σf.best_incoming.getD v none = some e0 := by
          have h0 := htb v hv
          rw [show τf.recAt v = some (e0, c0) from hrec] at h0
          exact h0.symm
        have h1 : cheapReconstructGo g τf.best_incoming s (f2 + 1) v acc =
            cheapReconstructGo g τf.best_incoming s f2 ((g.edgeAt e0).«from»)
              (e0 :: acc) := by
          show (if v = s then some acc else
            match τf.best_incoming.getD v none with
            | none => none
            | some (edge_id, _) => cheapReconstructGo g τf.best_incoming s f2
                ((g.edgeAt edge_id).«from») (edge_id :: acc)) = _
          rw [if_neg hv, hrec]
        have h2 : reconstructGo g σf.best_incoming s (f2 + 1) v acc =
            reconstructGo g σf.best_incoming s f2 ((g.edgeAt e0).«from») (e0 :: acc) := by
          show (if v = s then some acc else
            match σf.best_incoming.getD v none with
            | none => none
            | some edge_id => reconstructGo g σf.best_incoming s f2
                ((g.edgeAt edge_id).«from») (edge_id :: acc)) = _
          rw [if_neg hv, hbi]
        rw [h1, h2, ih]

/-- The complete run of `cheapest_path`'s loop, related by the lockstep
simulation to the completed run of `best_path`'s loop. -/
theorem cheap_run (hw : g.WF) (hn : NonnegCosts g) (hs : s < g.nodes.length)
    (hz : Cost.zero_cost (P := EdgeProps) = 0) :
    ∃ τf σf, cheapGo g ((g.edges.length + 1) * (g.edges.length + 1)) (cheapInit g s) =
        some τf ∧
      searchGo g (g.edges.length + 1) (initState g s) = some σf ∧
      σf.queue.data = [] ∧ τf.queue.data = [] ∧ RelPost g s σf τf := by
  have hinv0 : Inv g s 0 (initState g s) := by
    rw [← hz]
    exact inv_init g s
  have hq0 : (cheapInit g s).queue.data = (s, (0 : ℚ)) :: ([] : List (Nat × CostType)) :=
    rfl
  have hσq0 : (initState g s).queue.data =
      (s, (0 : ℚ)) :: ([] : List (Nat × CostType)).filter (fun x => x.1 != s) := by
    show [(s, Cost.zero_cost (P := EdgeProps))] = [(s, (0 : ℚ))]
    rw [hz]
  have hcl0 : (initState g s).closedAt s = false := by
    show (List.replicate g.nodes.length false).getD s false = false
    rw [getD_replicate]
    split <;> rfl
  have hrec0 : ∀ v, (cheapInit g s).recAt v = none := by
    intro v
    show (List.replicate g.nodes.length none).getD v none = none
    rw [getD_replicate]
    split <;> rfl
  have hbi0 : ∀ v, (initState g s).biAt v = none := by
    intro v
    show (List.replicate g.nodes.length none).getD v none = none
    rw [getD_replicate]
    split <;> rfl
  have hbc0 : ∀ v, (initState g s).bcAt v = none := by
    intro v
    show (List.replicate g.nodes.length none).getD v none = none
    rw [getD_replicate]
    split <;> rfl
  obtain ⟨σ1, τ1, hσstep0, hτstep0, R1, hphi1, hql1, _⟩ :=
    fresh_lockstep hw hn hs hinv0 hq0 hσq0 hcl0
      (fun v _ => by rw [hrec0 v, hbi0 v]; rfl)
      (fun v _ => by rw [hrec0 v, hbc0 v]; rfl)
      (by rw [hq0]; exact List.pairwise_singleton ..)
      (by intro x hx; rw [hq0] at hx; rcases List.mem_singleton.mp hx with rfl; exact le_refl 0)
      (by intro k2 hk2; cases hk2)
      (by
        intro u2 ku2 hu2 _
        exfalso
        have h2 : (List.replicate g.nodes.length false).getD u2 false = true := hu2
        rw [getD_replicate] at h2
        revert h2
        split <;> intro h2 <;> cases h2)
      (List.length_replicate ..)
  have houtb : (g.nodeAt s).outgoing.length ≤ g.edges.length := by
    rw [(hw.2.2.1 s hs).2.1]
    refine le_trans (List.length_filter_le ..) ?_
    rw [List.length_range]
  have hopen1 : openEdges g σ1 ≤ g.edges.length := by
    unfold openEdges
    refine le_trans (List.length_filter_le ..) ?_
    rw [List.length_range]
  have hFexp : (g.edges.length + 1) * (g.edges.length + 1) =
      g.edges.length * g.edges.length + 2 * g.edges.length + 1 := by ring
  obtain ⟨f2, hf2⟩ : ∃ f2, (g.edges.length + 1) * (g.edges.length + 1) = f2 + 1 :=
    ⟨g.edges.length * g.edges.length + 2 * g.edges.length, hFexp⟩
  have hm1 : τ1.queue.data.length + openEdges g σ1 ≤ f2 := by
    have hc0 : ([] : List (Nat × CostType)).length = 0 := rfl
    omega
  obtain ⟨τf, hgoT, hqf, j, σf, hj, hrun, hσf, Rf⟩ := sim_run hw hn hs f2 σ1 τ1 R1 hm1
  have hgoFull : cheapGo g ((g.edges.length + 1) * (g.edges.length + 1))
      (cheapInit g s) = some τf := by
    rw [hf2]
    show (match cheapStep g (cheapInit g s) with
      | none => some (cheapInit g s)
      | some τ2 => cheapGo g f2 τ2) = some τf
    rw [hτstep0]
    exact hgoT
  have hrunAll : runSteps g (j + 1) (initState g s) = some σf := by
    show (match bestPathStep g (initState g s) with
      | none => none
      | some σ2 => runSteps g j σ2) = some σf
    rw [hσstep0]
    exact hrun
  have hphi0 : phi g (initState g s) ≤ g.edges.length + 1 :=
    phi_init
  have hrunF : searchGo g (g.edges.length + 1) (initState g s) = some σf :=
    searchGo_of_runSteps (j + 1) _ σf hrunAll hσf (g.edges.length + 1) (by omega)
  exact ⟨τf, σf, hgoFull, hrunF, hσf, hqf, Rf⟩

/-- The two engines agree exactly on single-target queries: the whole lockstep
run of `cheapest_path` against `best_path`. -/
theorem engines_agree (hw : g.WF) (hn : NonnegCosts g) (hs : s < g.nodes.length)
    (hz : Cost.zero_cost (P := EdgeProps) = 0) (t : NodeId) :
    g.best_path s [t] = g.cheapest_path s t := by
  by_cases hst : s = t
  · unfold Graph.best_path Graph.cheapest_path
    rw [if_pos (by rw [hst]; exact List.mem_singleton.mpr rfl), if_pos hst]
  · obtain ⟨τf, σf, hgoFull, hrunF, hσf, hqf, Rf⟩ := cheap_run hw hn hs hz
    have hmem : s ∉ [t] := by simpa using hst
    cases hbc : σf.bcAt t with
    | none =>
      have hct : cheapestTarget σf.best_cost [t] = none := by
        rw [cheapestTarget_none_iff]
        intro t2 ht2
        rw [List.mem_singleton] at ht2
        subst ht2
        exact hbc
      have hrecT : τf.best_incoming.getD t none = none := by
        have h0 := Rf.tb2 t (fun h2 => hst h2.symm)
        rw [hbc] at h0
        cases hrt : τf.recAt t with
        | none => exact hrt
        | some w =>
          rw [hrt] at h0
          cases h0
      have hbp : g.best_path s [t] = none := by
        simp only [Graph.best_path, if_neg hmem, hrunF, hct]
      have hcp : g.cheapest_path s t = none := by
        simp only [Graph.cheapest_path, if_neg hst, hgoFull, hrecT]
      rw [hbp, hcp]
    | some b =>
      have hct : cheapestTarget σf.best_cost [t] = some t := by
        apply cheapestTarget_singleton
        show (σf.bcAt t).isSome = true
        rw [hbc]
        rfl
      have h0 := Rf.tb2 t (fun h2 => hst h2.symm)
      rw [hbc] at h0
      obtain ⟨e0, hrt⟩ := map_snd_some h0
      have hrecT : τf.best_incoming.getD t none = some (e0, b) := hrt
      have hbp : g.best_path s [t] =
          reconstructGo g σf.best_incoming s g.nodes.length t [] := by
        simp only [Graph.best_path, if_neg hmem, hrunF, hct]
      have hcp : g.cheapest_path s t =
          cheapReconstructGo g τf.best_incoming s g.nodes.length t [] := by
        simp only [Graph.cheapest_path, if_neg hst, hgoFull, hrecT]
      rw [hbp, hcp, recon_transfer Rf.tb1]

/-- With every target id in range, the checked filter is the total one. -/
theorem filterRecordedChecked_ok (best_cost : List (Option CostType)) :
    ∀ targets : List NodeId, (∀ t ∈ targets, t < best_cost.length) →
    filterRecordedChecked best_cost targets =
      Except.ok (targets.filter (fun t => (best_cost.getD t none).isSome)) := by
  intro targets
  induction targets with
  | nil =>
    intro _
    rfl
  | cons t ts ih =>
    intro htv
    show (if t < best_cost.length then
        match filterRecordedChecked best_cost ts with
        | Except.error e => Except.error e
        | Except.ok rest =>
          Except.ok (if (best_cost.getD t none).isSome then t :: rest else rest)
      else Except.error ()) = _
    rw [if_pos (htv t (List.mem_cons_self ..)),
      ih (fun x hx => htv x (List.mem_cons_of_mem t hx)), List.filter_cons]

/-- With every target id in range, the selection as written in the source
(fallible indexing inside the filter) returns normally and agrees with the
total model: no panic happens on this scope. -/
theorem cheapestTargetChecked_ok (best_cost : List (Option CostType))
    (targets : List NodeId) (htv : ∀ t ∈ targets, t < best_cost.length) :
    cheapestTargetChecked best_cost targets =
      Except.ok (cheapestTarget best_cost targets) := by
  unfold cheapestTargetChecked cheapestTarget
  rw [filterRecordedChecked_ok best_cost targets htv]

/-! ### The claims -/

/-- C1: for a well-formed graph with non-negative edge costs, a valid source
and a target reachable from it, `best_path source [target]` returns a path
(an edge-id sequence) from source to target whose cost is minimal among all
edge-id paths from source to target. -/
theorem claim_C1 (hw : g.WF) (hn : NonnegCosts g) {t : NodeId}
    (hs : s < g.nodes.length) (hreach : ∃ p0, IsPath g s t p0) :
    ∃ path, g.best_path s [t] = some path ∧ IsPath g s t path ∧
      ∀ p, IsPath g s t p → g.cost path ≤ g.cost p := by
  by_cases hst : s = t
  · subst hst
    refine ⟨[], ?_, IsPath.nil s, ?_⟩
    · unfold Graph.best_path
      rw [if_pos (List.mem_singleton.mpr rfl)]
    · intro p hp
      rw [cost_nil]
      exact hp.cost_nonneg hn
  · obtain ⟨σf, hrun, hInv, hq⟩ := best_path_run hw hn hs
    obtain ⟨p0, hp0⟩ := hreach
    have hrec : (σf.bcAt t).isSome = true := by
      rcases final_reach_recorded hw hs hInv hq s t p0 hp0 (Or.inl rfl) with h | h
      · exact absurd h.symm hst
      · exact h
    obtain ⟨b, hb⟩ := Option.isSome_iff_exists.mp hrec
    have hct : cheapestTarget σf.best_cost [t] = some t := by
      apply cheapestTarget_singleton
      show (σf.bcAt t).isSome = true
      exact hrec
    obtain ⟨path, hrecon, hpath, hpne, hcost, hloop⟩ := final_reconstruct hw hInv hq t b hb
    have hmem : s ∉ [t] := by simpa using hst
    refine ⟨path, ?_, hpath, ?_⟩
    · simp only [Graph.best_path, if_neg hmem, hrun, hct, hrecon]
    · intro p hp
      have hvs : valAt s (Cost.zero_cost (P := EdgeProps)) σf s =
          some (Cost.zero_cost (P := EdgeProps)) := by
        unfold valAt
        rw [if_pos rfl]
      obtain ⟨bv, hbv, hble⟩ := final_opt hw hn hs hInv hq s t p hp _ hvs
      have hbvt : valAt s (Cost.zero_cost (P := EdgeProps)) σf t = some b := by
        unfold valAt
        rw [if_neg (fun h => hst h.symm)]
        exact hb
      rw [hbvt] at hbv
      have hbbv : b = bv := Option.some.inj hbv
      rw [hbbv] at hcost
      linarith

theorem claim_C1_witness :
    ∃ path, exG.best_path 0 [2] = some path ∧ IsPath exG 0 2 path ∧
      ∀ p, IsPath exG 0 2 p → exG.cost path ≤ exG.cost p :=
  claim_C1 (by decide) (by decide) (by decide)
    ⟨[0, 1], IsPath.cons 0 0 2 [1] (by decide) rfl
      (IsPath.cons 1 1 2 [] (by decide) rfl (IsPath.nil 2))⟩

/-- C3: along `best_path`'s search loop (any state reachable from the initial
one), a closed node's recorded `best_cost` and `best_incoming` never change
again and the node stays closed; and popping a queue entry of an already
closed node only discards the entry: no table update and no queue
insertion. -/
theorem claim_C3 (hw : g.WF) (hn : NonnegCosts g) (hs : s < g.nodes.length)
    {j : Nat} {σ : SearchState} (hj : runSteps g j (initState g s) = some σ) :
    (∀ k σ2, runSteps g k σ = some σ2 → ∀ v, σ.closedAt v = true →
      σ2.bcAt v = σ.bcAt v ∧ σ2.biAt v = σ.biAt v ∧ σ2.closedAt v = true) ∧
    (∀ u kq rest, σ.queue.data = (u, kq) :: rest → σ.closedAt u = true →
      bestPathStep g σ = some { σ with queue := ⟨rest⟩ }) := by
  have hInv : Inv g s (Cost.zero_cost (P := EdgeProps)) σ :=
    runSteps_inv hw hn hs j _ σ (inv_init g s) hj
  exact ⟨fun k σ2 h v hv => runSteps_closed_frame hw hn hs k σ σ2 hInv h v hv,
    fun u kq rest hpop hcl => stale_pop_noop hw hn hInv hpop hcl⟩

theorem claim_C3_witness :
    (∀ k σ2, runSteps exG k (initState exG 0) = some σ2 →
      ∀ v, (initState exG 0).closedAt v = true →
      σ2.bcAt v = (initState exG 0).bcAt v ∧ σ2.biAt v = (initState exG 0).biAt v ∧
        σ2.closedAt v = true) ∧
    (∀ u kq rest, (initState exG 0).queue.data = (u, kq) :: rest →
      (initState exG 0).closedAt u = true →
      bestPathStep exG (initState exG 0) = some { initState exG 0 with queue := ⟨rest⟩ }) :=
  claim_C3 (by decide) (by decide) (by decide)
    (show runSteps exG 0 (initState exG 0) = some (initState exG 0) from rfl)

/-- C6: whenever the source is a member of targets, `best_path` returns the
empty edge-id sequence, and `Graph::cost` of the empty sequence is the zero
cost (§4.1 makes `zero_cost` the additive identity `0` of the cost type). -/
theorem claim_C6 (targets : List NodeId) (hmem : s ∈ targets)
    (hz : Cost.zero_cost (P := EdgeProps) = 0) :
    g.best_path s targets = some [] ∧ g.cost [] = Cost.zero_cost (P := EdgeProps) := by
  constructor
  · unfold Graph.best_path
    rw [if_pos hmem]
  · rw [cost_nil, hz]

theorem claim_C6_witness :
    exG.best_path 0 [2, 0] = some [] ∧ exG.cost [] = Cost.zero_cost (P := ℚ) :=
  claim_C6 [2, 0] (by decide) rfl

/-- C7 (amended): for a targets sequence not containing the source whose
members all reference existing nodes, `best_path` returns `None` exactly when
no member of targets is reachable from the source by a directed edge path —
the not-found result, not an error; moreover on that scope the selection's
`best_cost[target]` indexing is in bounds: the checked selection returns
normally and agrees with the total model.  For a target id of a non-existent
node the selection instead dies with an index out-of-range panic (a §7
contract violation; see the counterexample), so the literal claim's
unrestricted quantifier fails there. -/
theorem claim_C7 (hw : g.WF) (hn : NonnegCosts g) (hs : s < g.nodes.length)
    (targets : List NodeId) (hsrc : s ∉ targets)
    (htv : ∀ t ∈ targets, t < g.nodes.length) :
    (g.best_path s targets = none ↔ ∀ t ∈ targets, ¬∃ p, IsPath g s t p) ∧
    (∀ σf, searchGo g (g.edges.length + 1) (initState g s) = some σf →
      cheapestTargetChecked σf.best_cost targets =
        Except.ok (cheapestTarget σf.best_cost targets)) := by
  obtain ⟨σf, hrun, hInv, hq⟩ := best_path_run hw hn hs
  refine ⟨?_, ?_⟩
  · have hchar : ∀ t, t ≠ s → ((σf.bcAt t).isSome = true ↔ ∃ p, IsPath g s t p) := by
      intro t hts
      constructor
      · intro h
        obtain ⟨b, hb⟩ := Option.isSome_iff_exists.mp h
        obtain ⟨p, _, hp, _⟩ := (hInv.rec_path t b hb).2.2
        exact ⟨p, hp⟩
      · intro hex
        obtain ⟨p, hp⟩ := hex
        rcases final_reach_recorded hw hs hInv hq s t p hp (Or.inl rfl) with h | h
        · exact absurd h hts
        · exact h
    constructor
    · intro hnone t ht hre
      have hts : t ≠ s := fun h => hsrc (h ▸ ht)
      have hsome := (hchar t hts).mpr hre
      obtain ⟨b, hb⟩ := Option.isSome_iff_exists.mp hsome
      have hctn : cheapestTarget σf.best_cost targets ≠ none := by
        intro hcn
        have h2 := (cheapestTarget_none_iff σf.best_cost targets).mp hcn t ht
        have h3 : σf.bcAt t = none := h2
        rw [hb] at h3
        cases h3
      obtain ⟨t2, hct⟩ := Option.ne_none_iff_exists'.mp hctn
      obtain ⟨_, ht2some⟩ := cheapestTarget_some σf.best_cost targets hct
      obtain ⟨b2, hb2⟩ := Option.isSome_iff_exists.mp ht2some
      have hb2' : σf.bcAt t2 = some b2 := hb2
      obtain ⟨p2, hrec2, _⟩ := final_reconstruct hw hInv hq t2 b2 hb2'
      simp only [Graph.best_path, if_neg hsrc, hrun, hct, hrec2] at hnone
      cases hnone
    · intro hnone
      have hct : cheapestTarget σf.best_cost targets = none := by
        rw [cheapestTarget_none_iff]
        intro t ht
        by_cases hts : t = s
        · subst hts
          exact hInv.src_bc
        · show σf.bcAt t = none
          cases hcase : σf.bcAt t with
          | none => rfl
          | some b =>
            exact absurd ((hchar t hts).mp (by rw [hcase]; rfl)) (hnone t ht)
      simp only [Graph.best_path, if_neg hsrc, hrun, hct]
  · intro σf2 hrun2
    rw [hrun] at hrun2
    have heq : σf = σf2 := Option.some.inj hrun2
    subst heq
    refine cheapestTargetChecked_ok σf.best_cost targets ?_
    intro t ht
    rw [hInv.len_bc]
    exact htv t ht

theorem claim_C7_witness :
    (exG.best_path 1 [0] = none ↔ ∀ t ∈ [0], ¬∃ p, IsPath exG 1 t p) ∧
    (∀ σf, searchGo exG (exG.edges.length + 1) (initState exG 1) = some σf →
      cheapestTargetChecked σf.best_cost [0] =
        Except.ok (cheapestTarget σf.best_cost [0])) :=
  claim_C7 (by decide) (by decide) (by decide) [0] (by decide) (by decide)

/-- C7, counterexample to the literal wording: in the one-node graph take
source 0 and targets `[1]`, where id 1 references no node.  The source is not
a target and target 1 is unreachable, so the literal claim promises the
not-found `None`; but the target-selection step of the finished search indexes
`best_cost[1]` out of range, so the program panics instead of returning. -/
theorem claim_C7_counterexample :
    (0 : NodeId) ∉ [(1 : NodeId)] ∧ (¬∃ p, IsPath oneG 0 1 p) ∧
    (searchGo oneG (oneG.edges.length + 1) (initState oneG 0)).map
      (fun σf => cheapestTargetChecked σf.best_cost [1]) = some (Except.error ()) := by
  refine ⟨by decide, ?_, rfl⟩
  rintro ⟨p, hp⟩
  cases hp with
  | cons e v w q heE hfrom htail => exact Nat.not_lt_zero e heE

/-- C8 (amended): for non-negative costs the search loop terminates with an
empty queue within `edges + 1` pops, and at termination `best_cost` holds
`Some` for exactly the non-source nodes reachable from the source by a
non-empty edge path.  The source itself always keeps `None`, even when a cycle
makes it reachable from itself (the literal claim fails there, see the
counterexample). -/
theorem claim_C8 (hw : g.WF) (hn : NonnegCosts g) (hs : s < g.nodes.length) :
    ∃ σf, searchGo g (g.edges.length + 1) (initState g s) = some σf ∧
      σf.queue.data = [] ∧
      ∀ v, (σf.bcAt v).isSome = true ↔ (v ≠ s ∧ ∃ p, p ≠ [] ∧ IsPath g s v p) := by
  obtain ⟨σf, hrun, hInv, hq⟩ := best_path_run hw hn hs
  refine ⟨σf, hrun, hq, fun v => ⟨?_, ?_⟩⟩
  · intro h
    obtain ⟨b, hb⟩ := Option.isSome_iff_exists.mp h
    obtain ⟨_, hvs, p, hpne, hp, _⟩ := hInv.rec_path v b hb
    exact ⟨hvs, p, hpne, hp⟩
  · intro hcase
    obtain ⟨hvs, p, hpne, hp⟩ := hcase
    rcases final_reach_recorded hw hs hInv hq s v p hp (Or.inl rfl) with h | h
    · exact absurd h hvs
    · exact h

theorem claim_C8_witness :
    ∃ σf, searchGo exG (exG.edges.length + 1) (initState exG 0) = some σf ∧
      σf.queue.data = [] ∧
      ∀ v, (σf.bcAt v).isSome = true ↔ (v ≠ 0 ∧ ∃ p, p ≠ [] ∧ IsPath exG 0 v p) :=
  claim_C8 (by decide) (by decide) (by decide)

/-- C8, counterexample to the literal wording: in the two-node cycle `cycG`
the source 0 is reachable from itself by the non-empty path `[0, 1]` and all
costs are non-negative; the search terminates with an empty queue, yet
`best_cost[0]` is still `None`. -/
theorem claim_C8_counterexample :
    NonnegCosts cycG ∧ (∃ p, p ≠ [] ∧ IsPath cycG 0 0 p) ∧
    (searchGo cycG (cycG.edges.length + 1) (initState cycG 0)).map
      (fun σf => (σf.queue.data, σf.bcAt 0)) = some ([], none) := by
  refine ⟨by decide, ⟨[0, 1], by decide, ?_⟩, by decide⟩
  exact IsPath.cons 0 0 0 [1] (by decide) rfl
    (IsPath.cons 1 1 0 [] (by decide) rfl (IsPath.nil 0))

/-- C9 (amended): `insert_edge` succeeds exactly when both endpoints reference
existing nodes, and then returns the fresh id `edges.length`; when either id
is out of range it fails, but the failure state is not the unchanged graph:
the edge record and the props entry have already been appended (and, when only
`to` is invalid, the `from` adjacency list as well). -/
theorem claim_C9 (f t : NodeId) (p2 : EdgeProps) :
    (f < g.nodes.length ∧ t < g.nodes.length →
      ∃ g2, g.insert_edge f t p2 = Except.ok (g2, g.edges.length)) ∧
    (¬(f < g.nodes.length ∧ t < g.nodes.length) →
      ∃ gerr, g.insert_edge f t p2 = Except.error gerr ∧
        gerr.edges = g.edges ++ [⟨g.edges.length, f, t⟩] ∧
        gerr.props = g.props ++ [p2]) := by
  constructor
  · intro hft
    obtain ⟨hf, ht⟩ := hft
    refine ⟨⟨(g.nodes.modify (pushOutgoing · g.edges.length) f).modify
        (pushIncoming · g.edges.length) t, g.states,
      g.edges ++ [⟨g.edges.length, f, t⟩], g.props ++ [p2]⟩, ?_⟩
    simp only [Graph.insert_edge]
    rw [if_pos (show f < g.nodes.length from hf),
      if_pos (show t < (g.nodes.modify _ f).length from by
        rw [List.length_modify]; exact ht)]
  · intro hft
    by_cases hf : f < g.nodes.length
    · have ht : ¬t < g.nodes.length := fun h => hft ⟨hf, h⟩
      refine ⟨⟨g.nodes.modify (pushOutgoing · g.edges.length) f, g.states,
        g.edges ++ [⟨g.edges.length, f, t⟩], g.props ++ [p2]⟩, ?_, rfl, rfl⟩
      simp only [Graph.insert_edge]
      rw [if_pos (show f < g.nodes.length from hf),
        if_neg (show ¬t < (g.nodes.modify _ f).length from by
          rw [List.length_modify]; exact ht)]
    · refine ⟨⟨g.nodes, g.states, g.edges ++ [⟨g.edges.length, f, t⟩],
        g.props ++ [p2]⟩, ?_, rfl, rfl⟩
      simp only [Graph.insert_edge]
      rw [if_neg (show ¬f < g.nodes.length from hf)]

theorem claim_C9_witness :
    ((0 < exG.nodes.length ∧ 1 < exG.nodes.length →
      ∃ g2, exG.insert_edge 0 1 7 = Except.ok (g2, exG.edges.length)) ∧
    (¬(0 < exG.nodes.length ∧ 1 < exG.nodes.length) →
      ∃ gerr, exG.insert_edge 0 1 7 = Except.error gerr ∧
        gerr.edges = exG.edges ++ [⟨exG.edges.length, 0, 1⟩] ∧
        gerr.props = exG.props ++ [7])) :=
  claim_C9 0 1 7

/-- C9, counterexample to the literal wording: inserting an edge with invalid
endpoints into the empty graph fails, but the state at the failure point is
not the unchanged graph — the edge record and the props entry were pushed
before the invalid index was reached. -/
theorem claim_C9_counterexample :
    (Graph.new : Graph Unit ℚ).insert_edge 0 0 1 =
      Except.error ⟨[], [], [⟨0, 0, 0⟩], [1]⟩ ∧
    [(⟨0, 0, 0⟩ : Edge)] ≠ (Graph.new : Graph Unit ℚ).edges := by
  exact ⟨rfl, by decide⟩

/-- C10: the source-in-targets short-circuit performs no id validation: for
any id `s` — an existing node or not — `best_path s targets` returns
`Some []` whenever `s ∈ targets`, and `cheapest_path s s` returns `Some []`;
in the source both short-circuits precede every access to the node, state,
edge and props sequences, so no failure can occur. -/
theorem claim_C10 (targets : List NodeId) (hmem : s ∈ targets) :
    g.best_path s targets = some [] ∧ g.cheapest_path s s = some [] := by
  constructor
  · unfold Graph.best_path
    rw [if_pos hmem]
  · unfold Graph.cheapest_path
    rw [if_pos rfl]

theorem claim_C10_witness :
    exG.best_path 7 [7] = some [] ∧ exG.cheapest_path 7 7 = some [] :=
  claim_C10 [7] (by decide)

/-- C2: for a well-formed graph with non-negative costs, a valid source and
the §4.1 zero-cost contract, the multi-target engine on a single target and
the single-target engine return exactly the same result — the same `None`
cases and the same edge-id sequence under ties.  Proved by a lockstep
simulation of the two loops over the spec-modelled queue. -/
theorem claim_C2 (hw : g.WF) (hn : NonnegCosts g) {t : NodeId}
    (hs : s < g.nodes.length) (hz : Cost.zero_cost (P := EdgeProps) = 0) :
    g.best_path s [t] = g.cheapest_path s t :=
  engines_agree hw hn hs hz t

theorem claim_C2_witness : exG.best_path 0 [2] = exG.cheapest_path 0 2 :=
  claim_C2 (by decide) (by decide) (by decide) rfl

/-- C4: the `unreachable!()` branch of path reconstruction is dead in both
engines: in the final state of either search, every node carrying a record
can be walked back to the source within `nodes.length` steps, every
intermediate non-source node having a recorded incoming edge — so the
reconstruction (whose `none` covers exactly the `unreachable!()` branch and
fuel exhaustion) succeeds. -/
theorem claim_C4 (hw : g.WF) (hn : NonnegCosts g) (hs : s < g.nodes.length)
    (hz : Cost.zero_cost (P := EdgeProps) = 0) :
    (∀ σf, searchGo g (g.edges.length + 1) (initState g s) = some σf →
      ∀ v b, σf.bcAt v = some b →
        ∃ p, reconstructGo g σf.best_incoming s g.nodes.length v [] = some p) ∧
    (∀ τf, cheapGo g ((g.edges.length + 1) * (g.edges.length + 1)) (cheapInit g s) =
        some τf →
      ∀ v e c, τf.recAt v = some (e, c) → v ≠ s →
        ∃ p, cheapReconstructGo g τf.best_incoming s g.nodes.length v [] = some p) := by
  obtain ⟨τf0, σf0, hgo0, hrun0, hσq0, hτq0, Rf⟩ := cheap_run hw hn hs hz
  constructor
  · intro σf hrun v b hb
    rw [hrun0] at hrun
    have hσeq : σf0 = σf := Option.some.inj hrun
    subst hσeq
    obtain ⟨p, hrec, _⟩ := final_reconstruct hw Rf.inv hσq0 v b hb
    exact ⟨p, hrec⟩
  · intro τf hgo v e c hrc hvs
    rw [hgo0] at hgo
    have hτeq : τf0 = τf := Option.some.inj hgo
    subst hτeq
    have h0 := Rf.tb2 v hvs
    rw [hrc] at h0
    have hbv : σf0.bcAt v = some c := h0.symm
    obtain ⟨p, hrec, _⟩ := final_reconstruct hw Rf.inv hσq0 v c hbv
    refine ⟨p, ?_⟩
    rw [recon_transfer Rf.tb1]
    exact hrec

theorem claim_C4_witness :
    (∀ σf, searchGo exG (exG.edges.length + 1) (initState exG 0) = some σf →
      ∀ v b, σf.bcAt v = some b →
        ∃ p, reconstructGo exG σf.best_incoming 0 exG.nodes.length v [] = some p) ∧
    (∀ τf, cheapGo exG ((exG.edges.length + 1) * (exG.edges.length + 1))
        (cheapInit exG 0) = some τf →
      ∀ v e c, τf.recAt v = some (e, c) → v ≠ 0 →
        ∃ p, cheapReconstructGo exG τf.best_incoming 0 exG.nodes.length v [] = some p) :=
  claim_C4 (by decide) (by decide) (by decide) rfl

/-- C5: no returned path of either engine contains a self-loop edge: every
edge id in a `Some` result has distinct endpoints (for non-negative costs, a
valid source, and the §4.1 zero-cost contract on the `cheapest_path` side). -/
theorem claim_C5 (hw : g.WF) (hn : NonnegCosts g) (hs : s < g.nodes.length)
    (hz : Cost.zero_cost (P := EdgeProps) = 0) :
    (∀ targets path, g.best_path s targets = some path →
      ∀ e ∈ path, (g.edgeAt e).«from» ≠ (g.edgeAt e).«to») ∧
    (∀ t path, g.cheapest_path s t = some path →
      ∀ e ∈ path, (g.edgeAt e).«from» ≠ (g.edgeAt e).«to») := by
  have hbest : ∀ targets path, g.best_path s targets = some path →
      ∀ e ∈ path, (g.edgeAt e).«from» ≠ (g.edgeAt e).«to» := by
    intro targets path hbp
    by_cases hmem : s ∈ targets
    · have h0 : g.best_path s targets = some [] := by
        unfold Graph.best_path
        rw [if_pos hmem]
      rw [h0] at hbp
      have hpe : ([] : List EdgeId) = path := Option.some.inj hbp
      intro e he
      rw [← hpe] at he
      cases he
    · obtain ⟨σf, hrun, hInv, hq⟩ := best_path_run hw hn hs
      simp only [Graph.best_path, if_neg hmem, hrun] at hbp
      cases hct : cheapestTarget σf.best_cost targets with
      | none =>
        simp only [hct] at hbp
        cases hbp
      | some t2 =>
        simp only [hct] at hbp
        obtain ⟨_, hsome⟩ := cheapestTarget_some σf.best_cost targets hct
        obtain ⟨b2, hb2⟩ := Option.isSome_iff_exists.mp hsome
        obtain ⟨p, hrec, _, _, _, hloop⟩ := final_reconstruct hw hInv hq t2 b2 hb2
        rw [hrec] at hbp
        have hpe : p = path := Option.some.inj hbp
        rw [← hpe]
        exact hloop
  refine ⟨hbest, ?_⟩
  intro t path hcp
  refine hbest [t] path ?_
  rw [engines_agree hw hn hs hz t]
  exact hcp

theorem claim_C5_witness :
    (∀ targets path, exG.best_path 0 targets = some path →
      ∀ e ∈ path, (exG.edgeAt e).«from» ≠ (exG.edgeAt e).«to») ∧
    (∀ t path, exG.cheapest_path 0 t = some path →
      ∀ e ∈ path, (exG.edgeAt e).«from» ≠ (exG.edgeAt e).«to») :=
  claim_C5 (by decide) (by decide) (by decide) rfl

end DijkstraRs
